import Mathlib

/-!
# Chain aggregation (MPIChain) : shallow embedding and verified properties

Embedding of `source/adios2/toolkit/aggregator/mpi/MPIChain.cpp`.  The
definitions of both parts of the development come first (`MPIChain`, then
`CompressSZ`), the theorems of both parts follow in the same order.

* `int` quantities (`m_Rank`, `m_Size`, `step`, tags, counts) are `Int`; on the
  inputs considered (`1 <= m_Size`, `0 <= step`, both representable as `int`)
  `m_Size - 1 - step` and `step + 1` do not overflow.
* `size_t` quantities are `Nat`, additions are reduced modulo `2 ^ 64`.
* A reference to a `BufferSTL` is a `BufRef` selector (caller buffer or
  `m_Buffers.front()`), read and written through `deref` / `assign`.
* An operation of the messaging substrate is a function returning
  `Except Failure _`; a thrown exception is `Except.error`.
* A member function of `MPIChain` maps the state of its rank to an `Outcome`:
  the state when it returned or raised, the substrate calls it made, and its
  return value or failure.
* The ranks of one chain are a `List Process` (index = rank).  A round runs the
  same call on every rank, the sends posted in the round being what the
  receives of that round are matched against.
* A send carries the bytes its buffer holds when it is posted (nothing touches
  that buffer before the matching `Wait`), and completes once posted; a
  receive completes with the first message its source posted for this rank
  with the same tag, and blocks for ever when there is none.
-/

namespace MPIChain

/-! ## Data model -/

/-- Modulus of `size_t` arithmetic. -/
def SIZE_T_MOD : Nat := 2 ^ 64

/-- The fields of `BufferSTL` used by the aggregator. -/
structure BufferSTL where
  m_Buffer : List Nat
  m_Position : Nat
  m_AbsolutePosition : Nat
deriving DecidableEq, Repr

/-- The value-initialised buffer created by `m_Buffers.emplace_back()`. -/
def BufferSTL.empty : BufferSTL :=
  { m_Buffer := [], m_Position := 0, m_AbsolutePosition := 0 }

/-- Data members of `MPIChain` (with those inherited from `MPIAggregator`). -/
structure Chain where
  m_Rank : Int
  m_Size : Int
  m_Buffers : List BufferSTL
  m_IsInExchangeAbsolutePosition : Bool
  m_SizeSend : Nat
  m_ExchangeAbsolutePosition : Nat
  m_CurrentBufferOrder : Nat
deriving DecidableEq, Repr

/-- One rank: the aggregator object and the buffer its caller passes by
reference to every call. -/
structure Process where
  agg : Chain
  bufferSTL : BufferSTL
deriving DecidableEq, Repr

/-- What a `BufferSTL &` can refer to. -/
inductive BufRef
  | caller
  | front
deriving DecidableEq, Repr

/-- Ways a call can fail to return normally. -/
inductive Failure
  | runtime_error (what : String)
  | mpi_error
  | blocked
  | undefined_behaviour
deriving DecidableEq, Repr

/-- Contents of a message. -/
inductive Payload
  | size_t (v : Nat)
  | chars (bs : List Nat)
  | int (v : Int)
deriving DecidableEq, Repr

/-- Memory a receive writes to. -/
inductive Target
  | absolutePosition
  | data (b : BufRef)
  | localVar
deriving DecidableEq, Repr

/-- An `MPI_Request` slot: never posted, a posted send, or a posted receive. -/
inductive Request
  | null
  | isend (dest : Int) (tag : Int) (data : Payload)
  | irecv (source : Int) (tag : Int) (count : Int) (target : Target)
deriving DecidableEq, Repr

/-- The request vectors posted in a round, indexed by rank. -/
abbrev Network := List (List Request)

/-- A call of the messaging substrate made by a rank: an operation it posted,
or a request it waited on. -/
inductive Call
  | post (r : Request)
  | wait (r : Request)
deriving DecidableEq, Repr

/-- What a call on one rank did: the state of the rank when the call returned
or raised, the substrate calls it made (in order), and the value it returned or
the failure it raised. -/
structure Outcome (α : Type) where
  state : Process
  calls : List Call
  result : Except Failure α

/-- Return normally without touching the substrate. -/
def Outcome.ret {α : Type} (p : Process) (a : α) : Outcome α :=
  { state := p, calls := [], result := .ok a }

/-- Raise without touching the substrate. -/
def Outcome.raise {α : Type} (p : Process) (e : Failure) : Outcome α :=
  { state := p, calls := [], result := .error e }

/-- Sequencing: the second part runs from the state the first part left, if the
first part returned. -/
def Outcome.andThen {α β : Type} (o : Outcome α) (f : Process → α → Outcome β) : Outcome β :=
  match o.result with
  | .error e => { state := o.state, calls := o.calls, result := .error e }
  | .ok a =>
    { state := (f o.state a).state, calls := o.calls ++ (f o.state a).calls,
      result := (f o.state a).result }

/-! ## Messaging substrate -/

/-- The conversion `static_cast<int>` of a `size_t` (two's complement, 32 bit). -/
def static_cast_int (x : Nat) : Int :=
  if x % 2 ^ 32 < 2 ^ 31 then ((x % 2 ^ 32 : Nat) : Int)
  else ((x % 2 ^ 32 : Nat) : Int) - 2 ^ 32

/-- Modelled from the spec: the non-blocking send of the messaging substrate
(`MPI_Isend`), for one `size_t`.  The destination must be a rank of the group. -/
def MPI_Isend_size_t (v : Nat) (dest tag size : Int) : Except Failure Request :=
  if 0 ≤ dest ∧ dest < size then .ok (.isend dest tag (.size_t v))
  else .error .mpi_error

/-- Modelled from the spec: the non-blocking send of the messaging substrate
(`MPI_Isend`), for `count` chars starting at `buf.data()`.  A negative count is
an error of the substrate; a count beyond the storage reads out of bounds. -/
def MPI_Isend_chars (buf : List Nat) (count : Int) (dest tag size : Int) :
    Except Failure Request :=
  if 0 ≤ dest ∧ dest < size then
    if count < 0 then .error .mpi_error
    else if buf.length < count.toNat then .error .undefined_behaviour
    else .ok (.isend dest tag (.chars (buf.take count.toNat)))
  else .error .mpi_error

/-- Modelled from the spec: the non-blocking receive of the messaging substrate
(`MPI_Irecv`). -/
def MPI_Irecv (source tag count size : Int) (target : Target) : Except Failure Request :=
  if 0 ≤ source ∧ source < size then
    if count < 0 then .error .mpi_error
    else .ok (.irecv source tag count target)
  else .error .mpi_error

/-- First message for `dest` with tag `tag` among the requests one rank posted. -/
def sentTo (dest tag : Int) : List Request → Option Payload
  | [] => none
  | .isend d t data :: rest => if d = dest ∧ t = tag then some data else sentTo dest tag rest
  | _ :: rest => sentTo dest tag rest

/-- Message in flight from `source` to `dest` with tag `tag`. -/
def Network.lookup (net : Network) (source dest tag : Int) : Option Payload :=
  if source < 0 then none
  else
    match net[source.toNat]? with
    | none => none
    | some reqs => sentTo dest tag reqs

/-- Modelled from the spec: the blocking wait of the messaging substrate
(`MPI_Wait`).  A posted send completes; a posted receive completes with the
matching message in flight and never returns when there is none; a message
longer than the posted count is an error.  Waiting on a slot that was never
posted is outside the contract. -/
def MPI_Wait (me : Int) (net : Network) : Request → Except Failure (Option (Target × Payload))
  | .null => .error .undefined_behaviour
  | .isend _ _ _ => .ok none
  | .irecv source tag count target =>
    match net.lookup source me tag with
    | none => .error .blocked
    | some (.chars bs) =>
      if (bs.length : Int) ≤ count then .ok (some (target, .chars bs)) else .error .mpi_error
    | some data => if 1 ≤ count then .ok (some (target, data)) else .error .mpi_error

/-! ## References to buffers -/

/-- Read through a buffer reference; `front()` of an empty vector is undefined. -/
def deref (p : Process) : BufRef → Except Failure BufferSTL
  | .caller => .ok p.bufferSTL
  | .front =>
    match p.agg.m_Buffers with
    | [] => .error .undefined_behaviour
    | b :: _ => .ok b

/-- Write through a buffer reference. -/
def assign (p : Process) (b : BufferSTL) : BufRef → Except Failure Process
  | .caller => .ok { p with bufferSTL := b }
  | .front =>
    match p.agg.m_Buffers with
    | [] => .error .undefined_behaviour
    | _ :: rest => .ok { p with agg := { p.agg with m_Buffers := b :: rest } }

/-- Store a completed receive in the memory it was posted for. -/
def complete (p : Process) : Option (Target × Payload) → Except Failure Process
  | none => .ok p
  | some (.absolutePosition, .size_t v) =>
    .ok { p with bufferSTL := { p.bufferSTL with m_AbsolutePosition := v } }
  | some (.data r, .chars bs) =>
    match deref p r with
    | .error e => .error e
    | .ok b =>
      if bs.length ≤ b.m_Buffer.length then
        assign p { b with m_Buffer := bs ++ b.m_Buffer.drop bs.length } r
      else .error .undefined_behaviour
  | some _ => .error .mpi_error

/-! ## MPIChain.cpp -/

/-- Modelled from the spec: `BufferSTL::Resize` (buffer module, not part of the
sources at hand): resizes the storage to `size` bytes, keeping the bytes
already there and filling new ones with zero. -/
def BufferSTL.Resize (b : BufferSTL) (size : Nat) : BufferSTL :=
  { b with m_Buffer := (b.m_Buffer ++ List.replicate (size - b.m_Buffer.length) 0).take size }

/-- `MPIChain::GetSender`. -/
def GetSender (p : Process) : Except Failure BufRef :=
  if p.agg.m_CurrentBufferOrder = 0 then .ok .caller
  else
    match p.agg.m_Buffers with
    | [] => .error .undefined_behaviour
    | _ :: _ => .ok .front

/-- `MPIChain::GetReceiver`. -/
def GetReceiver (p : Process) : Except Failure BufRef :=
  if p.agg.m_CurrentBufferOrder = 0 then
    match p.agg.m_Buffers with
    | [] => .error .undefined_behaviour
    | _ :: _ => .ok .front
  else .ok .caller

/-- `MPIChain::ResizeUpdateBufferSTL`. -/
def ResizeUpdateBufferSTL (newSize : Nat) (bufferSTL : BufferSTL) : BufferSTL :=
  let b := bufferSTL.Resize newSize
  { b with m_Position := b.m_Buffer.length }

/-- The local `endRank` of `IExchange` and `Wait`. -/
def endRank (m_Size step : Int) : Int := m_Size - 1 - step

/-- The local `sender` of `IExchange` and `Wait`. -/
def sender (m_Rank m_Size step : Int) : Bool :=
  decide (m_Rank ≥ 1 ∧ m_Rank ≤ endRank m_Size step)

/-- The local `receiver` of `IExchange` and `Wait`. -/
def receiver (m_Rank m_Size step : Int) : Bool :=
  decide (m_Rank < endRank m_Size step)

/-- The local `destination` of `IExchangeAbsolutePosition` and
`WaitAbsolutePosition`. -/
def destination (m_Size step : Int) : Int :=
  if step ≠ m_Size - 1 then step + 1 else 0

/-- The `if (sender)` block of `MPIChain::IExchange`: starting from three
unposted slots, posts the length and the payload of the sender-view buffer. -/
def IExchange.sends (p : Process) (step : Int) : Outcome (List Request) :=
  match GetSender p with
  | .error e => .raise p e
  | .ok sendBuffer =>
    if sender p.agg.m_Rank p.agg.m_Size step then
      match deref p sendBuffer with
      | .error e => .raise p e
      | .ok sb =>
        match MPI_Isend_size_t sb.m_Position (p.agg.m_Rank - 1) 0 p.agg.m_Size with
        | .error e => .raise p e
        | .ok r0 =>
          match MPI_Isend_chars sb.m_Buffer (static_cast_int sb.m_Position)
              (p.agg.m_Rank - 1) 1 p.agg.m_Size with
          | .error e => { state := p, calls := [.post r0], result := .error e }
          | .ok r1 => { state := p, calls := [.post r0, .post r1], result := .ok [r0, r1, .null] }
    else .ret p [.null, .null, .null]

/-- The `if (receiver)` block of `MPIChain::IExchange`: receives the length
(blocking), resizes the receiver-view buffer and posts the receive of the
payload in slot 2. -/
def IExchange.receives (p : Process) (step : Int) (net : Network) (requests : List Request) :
    Outcome (List Request) :=
  if receiver p.agg.m_Rank p.agg.m_Size step then
    match MPI_Irecv (p.agg.m_Rank + 1) 0 1 p.agg.m_Size .localVar with
    | .error e => .raise p e
    | .ok receiveSizeRequest =>
      match MPI_Wait p.agg.m_Rank net receiveSizeRequest with
      | .ok (some (_, .size_t bufferSize)) =>
        match GetReceiver p with
        | .error e =>
          { state := p, calls := [.post receiveSizeRequest, .wait receiveSizeRequest],
            result := .error e }
        | .ok receiveBuffer =>
          match deref p receiveBuffer with
          | .error e =>
            { state := p, calls := [.post receiveSizeRequest, .wait receiveSizeRequest],
              result := .error e }
          | .ok rb =>
            match assign p (ResizeUpdateBufferSTL bufferSize rb) receiveBuffer with
            | .error e =>
              { state := p, calls := [.post receiveSizeRequest, .wait receiveSizeRequest],
                result := .error e }
            | .ok p1 =>
              match MPI_Irecv (p.agg.m_Rank + 1) 1
                  (static_cast_int (ResizeUpdateBufferSTL bufferSize rb).m_Position)
                  p.agg.m_Size (.data receiveBuffer) with
              | .error e =>
                { state := p1, calls := [.post receiveSizeRequest, .wait receiveSizeRequest],
                  result := .error e }
              | .ok r2 =>
                { state := p1,
                  calls := [.post receiveSizeRequest, .wait receiveSizeRequest, .post r2],
                  result := .ok (requests.set 2 r2) }
      | .ok _ =>
        { state := p, calls := [.post receiveSizeRequest, .wait receiveSizeRequest],
          result := .error .mpi_error }
      | .error e =>
        { state := p, calls := [.post receiveSizeRequest, .wait receiveSizeRequest],
          result := .error e }
  else .ret p requests

/-- `MPIChain::IExchange`. -/
def IExchange (p : Process) (step : Int) (net : Network) : Outcome (List Request) :=
  if p.agg.m_Size = 1 then .ret p []
  else (IExchange.sends p step).andThen fun p1 requests => IExchange.receives p1 step net requests

/-- The rank with the guard `m_IsInExchangeAbsolutePosition` set to `v`. -/
def setGuard (p : Process) (v : Bool) : Process :=
  { p with agg := { p.agg with m_IsInExchangeAbsolutePosition := v } }

/-- `MPIChain::IExchangeAbsolutePosition`. -/
def IExchangeAbsolutePosition (p : Process) (step : Int) : Outcome (List Request) :=
  if p.agg.m_Size = 1 then .ret p []
  else if p.agg.m_IsInExchangeAbsolutePosition then
    .raise p (.runtime_error
      "ERROR: MPIChain::IExchangeAbsolutePosition: An existing exchange is still active.")
  else
    let p1 : Process :=
      if step = 0 then
        { p with agg := { p.agg with
            m_SizeSend :=
              if p.agg.m_Rank = 0 then p.bufferSTL.m_AbsolutePosition
              else p.bufferSTL.m_Position } }
      else p
    if p1.agg.m_Rank = step then
      let p2 : Process :=
        { p1 with agg := { p1.agg with
            m_ExchangeAbsolutePosition :=
              if p1.agg.m_Rank = 0 then p1.agg.m_SizeSend
              else (p1.agg.m_SizeSend + p1.bufferSTL.m_AbsolutePosition) % SIZE_T_MOD } }
      match MPI_Isend_size_t p2.agg.m_ExchangeAbsolutePosition
          (destination p2.agg.m_Size step) 0 p2.agg.m_Size with
      | .error e => .raise p2 e
      | .ok r0 => { state := setGuard p2 true, calls := [.post r0], result := .ok [r0, .null] }
    else if p1.agg.m_Rank = destination p1.agg.m_Size step then
      match MPI_Irecv step 0 1 p1.agg.m_Size .absolutePosition with
      | .error e => .raise p1 e
      | .ok r1 => { state := setGuard p1 true, calls := [.post r1], result := .ok [.null, r1] }
    else .ret (setGuard p1 true) [.null, .null]

/-- The call `MPI_Wait (&requests[i], &status)`, storing what was received. -/
def waitSlot (p : Process) (net : Network) (requests : List Request) (i : Nat) : Outcome Unit :=
  match requests[i]? with
  | none => .raise p .undefined_behaviour
  | some r =>
    match MPI_Wait p.agg.m_Rank net r with
    | .error e => { state := p, calls := [.wait r], result := .error e }
    | .ok got =>
      match complete p got with
      | .error e => { state := p, calls := [.wait r], result := .error e }
      | .ok p1 => { state := p1, calls := [.wait r], result := .ok () }

/-- `MPIChain::Wait`. -/
def Wait (p : Process) (requests : List Request) (step : Int) (net : Network) : Outcome Unit :=
  if p.agg.m_Size = 1 then .ret p ()
  else
    (if receiver p.agg.m_Rank p.agg.m_Size step then waitSlot p net requests 2
     else .ret p ()).andThen fun p1 _ =>
      if sender p.agg.m_Rank p.agg.m_Size step then
        (waitSlot p1 net requests 0).andThen fun p2 _ => waitSlot p2 net requests 1
      else .ret p1 ()

/-- `MPIChain::WaitAbsolutePosition`. -/
def WaitAbsolutePosition (p : Process) (requests : List Request) (step : Int) (net : Network) :
    Outcome Unit :=
  if p.agg.m_Size = 1 then .ret p ()
  else if !p.agg.m_IsInExchangeAbsolutePosition then
    .raise p (.runtime_error
      "ERROR: MPIChain::WaitAbsolutePosition: An existing exchange is not active.")
  else
    (if p.agg.m_Rank = destination p.agg.m_Size step then waitSlot p net requests 1
     else .ret p ()).andThen fun p1 _ =>
      (if p1.agg.m_Rank = step then waitSlot p1 net requests 0
       else .ret p1 ()).andThen fun p2 _ => .ret (setGuard p2 false) ()

/-- `MPIChain::SwapBuffers`. -/
def SwapBuffers (p : Process) (_step : Int) : Process :=
  { p with agg := { p.agg with
      m_CurrentBufferOrder := if p.agg.m_CurrentBufferOrder = 0 then 1 else 0 } }

/-- `MPIChain::ResetBuffers`. -/
def ResetBuffers (p : Process) : Process :=
  { p with agg := { p.agg with m_CurrentBufferOrder := 0 } }

/-- `MPIChain::GetConsumerBuffer`. -/
def GetConsumerBuffer (p : Process) : Except Failure BufRef := GetSender p

/-! ## The ranks of a chain running in rounds -/

/-- All calls of a round return normally, giving the new state and the value
returned on every rank, or the round fails. -/
def collect {α : Type} : List (Outcome α) → Except Failure (List (Process × α))
  | [] => .ok []
  | o :: rest =>
    match o.result with
    | .error e => .error e
    | .ok a =>
      match collect rest with
      | .error e => .error e
      | .ok as => .ok ((o.state, a) :: as)

/-- One round of the offset protocol: every rank calls
`IExchangeAbsolutePosition (buffer, step)`, the messages posted are delivered,
every rank calls `WaitAbsolutePosition (handle, step)`. -/
def offsetRound (ps : List Process) (step : Int) : Except Failure (List Process) :=
  match collect (ps.map fun p => IExchangeAbsolutePosition p step) with
  | .error e => .error e
  | .ok rs =>
    match collect (rs.map fun r => WaitAbsolutePosition r.1 r.2 step (rs.map Prod.snd)) with
    | .error e => .error e
    | .ok qs => .ok (qs.map Prod.fst)

/-- The rounds `step = 0 .. k-1` of the offset protocol, in order. -/
def offsetRounds : Nat → List Process → Except Failure (List Process)
  | 0, ps => .ok ps
  | k + 1, ps =>
    match offsetRounds k ps with
    | .error e => .error e
    | .ok qs => offsetRound qs k

/-- A full run of the offset protocol on a chain: steps `0 .. size-1`. -/
def offsetProtocol (ps : List Process) : Except Failure (List Process) :=
  offsetRounds ps.length ps

/-- The sends a rank posts when it calls `IExchange (buffer, step)`. -/
def postedSends (p : Process) (step : Int) : List Request :=
  if p.agg.m_Size = 1 then []
  else
    match (IExchange.sends p step).result with
    | .error _ => []
    | .ok requests => requests

/-- One round of the chain transfer: every rank calls `IExchange`, `Wait` and
`SwapBuffers` for `step`. -/
def transferRound (ps : List Process) (step : Int) : Except Failure (List Process) :=
  match collect (ps.map fun p => IExchange p step (ps.map fun q => postedSends q step)) with
  | .error e => .error e
  | .ok rs =>
    match collect (rs.map fun r => Wait r.1 r.2 step (ps.map fun q => postedSends q step)) with
    | .error e => .error e
    | .ok qs => .ok (qs.map fun q => SwapBuffers q.1 step)

/-- The rounds `step = 0 .. k-1` of the chain transfer, in order. -/
def transferRounds : Nat → List Process → Except Failure (List Process)
  | 0, ps => .ok ps
  | k + 1, ps =>
    match transferRounds k ps with
    | .error e => .error e
    | .ok qs => transferRound qs k

/-- The buffer `GetConsumerBuffer` refers to. -/
def consumerBuffer (p : Process) : Except Failure BufferSTL :=
  match GetConsumerBuffer p with
  | .error e => .error e
  | .ok r => deref p r

/-! ## Auxiliary definitions of the proofs -/

/-- The value a call returned (the default value when it raised). -/
def Outcome.value {α : Type} [Inhabited α] (o : Outcome α) : α :=
  match o.result with
  | .ok a => a
  | .error _ => default

/-- The local size a rank holds in `m_SizeSend` once it has called
`IExchangeAbsolutePosition` at `step`. -/
def localSize (p : Process) (step : Int) : Nat :=
  if step = 0 then
    (if p.agg.m_Rank = 0 then p.bufferSTL.m_AbsolutePosition else p.bufferSTL.m_Position)
  else p.agg.m_SizeSend

/-- The value the active rank sends at `step`. -/
def exchangeValue (p : Process) (step : Int) : Nat :=
  if p.agg.m_Rank = 0 then localSize p step
  else (localSize p step + p.bufferSTL.m_AbsolutePosition) % SIZE_T_MOD

/-! ## Vocabulary of the properties -/

/-- The processes are the ranks `0 .. size-1` of one chain, in rank order. -/
def IsChain (ps : List Process) : Prop :=
  ∀ i : Fin ps.length,
    (ps.get i).agg.m_Rank = ((i : Nat) : Int) ∧ (ps.get i).agg.m_Size = (ps.length : Int)

instance (ps : List Process) : Decidable (IsChain ps) := by
  unfold IsChain
  infer_instance

/-- No offset exchange is in flight on any rank. -/
def GuardClear (ps : List Process) : Prop :=
  ∀ p ∈ ps, p.agg.m_IsInExchangeAbsolutePosition = false

instance (ps : List Process) : Decidable (GuardClear ps) := by
  unfold GuardClear
  infer_instance

/-- The positions of the caller buffers are values of `size_t`. -/
def SizeTRange (ps : List Process) : Prop :=
  ∀ p ∈ ps, p.bufferSTL.m_Position < SIZE_T_MOD ∧ p.bufferSTL.m_AbsolutePosition < SIZE_T_MOD

instance (ps : List Process) : Decidable (SizeTRange ps) := by
  unfold SizeTRange
  infer_instance

/-- The local contribution sizes `s_0, s_1, ..` of the ranks before a run of
the offset protocol: the absolute position of the buffer of rank 0, the
position of the buffer of every other rank. -/
def localSizes : List Process → List Nat
  | [] => []
  | p0 :: rest => p0.bufferSTL.m_AbsolutePosition :: rest.map fun p => p.bufferSTL.m_Position

/-- The sum `s_0 + .. + s_(r-1)`. -/
def offsetSum (ps : List Process) (r : Nat) : Nat := ((localSizes ps).take r).sum

/-- The state of a chain that started an offset run in `ps`, once the rounds
`0 .. k-1` are done: every rank holds its local size, the ranks `1 .. k` hold
the sum of the local sizes below them, and rank 0 holds the sum of all after
the last round. -/
structure OffsetInv (ps : List Process) (k : Nat) (qs : List Process) : Prop where
  length : qs.length = ps.length
  chain : IsChain qs
  clear : GuardClear qs
  start : k = 0 → qs = ps
  sizes : 1 ≤ k → ∀ r q, qs[r]? = some q → q.agg.m_SizeSend = (localSizes ps).getD r 0
  sums : ∀ r q, qs[r]? = some q → 1 ≤ r → r ≤ k →
    q.bufferSTL.m_AbsolutePosition = offsetSum ps r % SIZE_T_MOD
  wrap : k = ps.length → ∀ q, qs[0]? = some q →
    q.bufferSTL.m_AbsolutePosition = offsetSum ps ps.length % SIZE_T_MOD

/-- The call left the place of the rank in the chain and its buffer order as
they were. -/
def SameIdentity (p q : Process) : Prop :=
  q.agg.m_Rank = p.agg.m_Rank ∧ q.agg.m_Size = p.agg.m_Size ∧
    q.agg.m_CurrentBufferOrder = p.agg.m_CurrentBufferOrder

/-- The buffer `GetReceiver` refers to. -/
def receiverBuffer (p : Process) : Except Failure BufferSTL :=
  match GetReceiver p with
  | .error e => .error e
  | .ok r => deref p r

/-- The buffer can be handed to the substrate as `m_Position` chars: the count
`static_cast<int>(m_Position)` is not negative and within the storage. -/
def Sendable (b : BufferSTL) : Prop :=
  0 ≤ static_cast_int b.m_Position ∧ (static_cast_int b.m_Position).toNat ≤ b.m_Buffer.length

/-- The buffer holds exactly `payload`: its position is the length of the
payload and its first `m_Position` bytes are the payload. -/
def HoldsPayload (b : BufferSTL) (payload : List Nat) : Prop :=
  b.m_Position = payload.length ∧ b.m_Buffer.take b.m_Position = payload

/-- The chain can run round `k` of the transfer: every rank has its local
buffer, and the buffer each rank of the active window would send can be handed
to the substrate. -/
structure TransferReady (k : Nat) (qs : List Process) : Prop where
  chain : IsChain qs
  buffers : ∀ p ∈ qs, p.agg.m_Buffers ≠ []
  sendable : ∀ (r : Nat) (p : Process), qs[r]? = some p → r + k ≤ qs.length - 1 →
    ∃ sb, consumerBuffer p = .ok sb ∧ Sendable sb

/-- The absolute positions of the caller buffers, in rank order. -/
def absolutePositions (ps : List Process) : List Nat :=
  ps.map fun p => p.bufferSTL.m_AbsolutePosition

/-- The ranks of a chain of `n` ranks that are senders at `step`. -/
def senders (n step : Nat) : Finset Nat :=
  (Finset.range n).filter fun r => sender (r : Int) (n : Int) (step : Int) = true

/-- The ranks of a chain of `n` ranks that are receivers at `step`. -/
def receivers (n step : Nat) : Finset Nat :=
  (Finset.range n).filter fun r => receiver (r : Int) (n : Int) (step : Int) = true

/-- The ranks of a chain of `n` ranks that neither send nor receive at `step`. -/
def idleRanks (n step : Nat) : Finset Nat :=
  (Finset.range n).filter fun r =>
    sender (r : Int) (n : Int) (step : Int) = false ∧
      receiver (r : Int) (n : Int) (step : Int) = false

/-- A rank of a chain of size `n`, as a process with an empty caller buffer
(used to instantiate the theorems). -/
def sampleProcess (rank n : Int) (guard : Bool) : Process :=
  { agg :=
      { m_Rank := rank, m_Size := n, m_Buffers := [BufferSTL.empty],
        m_IsInExchangeAbsolutePosition := guard, m_SizeSend := 0,
        m_ExchangeAbsolutePosition := 0, m_CurrentBufferOrder := 0 },
    bufferSTL := BufferSTL.empty }

/-- A chain of four ranks whose caller buffers hold 10, 20, 30 and 40 bytes,
rank 0 having the absolute position `seed`. -/
def scenario4 (seed : Nat) : List Process :=
  [ { sampleProcess 0 4 false with
      bufferSTL := { m_Buffer := List.replicate 10 0, m_Position := 10,
                     m_AbsolutePosition := seed } },
    { sampleProcess 1 4 false with
      bufferSTL := { m_Buffer := List.replicate 20 0, m_Position := 20,
                     m_AbsolutePosition := 0 } },
    { sampleProcess 2 4 false with
      bufferSTL := { m_Buffer := List.replicate 30 0, m_Position := 30,
                     m_AbsolutePosition := 0 } },
    { sampleProcess 3 4 false with
      bufferSTL := { m_Buffer := List.replicate 40 0, m_Position := 40,
                     m_AbsolutePosition := 0 } } ]

/-- A chain of three ranks after `Init` and `ResetBuffers`: the caller buffer
of rank 2 holds the 8 bytes of "ABCDEFGH", the one of rank 1 holds 3 bytes,
the one of rank 0 is empty. -/
def chain3 : List Process :=
  [ sampleProcess 0 3 false,
    { sampleProcess 1 3 false with
      bufferSTL := { m_Buffer := [1, 2, 3], m_Position := 3, m_AbsolutePosition := 0 } },
    { sampleProcess 2 3 false with
      bufferSTL := { m_Buffer := [65, 66, 67, 68, 69, 70, 71, 72], m_Position := 8,
                     m_AbsolutePosition := 0 } } ]

/-- A chain of two ranks: rank 0 has the absolute position 7, the caller
buffer of rank 1 holds 5 bytes. -/
def twoRanks : List Process :=
  [ { sampleProcess 0 2 false with
      bufferSTL := { m_Buffer := [], m_Position := 0, m_AbsolutePosition := 7 } },
    { sampleProcess 1 2 false with
      bufferSTL := { m_Buffer := [1, 2, 3, 4, 5], m_Position := 5,
                     m_AbsolutePosition := 0 } } ]

/-- The call posts a send. -/
def Call.isSendPost : Call → Bool
  | .post (.isend _ _ _) => true
  | _ => false

/-- The call posts a receive. -/
def Call.isReceivePost : Call → Bool
  | .post (.irecv _ _ _ _) => true
  | _ => false

/-- Modelled from the spec: the states an `MPIChain` object and the buffer of its
caller go through.  The declaration of the class (header, not part of the
sources at hand) starts the buffer-order flag in the default order 0; from
there the caller may write its buffer and call any member function, with any
argument. -/
inductive Reachable : Process → Prop
  | constructed (p : Process) (h : p.agg.m_CurrentBufferOrder = 0) : Reachable p
  | callerWrites (p : Process) (b : BufferSTL) (h : Reachable p) :
      Reachable { p with bufferSTL := b }
  | exchange (p : Process) (step : Int) (net : Network) (h : Reachable p) :
      Reachable (IExchange p step net).state
  | wait (p : Process) (requests : List Request) (step : Int) (net : Network)
      (h : Reachable p) : Reachable (Wait p requests step net).state
  | exchangeAbsolutePosition (p : Process) (step : Int) (h : Reachable p) :
      Reachable (IExchangeAbsolutePosition p step).state
  | waitAbsolutePosition (p : Process) (requests : List Request) (step : Int) (net : Network)
      (h : Reachable p) : Reachable (WaitAbsolutePosition p requests step net).state
  | swap (p : Process) (step : Int) (h : Reachable p) : Reachable (SwapBuffers p step)
  | reset (p : Process) (h : Reachable p) : Reachable (ResetBuffers p)

/-- A call of the offset protocol on one rank, with its arguments. -/
inductive OffsetCall
  | exchange (step : Int)
  | wait (requests : List Request) (step : Int) (net : Network)

/-- The call is `IExchangeAbsolutePosition` (not `WaitAbsolutePosition`). -/
def OffsetCall.isExchange : OffsetCall → Bool
  | .exchange _ => true
  | .wait _ _ _ => false

/-- The state a successful call leaves, or the failure it raises. -/
def OffsetCall.run (p : Process) : OffsetCall → Except Failure Process
  | .exchange step =>
    match (IExchangeAbsolutePosition p step).result with
    | .error e => .error e
    | .ok _ => .ok (IExchangeAbsolutePosition p step).state
  | .wait requests step net =>
    match (WaitAbsolutePosition p requests step net).result with
    | .error e => .error e
    | .ok _ => .ok (WaitAbsolutePosition p requests step net).state

/-- A sequence of calls of the offset protocol on one rank, all successful. -/
def runOffsetCalls : Process → List OffsetCall → Except Failure Process
  | p, [] => .ok p
  | p, c :: cs =>
    match c.run p with
    | .error e => .error e
    | .ok q => runOffsetCalls q cs

/-- Rank 0 of a chain of two, whose local buffer holds 5 bytes from an earlier
cycle. -/
def hopSink : Process :=
  { agg := { (sampleProcess 0 2 false).agg with
      m_Buffers := [{ m_Buffer := [1, 1, 1, 1, 1], m_Position := 5, m_AbsolutePosition := 0 }] },
    bufferSTL := BufferSTL.empty }

/-- Rank 1 of a chain of two, whose caller buffer holds the 3 bytes 7, 8, 9. -/
def hopSource : Process :=
  { sampleProcess 1 2 false with
    bufferSTL := { m_Buffer := [7, 8, 9], m_Position := 3, m_AbsolutePosition := 0 } }

/-- The chain of `hopSink` and `hopSource`. -/
def hopChain : List Process := [hopSink, hopSource]

instance (b : BufferSTL) : Decidable (Sendable b) := by
  unfold Sendable
  infer_instance

/-- What the chain transfer leaves alone on a rank: the guard, the captured
local size, the exchange value and the absolute position of both buffers. -/
def TransferFrame (p q : Process) : Prop :=
  q.agg.m_IsInExchangeAbsolutePosition = p.agg.m_IsInExchangeAbsolutePosition ∧
  q.agg.m_SizeSend = p.agg.m_SizeSend ∧
  q.agg.m_ExchangeAbsolutePosition = p.agg.m_ExchangeAbsolutePosition ∧
  q.bufferSTL.m_AbsolutePosition = p.bufferSTL.m_AbsolutePosition ∧
  q.agg.m_Buffers.map (fun b => b.m_AbsolutePosition) =
    p.agg.m_Buffers.map (fun b => b.m_AbsolutePosition)

/-- What the offset protocol leaves alone on a rank: the local buffers, and the
bytes and the position of the caller buffer. -/
def OffsetFrame (p q : Process) : Prop :=
  q.agg.m_Buffers = p.agg.m_Buffers ∧ q.bufferSTL.m_Buffer = p.bufferSTL.m_Buffer ∧
  q.bufferSTL.m_Position = p.bufferSTL.m_Position

/-- No slot of the handle is a receive into an absolute position (a handle of
the chain transfer). -/
def NoOffsetTarget (requests : List Request) : Prop :=
  ∀ s t c, Request.irecv s t c .absolutePosition ∉ requests

/-- No slot of the handle is a receive into the bytes of a buffer (a handle of
the offset protocol). -/
def NoDataTarget (requests : List Request) : Prop :=
  ∀ s t c ref, Request.irecv s t c (.data ref) ∉ requests

/-- Every receive of the handle is into the bytes of the local buffer. -/
def FrontTarget (requests : List Request) : Prop :=
  ∀ s t c tg, Request.irecv s t c tg ∈ requests → tg = .data .front

/-- One step of a loop in which both protocols run: the round of the chain
transfer for `step` (`IExchange`, `Wait`, `SwapBuffers` on every rank), then the
round of the offset protocol for `step` (`IExchangeAbsolutePosition`,
`WaitAbsolutePosition` on every rank).  Each protocol has its messages of the
round delivered among its own calls. -/
def mixedRound (ps : List Process) (step : Int) : Except Failure (List Process) :=
  match transferRound ps step with
  | .error e => .error e
  | .ok qs => offsetRound qs step

/-- The steps `0 .. k-1` of the loop in which both protocols run, in order. -/
def mixedRounds : Nat → List Process → Except Failure (List Process)
  | 0, ps => .ok ps
  | k + 1, ps =>
    match mixedRounds k ps with
    | .error e => .error e
    | .ok qs => mixedRound qs k

/-- A full run of both protocols on a chain: steps `0 .. size-1`. -/
def mixedProtocol (ps : List Process) : Except Failure (List Process) :=
  mixedRounds ps.length ps

/-! ## Initialisation of the chain -/

/-- Modelled from the spec: the non-blocking send of the messaging substrate
(`MPI_Isend`), for one `int`.  The destination must be a rank of the group. -/
def MPI_Isend_int (v : Int) (dest tag size : Int) : Except Failure Request :=
  if 0 ≤ dest ∧ dest < size then .ok (.isend dest tag (.int v))
  else .error .mpi_error

/-- The `if (m_Rank > 0) // send` block of `MPIChain::HandshakeLinks`: posts the
send of the own rank id to the rank below and returns `sendRequest` (`none`
while it is not initialised). -/
def HandshakeLinks.send (p : Process) : Outcome (Option Request) :=
  if p.agg.m_Rank > 0 then
    match MPI_Isend_int p.agg.m_Rank (p.agg.m_Rank - 1) 0 p.agg.m_Size with
    | .error e => .raise p e
    | .ok sendRequest => { state := p, calls := [.post sendRequest], result := .ok (some sendRequest) }
  else .ret p none

/-- The `if (m_Rank < m_Size - 1) // receive` block of
`MPIChain::HandshakeLinks`: posts the receive of the id of the rank above into
the local `link` and waits for it; returns `link`, which starts as `-1`. -/
def HandshakeLinks.receive (p : Process) (net : Network) : Outcome Int :=
  if p.agg.m_Rank < p.agg.m_Size - 1 then
    match MPI_Irecv (p.agg.m_Rank + 1) 0 1 p.agg.m_Size .localVar with
    | .error e => .raise p e
    | .ok receiveRequest =>
      match MPI_Wait p.agg.m_Rank net receiveRequest with
      | .ok (some (_, .int link)) =>
        { state := p, calls := [.post receiveRequest, .wait receiveRequest], result := .ok link }
      | .ok _ =>
        { state := p, calls := [.post receiveRequest, .wait receiveRequest],
          result := .error .mpi_error }
      | .error e =>
        { state := p, calls := [.post receiveRequest, .wait receiveRequest], result := .error e }
  else .ret p (-1)

/-- The last block of `MPIChain::HandshakeLinks`: `if (m_Rank > 0)` waits for
the send posted in the first block. -/
def HandshakeLinks.waitSend (p : Process) (net : Network) (sendRequest : Option Request)
    (link : Int) : Outcome Int :=
  if p.agg.m_Rank > 0 then
    match sendRequest with
    | none => .raise p .undefined_behaviour
    | some r =>
      match MPI_Wait p.agg.m_Rank net r with
      | .error e => { state := p, calls := [.wait r], result := .error e }
      | .ok _ => { state := p, calls := [.wait r], result := .ok link }
  else .ret p link

/-- `MPIChain::HandshakeLinks`.  The function returns nothing; the value of the
outcome is the local `link` when it returns. -/
def HandshakeLinks (p : Process) (net : Network) : Outcome Int :=
  (HandshakeLinks.send p).andThen fun p1 sendRequest =>
    (HandshakeLinks.receive p1 net).andThen fun p2 link =>
      HandshakeLinks.waitSend p2 net sendRequest link

/-- Modelled from the spec: `MPIAggregator::InitComm` (base class, not part of
the sources at hand) splits the parent group into chains and assigns the local
rank and size within the resulting chain.  The place `rank` of `size` the split
gives is taken as given. -/
def InitComm (p : Process) (rank size : Int) : Process :=
  { p with agg := { p.agg with m_Rank := rank, m_Size := size } }

/-- Modelled from the spec: `MPIAggregator::HandshakeRank` (base class, not part
of the sources at hand) records which rank is the sink of the chain; it touches
no member the chain protocols read. -/
def HandshakeRank (p : Process) (_sinkRank : Int) : Process := p

/-- `MPIChain::Init`, on the place of the chain `InitComm` assigns. -/
def Init (p : Process) (rank size : Int) (net : Network) : Outcome Unit :=
  (HandshakeLinks (HandshakeRank (InitComm p rank size) 0) net).andThen fun p1 _ =>
    if p1.agg.m_Rank < p1.agg.m_Size then
      .ret { p1 with agg := { p1.agg with
              m_Buffers := p1.agg.m_Buffers ++ [BufferSTL.empty] } } ()
    else .ret p1 ()

/-- The send a rank posts when it calls `HandshakeLinks`. -/
def handshakeSends (p : Process) : List Request :=
  match (HandshakeLinks.send p).result with
  | .ok (some r) => [r]
  | _ => []

/-- The handshake of a chain: every rank calls `HandshakeLinks`, the sends
posted being what the receives are matched against. -/
def handshakeRound (ps : List Process) : Except Failure (List (Process × Int)) :=
  collect (ps.map fun p => HandshakeLinks p (ps.map handshakeSends))

/-- The start of a chain: every process, as constructed, calls `Init`; the
split gives the process at index `i` the rank `i` of `ps.length`. -/
def initChain (ps : List Process) : Except Failure (List (Process × Unit)) :=
  collect (ps.enum.map fun ip =>
    Init ip.2 (ip.1 : Int) (ps.length : Int)
      (ps.enum.map fun jq => handshakeSends (InitComm jq.2 (jq.1 : Int) (ps.length : Int))))

/-- The ranks of a chain of `n` ranks that send in the handshake. -/
def linkSenders (n : Nat) : Finset Nat :=
  (Finset.range n).filter fun r => (r : Int) > 0

/-- The ranks of a chain of `n` ranks that receive in the handshake. -/
def linkReceivers (n : Nat) : Finset Nat :=
  (Finset.range n).filter fun r => (r : Int) < (n : Int) - 1

/-- Three processes as constructed, before `Init`: no local buffer, no place
in a chain yet. -/
def constructed3 : List Process :=
  List.replicate 3 { sampleProcess 0 0 false with
    agg := { (sampleProcess 0 0 false).agg with m_Buffers := [] } }

/-- The substrate calls of a returning `HandshakeLinks` on rank `r` of `n`: the
send to `r-1` when `r > 0`, the receive from `r+1` and its wait when
`r < n-1`, the wait of the send when `r > 0`. -/
def handshakeCalls (r n : Nat) : List Call :=
  (if 0 < r then [Call.post (.isend ((r : Int) - 1) 0 (.int r))] else []) ++
  (if r + 1 < n then
    [Call.post (.irecv ((r : Int) + 1) 0 1 .localVar),
     Call.wait (.irecv ((r : Int) + 1) 0 1 .localVar)] else []) ++
  (if 0 < r then [Call.wait (.isend ((r : Int) - 1) 0 (.int r))] else [])

end MPIChain

/-!
# SZ compression operator (CompressSZ) : shallow embedding

Embedding of `CompressSZ::Compress` of
`source/adios2/operator/compress/CompressSZ.cpp`, up to its calls of the SZ
library.

* `Params` (`std::map<std::string, std::string>`) is the list of its entries in
  the order the loop visits them, by increasing key.
* A thrown exception is `Except.error`; `std::stoi` is modelled after the C++
  standard, `std::stof`, `std::stod` and the constants of `sz.h` are taken from
  a `Library`.
* Floating point values are carried, never computed with.
* The bytes the library reads and writes are left out: the outcome lists the
  library calls made, in order, and the size returned or the exception raised.
-/

namespace CompressSZ

/-! ## Data model -/

/-- The exceptions `Compress` and the parsers it calls raise. -/
inductive Exception
  | invalid_argument (what : String)
  | out_of_range (what : String)
deriving DecidableEq, Repr

/-- The entries of a `Params` map, in the order of iteration. -/
abbrev Params := List (String × String)

/-- Lexicographic comparison of two sequences of character codes. -/
def lexLess : List Nat → List Nat → Bool
  | _, [] => false
  | [], _ :: _ => true
  | a :: as, b :: bs => decide (a < b) || (decide (a = b) && lexLess as bs)

/-- The order `std::less<std::string>` of the keys of a `Params`. -/
def keyLess (a b : String) : Bool :=
  lexLess (a.toList.map Char.toNat) (b.toList.map Char.toNat)

/-- The keys of the entries increase strictly, as in the iteration of a
`std::map`. -/
def Params.WellFormed (parameters : Params) : Prop :=
  (parameters.map Prod.fst).Pairwise fun a b => keyLess a b = true

instance (parameters : Params) : Decidable (Params.WellFormed parameters) := by
  unfold Params.WellFormed
  infer_instance

/-- The fields of `sz_params` (`sz.h`) the function assigns after the `memset`;
each holds the value assigned to it. -/
structure sz_params where
  max_quant_intervals : Int
  quantization_intervals : Int
  sol_ID : Int
  sampleDistance : Int
  predThreshold : Float
  szMode : Int
  gzipMode : Int
  errorBoundMode : Int
  absErrBound : Float
  relBoundRatio : Float
  psnr : Float
  pw_relBoundRatio : Float
  segment_size : Int
  pwr_type : Int
deriving Repr

/-- What the function takes from outside the sources at hand: the constants of
the SZ library (`sz.h`) and the floating point parsers of the C++ library. -/
structure Library where
  SZ : Int
  SZ_BEST_SPEED : Int
  SZ_BEST_COMPRESSION : Int
  SZ_DEFAULT_COMPRESSION : Int
  ABS : Int
  REL : Int
  ABS_AND_REL : Int
  ABS_OR_REL : Int
  PW_REL : Int
  SZ_PWR_MIN_TYPE : Int
  SZ_PWR_AVG_TYPE : Int
  SZ_PWR_MAX_TYPE : Int
  SZ_DOUBLE : Int
  SZ_FLOAT : Int
  stof : String → Except Exception Float
  stod : String → Except Exception Float

/-- The values of `DataType` the function tells apart. -/
inductive DataType
  | Double
  | DoubleComplex
  | Float
  | FloatComplex
  | other (name : String)
deriving DecidableEq, Repr

/-- A call of the SZ library. -/
inductive SZCall
  | SZ_Init (configfile : String)
  | SZ_Init_Params (sz : sz_params)
  | SZ_compress (dtype : Int) (r5 r4 r3 r2 r1 : Nat)
  | SZ_Finalize
deriving Repr

/-- What a call of `Compress` did: the calls of the SZ library it made, in
order, and the size it returned or the exception it raised. -/
structure Outcome where
  calls : List SZCall
  result : Except Exception Nat

/-- The local variables the loop over the parameters assigns. -/
structure Settings where
  sz : sz_params
  use_configfile : Int
  sz_configfile : String
deriving Repr

/-! ## C++ library -/

/-- The `isspace` of the "C" locale. -/
def isspace (c : Char) : Bool :=
  decide (c.toNat = 32) || (decide (9 ≤ c.toNat) && decide (c.toNat ≤ 13))

/-- The `isdigit` of the "C" locale. -/
def isdigit (c : Char) : Bool :=
  decide (48 ≤ c.toNat) && decide (c.toNat ≤ 57)

/-- The largest `int`. -/
def INT_MAX : Int := 2 ^ 31 - 1

/-- The smallest `int`. -/
def INT_MIN : Int := -(2 ^ 31)

/-- Modelled from the C++ standard (the library is not part of the sources at
hand): `std::stoi (str)` in base 10 skips leading white space, reads an
optional sign and the longest run of decimal digits, and ignores what follows;
it raises `invalid_argument` when there is no digit and `out_of_range` when the
number read is not an `int`. -/
def stoi (str : String) : Except Exception Int :=
  let s := str.toList.dropWhile isspace
  let negative : Bool := decide (s.head? = some (Char.ofNat 45))
  let body :=
    if s.head? = some (Char.ofNat 45) ∨ s.head? = some (Char.ofNat 43) then s.tail else s
  let digits := body.takeWhile isdigit
  if digits = [] then .error (.invalid_argument "stoi")
  else
    let magnitude : Int := digits.foldl (fun acc c => 10 * acc + ((c.toNat : Int) - 48)) 0
    let value : Int := if negative then -magnitude else magnitude
    if value < INT_MIN ∨ INT_MAX < value then .error (.out_of_range "stoi")
    else .ok value

/-! ## CompressSZ.cpp -/

/-- The body of the loop over the parameters in `CompressSZ::Compress`, for the
entry `it`. -/
def parameter (lib : Library) (st : Settings) (it : String × String) :
    Except Exception Settings :=
  if it.1 = "init" then
    .ok { st with use_configfile := 1, sz_configfile := it.2 }
  else if it.1 = "max_quant_intervals" then
    (stoi it.2).map fun v => { st with sz := { st.sz with max_quant_intervals := v } }
  else if it.1 = "quantization_intervals" then
    (stoi it.2).map fun v => { st with sz := { st.sz with quantization_intervals := v } }
  else if it.1 = "sol_ID" then
    (stoi it.2).map fun v => { st with sz := { st.sz with sol_ID := v } }
  else if it.1 = "sampleDistance" then
    (stoi it.2).map fun v => { st with sz := { st.sz with sampleDistance := v } }
  else if it.1 = "predThreshold" then
    (lib.stof it.2).map fun v => { st with sz := { st.sz with predThreshold := v } }
  else if it.1 = "szMode" then
    if it.2 = "SZ_BEST_SPEED" then
      .ok { st with sz := { st.sz with szMode := lib.SZ_BEST_SPEED } }
    else if it.2 = "SZ_BEST_COMPRESSION" then
      .ok { st with sz := { st.sz with szMode := lib.SZ_BEST_COMPRESSION } }
    else if it.2 = "SZ_DEFAULT_COMPRESSION" then
      .ok { st with sz := { st.sz with szMode := lib.SZ_DEFAULT_COMPRESSION } }
    else
      .error (.invalid_argument
        ("ERROR: ADIOS2 operator unknown SZ parameter szMode: " ++ it.2 ++ "\n"))
  else if it.1 = "gzipMode" then
    (stoi it.2).map fun v => { st with sz := { st.sz with gzipMode := v } }
  else if it.1 = "errorBoundMode" then
    if it.2 = "ABS" then
      .ok { st with sz := { st.sz with errorBoundMode := lib.ABS } }
    else if it.2 = "REL" then
      .ok { st with sz := { st.sz with errorBoundMode := lib.REL } }
    else if it.2 = "ABS_AND_REL" then
      .ok { st with sz := { st.sz with errorBoundMode := lib.ABS_AND_REL } }
    else if it.2 = "ABS_OR_REL" then
      .ok { st with sz := { st.sz with errorBoundMode := lib.ABS_OR_REL } }
    else if it.2 = "PW_REL" then
      .ok { st with sz := { st.sz with errorBoundMode := lib.PW_REL } }
    else
      .error (.invalid_argument
        ("ERROR: ADIOS2 operator unknown SZ parameter errorBoundMode: " ++ it.2 ++ "\n"))
  else if it.1 = "absErrBound" then
    (lib.stof it.2).map fun v => { st with sz := { st.sz with absErrBound := v } }
  else if it.1 = "relBoundRatio" then
    (lib.stof it.2).map fun v => { st with sz := { st.sz with relBoundRatio := v } }
  else if it.1 = "pw_relBoundRatio" then
    (lib.stof it.2).map fun v => { st with sz := { st.sz with pw_relBoundRatio := v } }
  else if it.1 = "segment_size" then
    (stoi it.2).map fun v => { st with sz := { st.sz with segment_size := v } }
  else if it.1 = "pwr_type" then
    if it.1 = "MIN" ∨ it.1 = "SZ_PWR_MIN_TYPE" then
      .ok { st with sz := { st.sz with pwr_type := lib.SZ_PWR_MIN_TYPE } }
    else if it.1 = "AVG" ∨ it.1 = "SZ_PWR_AVG_TYPE" then
      .ok { st with sz := { st.sz with pwr_type := lib.SZ_PWR_AVG_TYPE } }
    else if it.1 = "MAX" ∨ it.1 = "SZ_PWR_MAX_TYPE" then
      .ok { st with sz := { st.sz with pwr_type := lib.SZ_PWR_MAX_TYPE } }
    else
      .error (.invalid_argument
        ("ERROR: ADIOS2 operator unknown SZ parameter pwr_type: " ++ it.2 ++ "\n"))
  else if it.1 = "abs" ∨ it.1 = "absolute" ∨ it.1 = "accuracy" then
    (lib.stod it.2).map fun v =>
      { st with sz := { st.sz with errorBoundMode := lib.ABS, absErrBound := v } }
  else if it.1 = "rel" ∨ it.1 = "relative" then
    (lib.stof it.2).map fun v =>
      { st with sz := { st.sz with errorBoundMode := lib.REL, relBoundRatio := v } }
  else if it.1 = "pw" ∨ it.1 = "pwr" ∨ it.1 = "pwrel" ∨ it.1 = "pwrelative" then
    (lib.stof it.2).map fun v =>
      { st with sz := { st.sz with errorBoundMode := lib.PW_REL, pw_relBoundRatio := v } }
  else if it.1 = "zchecker" ∨ it.1 = "zcheck" ∨ it.1 = "z-checker" ∨ it.1 = "z-check" then
    .ok st
  else .ok st

/-- The loop `for (it = parameters.begin(); it != parameters.end(); it++)` of
`CompressSZ::Compress`. -/
def parameterLoop (lib : Library) : Settings → Params → Except Exception Settings
  | st, [] => .ok st
  | st, it :: rest =>
    match parameter lib st it with
    | .error e => .error e
    | .ok st2 => parameterLoop lib st2 rest

/-- The settings `CompressSZ::Compress` starts the loop with; `ndims` is the
number of dimensions `ConvertDims (dimensions, varType, 4)` gives (at most 4, so
that `pow (5., ndims)` is the integer `5 ^ ndims`). -/
def initialSettings (lib : Library) (ndims : Nat) : Settings :=
  { sz :=
      { max_quant_intervals := 65536, quantization_intervals := 0, sol_ID := lib.SZ,
        sampleDistance := 100, predThreshold := 0.99, szMode := lib.SZ_BEST_COMPRESSION,
        gzipMode := 1, errorBoundMode := lib.ABS, absErrBound := 1e-4, relBoundRatio := 1e-3,
        psnr := 80.0, pw_relBoundRatio := 1e-5, segment_size := 5 ^ ndims,
        pwr_type := lib.SZ_PWR_MIN_TYPE },
    use_configfile := 0, sz_configfile := "sz.config" }

/-- The name `ToString (varType)` puts in the message for an unsupported type
(helper, not part of the sources at hand): for a type the function does not
tell apart it is carried by the value. -/
def DataType.name : DataType → String
  | .Double => "double"
  | .DoubleComplex => "double complex"
  | .Float => "float"
  | .FloatComplex => "float complex"
  | .other name => name

/-- `CompressSZ::Compress`.  `ndims` and `convertedDims` are what the two calls
of `ConvertDims` (base class, not part of the sources at hand) give, `outsize`
is the size `SZ_compress` reports. -/
def Compress (lib : Library) (ndims : Nat) (convertedDims : Nat × Nat × Nat × Nat)
    (varType : DataType) (outsize : Nat) (parameters : Params) : Outcome :=
  match parameterLoop lib (initialSettings lib ndims) parameters with
  | .error e => { calls := [], result := .error e }
  | .ok st =>
    let start : SZCall :=
      if st.use_configfile ≠ 0 then .SZ_Init st.sz_configfile else .SZ_Init_Params st.sz
    let dtype : Option Int :=
      if varType = .Double ∨ varType = .DoubleComplex then some lib.SZ_DOUBLE
      else if varType = .Float ∨ varType = .FloatComplex then some lib.SZ_FLOAT
      else none
    match dtype with
    | none =>
      { calls := [start],
        result := .error (.invalid_argument
          ("ERROR: ADIOS2 SZ Compression only support double or float, type: " ++
            varType.name ++ " is unsupported\n")) }
    | some d =>
      { calls := [start,
          .SZ_compress d 0 convertedDims.1 convertedDims.2.1 convertedDims.2.2.1
            convertedDims.2.2.2,
          .SZ_Finalize],
        result := .ok outsize }

/-! ## Vocabulary of the properties -/

/-- The values of `szMode` the function accepts. -/
def szModes : List String := ["SZ_BEST_SPEED", "SZ_BEST_COMPRESSION", "SZ_DEFAULT_COMPRESSION"]

/-- The values of `errorBoundMode` the function accepts. -/
def errorBoundModes : List String := ["ABS", "REL", "ABS_AND_REL", "ABS_OR_REL", "PW_REL"]

/-- The keys the loop over the parameters acts on. -/
def optionKeys : List String :=
  ["init", "max_quant_intervals", "quantization_intervals", "sol_ID", "sampleDistance",
   "predThreshold", "szMode", "gzipMode", "errorBoundMode", "absErrBound", "relBoundRatio",
   "pw_relBoundRatio", "segment_size", "pwr_type", "abs", "absolute", "accuracy", "rel",
   "relative", "pw", "pwr", "pwrel", "pwrelative"]

end CompressSZ

namespace MPIChain

/-! ## Misuse of the offset protocol and the chain of one rank -/

/-- C5. In a chain of size at least 2, on every rank and at every step,
`IExchangeAbsolutePosition` called while the guard is set raises the
"still active" error, makes no call of the substrate and leaves the state of
the rank as it was. -/
theorem exchange_guard_set (p : Process) (step : Int) (h2 : 2 ≤ p.agg.m_Size)
    (hg : p.agg.m_IsInExchangeAbsolutePosition = true) :
    (IExchangeAbsolutePosition p step).result = .error (.runtime_error
      "ERROR: MPIChain::IExchangeAbsolutePosition: An existing exchange is still active.") ∧
    (IExchangeAbsolutePosition p step).calls = [] ∧
    (IExchangeAbsolutePosition p step).state = p := by
  have h1 : p.agg.m_Size ≠ 1 := by omega
  simp [IExchangeAbsolutePosition, h1, hg, Outcome.raise]

theorem exchange_guard_set_witness :
    (IExchangeAbsolutePosition (sampleProcess 1 3 true) 2).result = .error (.runtime_error
      "ERROR: MPIChain::IExchangeAbsolutePosition: An existing exchange is still active.") ∧
    (IExchangeAbsolutePosition (sampleProcess 1 3 true) 2).calls = [] ∧
    (IExchangeAbsolutePosition (sampleProcess 1 3 true) 2).state = sampleProcess 1 3 true :=
  exchange_guard_set (sampleProcess 1 3 true) 2 (by decide) rfl

/-- C6 (as stated, refuted). On the single rank of a chain of size 1, whose
guard is not set, `WaitAbsolutePosition` returns normally: the early return for
`m_Size == 1` comes before the check of the guard. -/
theorem size_one_wait_returns :
    (WaitAbsolutePosition (sampleProcess 0 1 false) [] 0 []).result = .ok () := by
  rfl

/-- C6 (amended). In a chain of size at least 2, on every rank and at every
step, `WaitAbsolutePosition` called while the guard is not set raises the
"not active" error, waits on no request and leaves the state of the rank as it
was. -/
theorem wait_without_exchange (p : Process) (requests : List Request) (step : Int)
    (net : Network) (h2 : 2 ≤ p.agg.m_Size)
    (hg : p.agg.m_IsInExchangeAbsolutePosition = false) :
    (WaitAbsolutePosition p requests step net).result = .error (.runtime_error
      "ERROR: MPIChain::WaitAbsolutePosition: An existing exchange is not active.") ∧
    (WaitAbsolutePosition p requests step net).calls = [] ∧
    (WaitAbsolutePosition p requests step net).state = p := by
  have h1 : p.agg.m_Size ≠ 1 := by omega
  simp [WaitAbsolutePosition, h1, hg, Outcome.raise]

theorem wait_without_exchange_witness :
    (WaitAbsolutePosition (sampleProcess 1 3 false) [.null, .null] 2 []).result =
      .error (.runtime_error
        "ERROR: MPIChain::WaitAbsolutePosition: An existing exchange is not active.") ∧
    (WaitAbsolutePosition (sampleProcess 1 3 false) [.null, .null] 2 []).calls = [] ∧
    (WaitAbsolutePosition (sampleProcess 1 3 false) [.null, .null] 2 []).state =
      sampleProcess 1 3 false :=
  wait_without_exchange (sampleProcess 1 3 false) [.null, .null] 2 [] (by decide) rfl

/-- C7. In a chain of size 1, for every step, handle and prior state (whatever
the guard), `IExchange` and `IExchangeAbsolutePosition` return an empty handle
and `Wait` and `WaitAbsolutePosition` return; each of the four makes no call of
the substrate, raises nothing and leaves the state of the rank as it was. -/
theorem size_one_no_op (p : Process) (step : Int) (requests : List Request) (net : Network)
    (h1 : p.agg.m_Size = 1) :
    IExchange p step net = { state := p, calls := [], result := .ok [] } ∧
    IExchangeAbsolutePosition p step = { state := p, calls := [], result := .ok [] } ∧
    Wait p requests step net = { state := p, calls := [], result := .ok () } ∧
    WaitAbsolutePosition p requests step net = { state := p, calls := [], result := .ok () } := by
  simp [IExchange, IExchangeAbsolutePosition, Wait, WaitAbsolutePosition, h1, Outcome.ret]

theorem size_one_no_op_witness :
    IExchange (sampleProcess 0 1 true) 0 [] =
      { state := sampleProcess 0 1 true, calls := [], result := .ok [] } ∧
    IExchangeAbsolutePosition (sampleProcess 0 1 true) 0 =
      { state := sampleProcess 0 1 true, calls := [], result := .ok [] } ∧
    Wait (sampleProcess 0 1 true) [.null] 0 [] =
      { state := sampleProcess 0 1 true, calls := [], result := .ok () } ∧
    WaitAbsolutePosition (sampleProcess 0 1 true) [.null] 0 [] =
      { state := sampleProcess 0 1 true, calls := [], result := .ok () } :=
  size_one_no_op (sampleProcess 0 1 true) 0 [.null] [] rfl

/-! ## Roles of the chain transfer -/

theorem sender_iff (r n s : Int) : sender r n s = true ↔ 1 ≤ r ∧ r ≤ n - 1 - s := by
  simp [sender, endRank]

theorem receiver_iff (r n s : Int) : receiver r n s = true ↔ r < n - 1 - s := by
  simp [receiver, endRank]

theorem senders_eq (n s : Nat) : senders n s = Finset.Icc 1 (n - 1 - s) := by
  ext r
  simp only [senders, Finset.mem_filter, Finset.mem_range, Finset.mem_Icc, sender_iff]
  omega

theorem receivers_eq (n s : Nat) : receivers n s = Finset.range (n - 1 - s) := by
  ext r
  simp only [receivers, Finset.mem_filter, Finset.mem_range, receiver_iff]
  omega

theorem idleRanks_eq (n s : Nat) (hs : s + 1 < n) : idleRanks n s = Finset.Ico (n - s) n := by
  ext r
  simp only [idleRanks, Finset.mem_filter, Finset.mem_range, Finset.mem_Ico,
    Bool.eq_false_iff, ne_eq, sender_iff, receiver_iff]
  omega

theorem idleRanks_last (n s : Nat) (hs : s + 1 = n) : idleRanks n s = Finset.range n := by
  ext r
  simp only [idleRanks, Finset.mem_filter, Finset.mem_range,
    Bool.eq_false_iff, ne_eq, sender_iff, receiver_iff]
  omega

/-- C8. In a chain of size at least 2, at every step `>= 0`, rank 0 is not a
sender and rank `size-1` is not a receiver under the role computation of
`IExchange` and `Wait`; accordingly the handle `IExchange` returns on rank 0 has
its two send slots unposted, and the one it returns on rank `size-1` has its
receive slot unposted. -/
theorem boundary_roles (m_Size step : Int) (h2 : 2 ≤ m_Size) (hs : 0 ≤ step) :
    sender 0 m_Size step = false ∧ receiver (m_Size - 1) m_Size step = false ∧
    (∀ (p : Process) (net : Network) (requests : List Request),
      p.agg.m_Rank = 0 → p.agg.m_Size = m_Size →
      (IExchange p step net).result = .ok requests →
        requests[0]? = some .null ∧ requests[1]? = some .null) ∧
    (∀ (p : Process) (net : Network) (requests : List Request),
      p.agg.m_Rank = m_Size - 1 → p.agg.m_Size = m_Size →
      (IExchange p step net).result = .ok requests → requests[2]? = some .null) := by
  have hsend : sender 0 m_Size step = false := by
    simp [sender, endRank]
  have hrecv : receiver (m_Size - 1) m_Size step = false := by
    simp only [receiver, endRank, decide_eq_false_iff_not]
    omega
  have h1 : m_Size ≠ 1 := by omega
  refine ⟨hsend, hrecv, ?_, ?_⟩
  · intro p net requests hr hn h
    unfold IExchange at h
    rw [if_neg (by rw [hn]; exact h1)] at h
    unfold IExchange.sends at h
    rw [hr, hn, hsend] at h
    cases hg : GetSender p with
    | error e => simp [hg, Outcome.raise, Outcome.andThen] at h
    | ok ref =>
      simp only [hg, Outcome.ret, Outcome.andThen, Bool.false_eq_true, if_false] at h
      unfold IExchange.receives at h
      split at h
      · split at h
        · simp [Outcome.raise] at h
        · split at h
          · split at h
            · simp at h
            · split at h
              · simp at h
              · split at h
                · simp at h
                · split at h
                  · simp at h
                  · simp only [Except.ok.injEq] at h
                    subst h
                    simp
          · simp at h
          · simp at h
      · simp only [Outcome.ret, Except.ok.injEq] at h
        subst h
        simp
  · intro p net requests hr hn h
    unfold IExchange at h
    rw [if_neg (by rw [hn]; exact h1)] at h
    have hrec : ∀ q : Process, q.agg = p.agg → ∀ rs,
        IExchange.receives q step net rs = Outcome.ret q rs := by
      intro q hq rs
      unfold IExchange.receives
      rw [hq, hr, hn, hrecv]
      simp
    unfold IExchange.sends at h
    cases hg : GetSender p with
    | error e => simp [hg, Outcome.raise, Outcome.andThen] at h
    | ok ref =>
      simp only [hg] at h
      split at h
      · split at h
        · simp [Outcome.raise, Outcome.andThen] at h
        · split at h
          · simp [Outcome.raise, Outcome.andThen] at h
          · split at h
            · simp [Outcome.andThen] at h
            · simp only [Outcome.andThen, hrec p rfl, Outcome.ret, Except.ok.injEq] at h
              subst h
              simp
      · simp only [Outcome.andThen, Outcome.ret, hrec p rfl, Except.ok.injEq] at h
        subst h
        simp

theorem boundary_roles_witness :
    sender 0 3 1 = false ∧ receiver (3 - 1) 3 1 = false ∧
    (∀ (p : Process) (net : Network) (requests : List Request),
      p.agg.m_Rank = 0 → p.agg.m_Size = 3 →
      (IExchange p 1 net).result = .ok requests →
        requests[0]? = some .null ∧ requests[1]? = some .null) ∧
    (∀ (p : Process) (net : Network) (requests : List Request),
      p.agg.m_Rank = 3 - 1 → p.agg.m_Size = 3 →
      (IExchange p 1 net).result = .ok requests → requests[2]? = some .null) :=
  boundary_roles 3 1 (by decide) (by decide)

/-- C9 (as stated, refuted). In a chain of size 2 at step 0 no rank is both
non-sender and non-receiver: rank 0 receives and rank 1 sends. -/
theorem idle_rank_not_unique :
    ¬ ∃! r : Nat, r < 2 ∧ sender (r : Int) 2 0 = false ∧ receiver (r : Int) 2 0 = false := by
  rintro ⟨r, ⟨hr, h1, h2⟩, -⟩
  have h : r = 0 ∨ r = 1 := by omega
  rcases h with rfl | rfl
  · revert h2; decide
  · revert h1; decide

/-- C9 (amended). For a chain of `n >= 1` ranks and a step `s <= n-1`, a rank
is neither sender nor receiver exactly when it lies above
`activeBoundary = n-1-s`, or is rank 0 at the last step `s = n-1`; the number of
such ranks is `s` when `s < n-1` and `n` when `s = n-1`. -/
theorem idle_ranks_count (n s : Nat) (hn : 1 ≤ n) (hs : s ≤ n - 1) :
    (∀ r : Nat, r < n →
      ((sender (r : Int) n s = false ∧ receiver (r : Int) n s = false) ↔
        (endRank n s < r ∨ (s = n - 1 ∧ r = 0)))) ∧
    (idleRanks n s).card = if s + 1 < n then s else n := by
  constructor
  · intro r hr
    simp only [Bool.eq_false_iff, ne_eq, sender_iff, receiver_iff, endRank]
    omega
  · by_cases h : s + 1 < n
    · rw [if_pos h, idleRanks_eq n s h, Nat.card_Ico]
      omega
    · rw [if_neg h, idleRanks_last n s (by omega), Finset.card_range]

theorem idle_ranks_count_witness :
    (∀ r : Nat, r < 4 →
      ((sender (r : Int) (4 : Nat) (2 : Nat) = false ∧
          receiver (r : Int) (4 : Nat) (2 : Nat) = false) ↔
        (endRank (4 : Nat) (2 : Nat) < r ∨ (2 = 4 - 1 ∧ r = 0)))) ∧
    (idleRanks 4 2).card = if 2 + 1 < 4 then 2 else 4 :=
  idle_ranks_count 4 2 (by decide) (by decide)

/-- C10. In a chain of `n >= 2` ranks, for steps `s < s2 <= n-1`, the senders
at `s2` are a strict subset of the senders at `s`, the receivers at `s2` a
strict subset of the receivers at `s`, and at step `s` there are exactly
`n-1-s` senders and `n-1-s` receivers. -/
theorem active_window_shrinks (n s s2 : Nat) (hn : 2 ≤ n) (h1 : s < s2) (h2 : s2 ≤ n - 1) :
    senders n s2 ⊂ senders n s ∧ receivers n s2 ⊂ receivers n s ∧
    (senders n s).card = n - 1 - s ∧ (receivers n s).card = n - 1 - s := by
  have hcs : ∀ t, (senders n t).card = n - 1 - t := by
    intro t
    rw [senders_eq, Nat.card_Icc]
    omega
  have hcr : ∀ t, (receivers n t).card = n - 1 - t := by
    intro t
    rw [receivers_eq, Finset.card_range]
  refine ⟨?_, ?_, hcs s, hcr s⟩
  · rw [Finset.ssubset_iff_subset_ne]
    constructor
    · rw [senders_eq, senders_eq]
      intro r
      simp only [Finset.mem_Icc]
      omega
    · intro h
      have := hcs s2
      rw [h, hcs s] at this
      omega
  · rw [Finset.ssubset_iff_subset_ne]
    constructor
    · rw [receivers_eq, receivers_eq]
      intro r
      simp only [Finset.mem_range]
      omega
    · intro h
      have := hcr s2
      rw [h, hcr s] at this
      omega

theorem active_window_shrinks_witness :
    senders 4 2 ⊂ senders 4 1 ∧ receivers 4 2 ⊂ receivers 4 1 ∧
    (senders 4 1).card = 4 - 1 - 1 ∧ (receivers 4 1).card = 4 - 1 - 1 :=
  active_window_shrinks 4 1 2 (by decide) (by decide) (by decide)

/-! ## The offset protocol -/


theorem collect_map {α β : Type} [Inhabited α] (F : β → Outcome α) (l : List β)
    (h : ∀ b ∈ l, ∃ a, (F b).result = .ok a) :
    collect (l.map F) = .ok (l.map fun b => ((F b).state, (F b).value)) := by
  induction l with
  | nil => rfl
  | cons b l ih =>
    obtain ⟨a, ha⟩ := h b (List.mem_cons_self _ _)
    have ih2 := ih (fun c hc => h c (List.mem_cons_of_mem _ hc))
    simp only [List.map_cons, collect, ha, ih2, Outcome.value]

theorem exchange_ok (p : Process) (k n : Nat) (hn : 2 ≤ n) (hk : k < n)
    (hsize : p.agg.m_Size = n) (hg : p.agg.m_IsInExchangeAbsolutePosition = false) :
    ∃ reqs, (IExchangeAbsolutePosition p k).result = .ok reqs ∧
      (IExchangeAbsolutePosition p k).state.agg.m_Rank = p.agg.m_Rank ∧
      (IExchangeAbsolutePosition p k).state.agg.m_Size = p.agg.m_Size ∧
      (IExchangeAbsolutePosition p k).state.agg.m_IsInExchangeAbsolutePosition = true ∧
      (IExchangeAbsolutePosition p k).state.bufferSTL = p.bufferSTL ∧
      (IExchangeAbsolutePosition p k).state.agg.m_SizeSend = localSize p k ∧
      reqs = (if p.agg.m_Rank = k then
                [.isend (destination n k) 0 (.size_t (exchangeValue p k)), .null]
              else if p.agg.m_Rank = destination n k then
                [.null, .irecv k 0 1 .absolutePosition]
              else [.null, .null]) := by
  have h1 : (n : Int) ≠ 1 := by omega
  have hd : 0 ≤ destination n k ∧ destination n k < n := by
    unfold destination; split <;> omega
  have hkn : 0 ≤ (k : Int) ∧ (k : Int) < n := by omega
  unfold IExchangeAbsolutePosition
  rw [hsize, if_neg h1, hg]
  simp only [Bool.false_eq_true, if_false]
  rcases Nat.eq_zero_or_pos k with hk0 | hk0
  · subst hk0
    by_cases hr : p.agg.m_Rank = 0 <;>
      by_cases hr2 : p.agg.m_Rank = destination n (0 : Nat) <;>
      simp [hr, hr2, hsize, MPI_Isend_size_t, MPI_Irecv, hd, hkn, setGuard, localSize,
        exchangeValue, Outcome.ret] <;> simp_all
  · have hk1 : (k : Int) ≠ 0 := by omega
    by_cases hr : p.agg.m_Rank = k <;>
      by_cases hr2 : p.agg.m_Rank = destination n k <;> by_cases hr0 : p.agg.m_Rank = 0 <;>
      simp [hk1, hr, hr2, hr0, hsize, MPI_Isend_size_t, MPI_Irecv, hd, hkn, setGuard, localSize,
        exchangeValue, Outcome.ret] <;> simp_all

theorem destination_ne (n k : Nat) (hn : 2 ≤ n) (hk : k < n) :
    destination n k ≠ k ∧ 0 ≤ destination n k ∧ destination n k < n := by
  unfold destination; split <;> omega

theorem waitSlot_isend (p : Process) (net : Network) (requests : List Request) (i : Nat)
    (d t : Int) (x : Payload) (h : requests[i]? = some (.isend d t x)) :
    waitSlot p net requests i =
      { state := p, calls := [.wait (.isend d t x)], result := .ok () } := by
  simp [waitSlot, h, MPI_Wait, complete]

theorem waitSlot_absolutePosition (p : Process) (net : Network) (requests : List Request)
    (i : Nat) (src : Int) (v : Nat)
    (h : requests[i]? = some (.irecv src 0 1 .absolutePosition))
    (hnet : net.lookup src p.agg.m_Rank 0 = some (.size_t v)) :
    waitSlot p net requests i =
      { state := { p with bufferSTL := { p.bufferSTL with m_AbsolutePosition := v } },
        calls := [.wait (.irecv src 0 1 .absolutePosition)], result := .ok () } := by
  simp [waitSlot, h, MPI_Wait, hnet, complete]

theorem wait_ok (q : Process) (reqs : List Request) (k n : Nat) (net : Network) (v w : Nat)
    (hn : 2 ≤ n) (hk : k < n) (hsize : q.agg.m_Size = n)
    (hg : q.agg.m_IsInExchangeAbsolutePosition = true)
    (hreqs : reqs = (if q.agg.m_Rank = k then
                [.isend (destination n k) 0 (.size_t w), .null]
              else if q.agg.m_Rank = destination n k then
                [.null, .irecv k 0 1 .absolutePosition]
              else [.null, .null]))
    (hnet : net.lookup k (destination n k) 0 = some (.size_t v)) :
    (WaitAbsolutePosition q reqs k net).result = .ok () ∧
    (WaitAbsolutePosition q reqs k net).state.agg.m_Rank = q.agg.m_Rank ∧
    (WaitAbsolutePosition q reqs k net).state.agg.m_Size = q.agg.m_Size ∧
    (WaitAbsolutePosition q reqs k net).state.agg.m_IsInExchangeAbsolutePosition = false ∧
    (WaitAbsolutePosition q reqs k net).state.agg.m_SizeSend = q.agg.m_SizeSend ∧
    (WaitAbsolutePosition q reqs k net).state.bufferSTL.m_Position = q.bufferSTL.m_Position ∧
    (WaitAbsolutePosition q reqs k net).state.bufferSTL.m_AbsolutePosition =
      (if q.agg.m_Rank = destination n k then v else q.bufferSTL.m_AbsolutePosition) := by
  have h1 : (n : Int) ≠ 1 := by omega
  have hd := destination_ne n k hn hk
  unfold WaitAbsolutePosition
  rw [hsize, if_neg h1, hg]
  simp only [Bool.not_true, Bool.false_eq_true, if_false]
  by_cases hr : q.agg.m_Rank = k
  · have hr2 : ¬ (q.agg.m_Rank = destination n k) := by rw [hr]; exact fun h => hd.1 h.symm
    rw [if_pos hr] at hreqs
    have h0 : reqs[0]? = some (.isend (destination n k) 0 (.size_t w)) := by rw [hreqs]; rfl
    rw [if_neg hr2]
    simp only [Outcome.andThen, Outcome.ret, if_pos hr, waitSlot_isend q net reqs 0 _ _ _ h0,
      setGuard, if_neg hr2, hsize, List.append_nil, and_self]
  · by_cases hr2 : q.agg.m_Rank = destination n k
    · rw [if_neg hr, if_pos hr2] at hreqs
      have h0 : reqs[1]? = some (.irecv k 0 1 .absolutePosition) := by rw [hreqs]; rfl
      rw [← hr2] at hnet
      rw [if_pos hr2]
      simp only [Outcome.andThen, Outcome.ret, waitSlot_absolutePosition q net reqs 1 _ v h0 hnet,
        if_neg hr, setGuard, if_pos hr2, hsize, List.append_nil, and_self]
    · simp [hr, hr2, Outcome.andThen, Outcome.ret, setGuard, hsize]

theorem IsChain.at {ps : List Process} (h : IsChain ps) {r : Nat} {p : Process}
    (hp : ps[r]? = some p) : p.agg.m_Rank = (r : Int) ∧ p.agg.m_Size = (ps.length : Int) := by
  obtain ⟨hr, rfl⟩ := List.getElem?_eq_some.mp hp
  exact h ⟨r, hr⟩

theorem IsChain.of_at {ps : List Process}
    (h : ∀ (r : Nat) (p : Process), ps[r]? = some p →
      p.agg.m_Rank = (r : Int) ∧ p.agg.m_Size = (ps.length : Int)) : IsChain ps := by
  intro i
  exact h i (ps.get i) (by simp)

theorem IsChain.size {ps : List Process} (h : IsChain ps) {p : Process} (hp : p ∈ ps) :
    p.agg.m_Size = (ps.length : Int) := by
  obtain ⟨r, hr⟩ := List.getElem?_of_mem hp
  exact (h.at hr).2

theorem Outcome.value_of_ok {α : Type} [Inhabited α] (o : Outcome α) (a : α)
    (h : o.result = .ok a) : o.value = a := by
  simp [Outcome.value, h]

theorem offsetRound_ok (ps : List Process) (k : Nat) (hc : IsChain ps) (hg : GuardClear ps)
    (hn : 2 ≤ ps.length) (hk : k < ps.length) (pk : Process) (hpk : ps[k]? = some pk) :
    ∃ G : Process → Process, offsetRound ps k = .ok (ps.map G) ∧
      ∀ p ∈ ps, (G p).agg.m_Rank = p.agg.m_Rank ∧ (G p).agg.m_Size = p.agg.m_Size ∧
        (G p).agg.m_IsInExchangeAbsolutePosition = false ∧
        (G p).agg.m_SizeSend = localSize p k ∧
        (G p).bufferSTL.m_Position = p.bufferSTL.m_Position ∧
        (G p).bufferSTL.m_AbsolutePosition =
          (if p.agg.m_Rank = destination ps.length k then exchangeValue pk k
           else p.bufferSTL.m_AbsolutePosition) := by
  have hx : ∀ p ∈ ps, _ := fun p hp =>
    exchange_ok p k ps.length hn hk (hc.size hp) (hg p hp)
  have h1 : collect (ps.map fun p => IExchangeAbsolutePosition p k) =
      .ok (ps.map fun p => ((IExchangeAbsolutePosition p k).state,
        (IExchangeAbsolutePosition p k).value)) :=
    collect_map _ ps (fun p hp => by
      obtain ⟨reqs, h, -⟩ := hx p hp
      exact ⟨reqs, h⟩)
  -- the message in flight
  have hpkmem : pk ∈ ps := List.getElem?_mem hpk
  have hnet : Network.lookup ((ps.map fun p => ((IExchangeAbsolutePosition p k).state,
      (IExchangeAbsolutePosition p k).value)).map Prod.snd) k (destination ps.length k) 0 =
      some (.size_t (exchangeValue pk k)) := by
    obtain ⟨reqs, h, -, -, -, -, -, hreqs⟩ := hx pk hpkmem
    rw [if_pos (hc.at hpk).1] at hreqs
    have hneg : ¬ ((k : Int) < 0) := by omega
    simp only [Network.lookup, if_neg hneg, Int.toNat_ofNat, List.map_map, List.getElem?_map, hpk,
      Option.map_some', Function.comp, Outcome.value_of_ok _ _ h, hreqs, sentTo, and_self, if_true]
  have hw : ∀ p ∈ ps, _ := fun p hp =>
    wait_ok (IExchangeAbsolutePosition p k).state (IExchangeAbsolutePosition p k).value k
      ps.length _ (exchangeValue pk k) (exchangeValue p k) hn hk
      (by rw [(hx p hp).choose_spec.2.2.1]; exact hc.size hp)
      (hx p hp).choose_spec.2.2.2.1
      (by
        obtain ⟨reqs, h, hr, -, -, -, -, hreqs⟩ := hx p hp
        rw [Outcome.value_of_ok _ _ h, hr, hreqs])
      hnet
  have h2 : collect ((ps.map fun p => ((IExchangeAbsolutePosition p k).state,
        (IExchangeAbsolutePosition p k).value)).map fun r =>
          WaitAbsolutePosition r.1 r.2 k ((ps.map fun p => ((IExchangeAbsolutePosition p k).state,
            (IExchangeAbsolutePosition p k).value)).map Prod.snd)) =
      .ok (ps.map fun p => ((WaitAbsolutePosition (IExchangeAbsolutePosition p k).state
        (IExchangeAbsolutePosition p k).value k
        ((ps.map fun p => ((IExchangeAbsolutePosition p k).state,
          (IExchangeAbsolutePosition p k).value)).map Prod.snd)).state, ())) := by
    rw [List.map_map]
    exact collect_map _ ps (fun p hp => ⟨(), (hw p hp).1⟩)
  refine ⟨fun p => (WaitAbsolutePosition (IExchangeAbsolutePosition p k).state
      (IExchangeAbsolutePosition p k).value k
      ((ps.map fun p => ((IExchangeAbsolutePosition p k).state,
        (IExchangeAbsolutePosition p k).value)).map Prod.snd)).state, ?_, ?_⟩
  · unfold offsetRound
    rw [h1]
    dsimp only
    rw [h2]
    simp only [List.map_map]
    rfl
  · intro p hp
    obtain ⟨-, w1, w2, w3, w4, w5, w6⟩ := hw p hp
    obtain ⟨reqs, -, x1, x2, -, x4, x5, -⟩ := hx p hp
    simp only [w1, w2, w3, w4, w5, w6, x1, x2, x4, x5, and_self]

theorem localSizes_getElem? (ps : List Process) (r : Nat) :
    (localSizes ps)[r]? = ps[r]?.map fun p =>
      if r = 0 then p.bufferSTL.m_AbsolutePosition else p.bufferSTL.m_Position := by
  cases ps with
  | nil => simp [localSizes]
  | cons p0 rest =>
    cases r with
    | zero => simp [localSizes]
    | succ r => simp [localSizes]

theorem offsetSum_succ (ps : List Process) (r : Nat) (p : Process) (hp : ps[r]? = some p) :
    offsetSum ps (r + 1) = offsetSum ps r +
      (if r = 0 then p.bufferSTL.m_AbsolutePosition else p.bufferSTL.m_Position) := by
  unfold offsetSum
  rw [List.take_succ, localSizes_getElem?, hp]
  simp

theorem offsetSum_zero (ps : List Process) : offsetSum ps 0 = 0 := by
  simp [offsetSum]

theorem OffsetInv.init (ps : List Process) (hc : IsChain ps) (hg : GuardClear ps) :
    OffsetInv ps 0 ps where
  length := rfl
  chain := hc
  clear := hg
  start := fun _ => rfl
  sizes := fun h => by omega
  sums := fun r q _ h1 h2 => by omega
  wrap := fun h => by
    intro q hq
    have := List.getElem?_eq_some.mp hq
    obtain ⟨h0, -⟩ := this
    omega

theorem OffsetInv.step (ps qs : List Process) (k : Nat) (hc : IsChain ps) (hs : SizeTRange ps)
    (hn : 2 ≤ ps.length) (hk : k < ps.length) (inv : OffsetInv ps k qs) :
    ∃ qs2, offsetRound qs k = .ok qs2 ∧ OffsetInv ps (k + 1) qs2 := by
  have hlen := inv.length
  have hkq : k < qs.length := by omega
  obtain ⟨qk, hqk⟩ : ∃ qk, qs[k]? = some qk := ⟨qs[k], List.getElem?_eq_getElem hkq⟩
  obtain ⟨G, hG, hfacts⟩ := offsetRound_ok qs k inv.chain inv.clear (by omega) hkq qk hqk
  rw [hlen] at hfacts
  -- the process of the active rank in the initial chain
  obtain ⟨pk, hpk⟩ : ∃ pk, ps[k]? = some pk := ⟨ps[k], List.getElem?_eq_getElem hk⟩
  have hrk := (inv.chain.at hqk).1
  -- the value sent in this round
  have hev : exchangeValue qk k = offsetSum ps (k + 1) % SIZE_T_MOD := by
    rcases Nat.eq_zero_or_pos k with h0 | h0
    · subst h0
      have hqp : qs = ps := inv.start rfl
      rw [hqp] at hqk
      rw [hqk] at hpk
      obtain rfl := Option.some.inj hpk
      have hr : (exchangeValue qk (0 : Nat)) = qk.bufferSTL.m_AbsolutePosition := by
        simp [exchangeValue, localSize, hrk]
      rw [hr, offsetSum_succ ps 0 qk hqk, offsetSum_zero]
      simp only [if_true, Nat.zero_add]
      exact (Nat.mod_eq_of_lt (hs qk (List.getElem?_mem hqk)).2).symm
    · have hne : qk.agg.m_Rank ≠ 0 := by omega
      have hk0 : (k : Int) ≠ 0 := by omega
      have h1 := inv.sizes (by omega) k qk hqk
      have h2 := inv.sums k qk hqk (by omega) (le_refl _)
      have h3 : (localSizes ps).getD k 0 = pk.bufferSTL.m_Position := by
        rw [List.getD_eq_getElem?_getD, localSizes_getElem?, hpk]
        simp; omega
      rw [offsetSum_succ ps k pk hpk, if_neg (by omega)]
      simp only [exchangeValue, if_neg hne, localSize, if_neg hk0, h1, h2, h3]
      rw [Nat.add_comm, Nat.mod_add_mod]
  refine ⟨qs.map G, hG, ?_⟩
  have hget : ∀ (r : Nat) (q : Process), (qs.map G)[r]? = some q →
      ∃ p, qs[r]? = some p ∧ G p = q := by
    intro r q h
    simp only [List.getElem?_map, Option.map_eq_some'] at h
    exact h
  have hmem : ∀ (r : Nat) (p : Process), qs[r]? = some p → p ∈ qs :=
    fun r p h => List.getElem?_mem h
  constructor
  · rw [List.length_map, hlen]
  · apply IsChain.of_at
    intro r q hq
    obtain ⟨p, hp, rfl⟩ := hget r q hq
    have hf := hfacts p (hmem r p hp)
    rw [hf.1, hf.2.1, List.length_map]
    exact inv.chain.at hp
  · intro q hq
    obtain ⟨p, hp, rfl⟩ := List.mem_map.mp hq
    exact (hfacts p hp).2.2.1
  · intro h
    omega
  · intro _ r q hq
    obtain ⟨p, hp, rfl⟩ := hget r q hq
    rw [(hfacts p (hmem r p hp)).2.2.2.1]
    rcases Nat.eq_zero_or_pos k with h0 | h0
    · subst h0
      have hqp : qs = ps := inv.start rfl
      rw [hqp] at hp
      have hr := (hc.at hp).1
      rw [List.getD_eq_getElem?_getD, localSizes_getElem?, hp]
      simp only [localSize, Nat.cast_zero, if_true, hr, Option.map_some', Option.getD_some]
      by_cases hr0 : r = 0
      · simp [hr0]
      · have : (r : Int) ≠ 0 := by omega
        simp [hr0, this]
    · have hk0 : (k : Int) ≠ 0 := by omega
      simp only [localSize, if_neg hk0]
      exact inv.sizes (by omega) r p hp
  · intro r q hq h1 h2
    obtain ⟨p, hp, rfl⟩ := hget r q hq
    have hr := (inv.chain.at hp).1
    have hrn : r < ps.length := by
      have := (List.getElem?_eq_some.mp hp).1
      omega
    rw [(hfacts p (hmem r p hp)).2.2.2.2.2, hr]
    by_cases hrk1 : r = k + 1
    · have hd : destination ps.length k = (r : Int) := by
        unfold destination
        rw [if_pos (by omega)]
        omega
      rw [if_pos hd.symm, hev, hrk1]
    · have hd : ¬ ((r : Int) = destination ps.length k) := by
        unfold destination
        split <;> omega
      rw [if_neg hd]
      exact inv.sums r p hp h1 (by omega)
  · intro hkn q hq
    obtain ⟨p, hp, rfl⟩ := hget 0 q hq
    have hr := (inv.chain.at hp).1
    have hd : destination ps.length k = 0 := by
      unfold destination
      rw [if_neg (by omega)]
    rw [(hfacts p (hmem 0 p hp)).2.2.2.2.2, hr, hd]
    simp only [Nat.cast_zero, if_true, hev, hkn]

theorem offsetRounds_inv (ps : List Process) (hc : IsChain ps) (hg : GuardClear ps)
    (hs : SizeTRange ps) (hn : 2 ≤ ps.length) (k : Nat) (hk : k ≤ ps.length) :
    ∃ qs, offsetRounds k ps = .ok qs ∧ OffsetInv ps k qs := by
  induction k with
  | zero => exact ⟨ps, rfl, OffsetInv.init ps hc hg⟩
  | succ k ih =>
    obtain ⟨qs, hqs, inv⟩ := ih (by omega)
    obtain ⟨qs2, h2, inv2⟩ := OffsetInv.step ps qs k hc hs hn (by omega) inv
    exact ⟨qs2, by simp only [offsetRounds, hqs, h2], inv2⟩

/-- C1. In a chain of `n >= 2` ranks on which no offset exchange is in flight,
the full run of the offset protocol (steps `0 .. n-1`, exchange then wait on
every rank) returns on every rank, and every rank `r` with `1 <= r <= n-1` ends
with `absolutePosition = (s_0 + .. + s_(r-1)) mod 2^64`, `s_0` being the
absolute position of rank 0 and `s_i` the buffer position of rank `i` before
the run. -/
theorem offset_prefix_sum (ps : List Process) (hn : 2 ≤ ps.length) (hc : IsChain ps)
    (hg : GuardClear ps) (hs : SizeTRange ps) :
    ∃ qs, offsetProtocol ps = .ok qs ∧ qs.length = ps.length ∧
      ∀ (r : Nat) (q : Process), 1 ≤ r → qs[r]? = some q →
        q.bufferSTL.m_AbsolutePosition = offsetSum ps r % SIZE_T_MOD := by
  obtain ⟨qs, hqs, inv⟩ := offsetRounds_inv ps hc hg hs hn ps.length (le_refl _)
  refine ⟨qs, hqs, inv.length, ?_⟩
  intro r q h1 hq
  have hr : r < qs.length := (List.getElem?_eq_some.mp hq).1
  exact inv.sums r q hq h1 (by rw [← inv.length]; omega)

theorem offset_prefix_sum_witness :
    ∃ qs, offsetProtocol (scenario4 10) = .ok qs ∧ qs.length = (scenario4 10).length ∧
      ∀ (r : Nat) (q : Process), 1 ≤ r → qs[r]? = some q →
        q.bufferSTL.m_AbsolutePosition = offsetSum (scenario4 10) r % SIZE_T_MOD :=
  offset_prefix_sum (scenario4 10) (by decide) (by decide) (by decide) (by decide)

/-- C2 (as stated, refuted). In the chain `twoRanks` rank 0 starts with the
absolute position 7 and ends the full run with 12, the 5 bytes of rank 1
added. -/
theorem seed_not_kept :
    absolutePositions twoRanks = [7, 0] ∧
    (offsetProtocol twoRanks).map absolutePositions = .ok [12, 7] := by
  constructor <;> rfl

/-- C2 (amended). In a chain of `n >= 2` ranks on which no offset exchange is in
flight, the full run of the offset protocol returns and rank 0 ends with
`absolutePosition = (s_0 + .. + s_(n-1)) mod 2^64`, the sum of all local sizes
(its own seed `s_0` and the buffer positions of the ranks `1 .. n-1`), which the
last rank sends it in the wrap-around step `n-1`. -/
theorem offset_rank_zero_total (ps : List Process) (hn : 2 ≤ ps.length) (hc : IsChain ps)
    (hg : GuardClear ps) (hs : SizeTRange ps) :
    ∃ (qs : List Process) (q : Process), offsetProtocol ps = .ok qs ∧ qs[0]? = some q ∧
      q.bufferSTL.m_AbsolutePosition = offsetSum ps ps.length % SIZE_T_MOD := by
  obtain ⟨qs, hqs, inv⟩ := offsetRounds_inv ps hc hg hs hn ps.length (le_refl _)
  have h0 : 0 < qs.length := by rw [inv.length]; omega
  exact ⟨qs, qs[0], hqs, List.getElem?_eq_getElem h0,
    inv.wrap rfl _ (List.getElem?_eq_getElem h0)⟩

theorem offset_rank_zero_total_witness :
    ∃ (qs : List Process) (q : Process), offsetProtocol twoRanks = .ok qs ∧ qs[0]? = some q ∧
      q.bufferSTL.m_AbsolutePosition = offsetSum twoRanks twoRanks.length % SIZE_T_MOD :=
  offset_rank_zero_total twoRanks (by decide) (by decide) (by decide) (by decide)

/-- C3 (as stated, refuted). With buffers of 10, 20, 30 and 40 bytes and seed 0
the full run does not leave the absolute positions 0, 10, 30, 60. -/
theorem refuted_scenario_positions :
    (offsetProtocol (scenario4 0)).map absolutePositions ≠ .ok [0, 10, 30, 60] := by
  have h : (offsetProtocol (scenario4 0)).map absolutePositions = .ok [90, 0, 20, 50] := rfl
  rw [h]
  simp

/-- C3 (amended). In a 4-rank chain whose caller buffers hold 10, 20, 30 and 40
bytes and where rank 0 has the seed absolute position 0, the full run of the
offset protocol leaves `absolutePosition` = 90 on rank 0, 0 on rank 1, 20 on
rank 2 and 50 on rank 3: rank 0 contributes its seed, not its 10 bytes, and
receives the total in the last step. -/
theorem scenario_offsets :
    (offsetProtocol (scenario4 0)).map absolutePositions = .ok [90, 0, 20, 50] := by
  rfl

/-! ## The chain transfer -/


theorem sends_state (p : Process) (k : Int) : (IExchange.sends p k).state = p := by
  unfold IExchange.sends
  repeat' split
  all_goals rfl

theorem MPI_Isend_size_t_ok (v : Nat) (d t n : Int) (r : Request)
    (h : MPI_Isend_size_t v d t n = .ok r) : r = .isend d t (.size_t v) := by
  unfold MPI_Isend_size_t at h
  split at h
  · simp only [Except.ok.injEq] at h
    exact h.symm
  · simp at h

theorem MPI_Isend_chars_ok (buf : List Nat) (c d t n : Int) (r : Request)
    (h : MPI_Isend_chars buf c d t n = .ok r) :
    r = .isend d t (.chars (buf.take c.toNat)) ∧ 0 ≤ c ∧ c.toNat ≤ buf.length := by
  unfold MPI_Isend_chars at h
  by_cases hd : 0 ≤ d ∧ d < n
  · by_cases hc : c < 0
    · simp [hd, hc] at h
    · by_cases hl : buf.length < c.toNat
      · simp [hd, hc, hl] at h
      · simp only [hd, hc, hl, and_self, if_true, if_false, Except.ok.injEq] at h
        exact ⟨h.symm, by omega, by omega⟩
  · simp [hd] at h

theorem sends_shape (p : Process) (k : Int) (reqs : List Request)
    (h : (IExchange.sends p k).result = .ok reqs) :
    (sender p.agg.m_Rank p.agg.m_Size k = true ∧
      ∃ d0 x0 d1 x1, reqs = [.isend d0 0 x0, .isend d1 1 x1, .null]) ∨
    (sender p.agg.m_Rank p.agg.m_Size k = false ∧ reqs = [.null, .null, .null]) := by
  unfold IExchange.sends at h
  split at h
  · simp [Outcome.raise] at h
  · split at h
    · rename_i hs
      left
      refine ⟨hs, ?_⟩
      split at h
      · simp [Outcome.raise] at h
      · split at h
        · simp [Outcome.raise] at h
        · split at h
          · simp at h
          · rename_i _ r0 h0 _ r1 h1
            simp only [Except.ok.injEq] at h
            subst h
            rw [MPI_Isend_size_t_ok _ _ _ _ _ h0, (MPI_Isend_chars_ok _ _ _ _ _ _ h1).1]
            exact ⟨_, _, _, _, rfl⟩
    · rename_i hs
      right
      simp only [Outcome.ret, Except.ok.injEq] at h
      exact ⟨by simpa using hs, h.symm⟩

theorem static_cast_int_toNat_le (x : Nat) : (static_cast_int x).toNat ≤ x := by
  unfold static_cast_int
  split <;> omega

theorem static_cast_int_small (x : Nat) (h : x < 2 ^ 31) : static_cast_int x = (x : Int) := by
  unfold static_cast_int
  have : x % 2 ^ 32 = x := Nat.mod_eq_of_lt (by omega)
  rw [this, if_pos h]

theorem consumerBuffer_SwapBuffers (p : Process) (k : Int) :
    consumerBuffer (SwapBuffers p k) = receiverBuffer p := by
  unfold consumerBuffer receiverBuffer GetConsumerBuffer GetSender GetReceiver SwapBuffers
  by_cases h : p.agg.m_CurrentBufferOrder = 0
  · cases hb : p.agg.m_Buffers <;> simp [h, hb, deref]
  · simp [h, deref]

theorem sends_of_sendable (p : Process) (k n : Int) (sb : BufferSTL)
    (hsz : p.agg.m_Size = n) (hk : 0 ≤ k)
    (hs : sender p.agg.m_Rank n k = true) (hv : consumerBuffer p = .ok sb) (hsend : Sendable sb) :
    (IExchange.sends p k).result =
      .ok [.isend (p.agg.m_Rank - 1) 0 (.size_t sb.m_Position),
           .isend (p.agg.m_Rank - 1) 1
             (.chars (sb.m_Buffer.take (static_cast_int sb.m_Position).toNat)), .null] := by
  have hr := (sender_iff _ _ _).mp hs
  have hd : 0 ≤ p.agg.m_Rank - 1 ∧ p.agg.m_Rank - 1 < n := by omega
  unfold consumerBuffer GetConsumerBuffer at hv
  unfold IExchange.sends
  cases hg : GetSender p with
  | error e => simp [hg] at hv
  | ok ref =>
    simp only [hg] at hv
    have h1 : ¬ (static_cast_int sb.m_Position < 0) := by have := hsend.1; omega
    have h2 : ¬ (sb.m_Buffer.length < (static_cast_int sb.m_Position).toNat) := by
      have := hsend.2; omega
    simp only [hsz, hs, if_true, hv, MPI_Isend_size_t, MPI_Isend_chars, hd, and_self, h1, h2,
      if_false]

theorem waitSlot_data (p p2 : Process) (net : Network) (requests : List Request) (i : Nat)
    (src cnt : Int) (ref : BufRef) (D : List Nat) (b : BufferSTL)
    (h : requests[i]? = some (.irecv src 1 cnt (.data ref)))
    (hnet : net.lookup src p.agg.m_Rank 1 = some (.chars D))
    (hcnt : (D.length : Int) ≤ cnt) (hb : deref p ref = .ok b)
    (hlen : D.length ≤ b.m_Buffer.length)
    (ha : assign p { b with m_Buffer := D ++ b.m_Buffer.drop D.length } ref = .ok p2) :
    waitSlot p net requests i =
      { state := p2, calls := [.wait (.irecv src 1 cnt (.data ref))], result := .ok () } := by
  simp [waitSlot, h, MPI_Wait, hnet, hcnt, complete, hb, hlen, ha]

theorem resize_length (rb : BufferSTL) (L : Nat) :
    (ResizeUpdateBufferSTL L rb).m_Buffer.length = L ∧ (ResizeUpdateBufferSTL L rb).m_Position = L := by
  simp only [ResizeUpdateBufferSTL, BufferSTL.Resize, List.length_take, List.length_append,
    List.length_replicate]
  omega

theorem andThen_result_ok {α β : Type} (o : Outcome α) (f : Process → α → Outcome β) (a : α)
    (h : o.result = .ok a) :
    (o.andThen f).result = (f o.state a).result ∧ (o.andThen f).state = (f o.state a).state := by
  simp [Outcome.andThen, h]

theorem receives_ok (p p1 : Process) (k n : Int) (net : Network) (reqs0 : List Request)
    (ref : BufRef) (rb : BufferSTL) (L : Nat)
    (hsz : p.agg.m_Size = n) (hr0 : 0 ≤ p.agg.m_Rank) (hk : 0 ≤ k)
    (hrecv : receiver p.agg.m_Rank n k = true)
    (hgr : GetReceiver p = .ok ref) (hrb : deref p ref = .ok rb)
    (ha : assign p (ResizeUpdateBufferSTL L rb) ref = .ok p1)
    (hl0 : net.lookup (p.agg.m_Rank + 1) p.agg.m_Rank 0 = some (.size_t L))
    (hc : 0 ≤ static_cast_int L) :
    (IExchange.receives p k net reqs0).result =
      .ok (reqs0.set 2 (.irecv (p.agg.m_Rank + 1) 1 (static_cast_int L) (.data ref))) ∧
    (IExchange.receives p k net reqs0).state = p1 := by
  have hr := (receiver_iff _ _ _).mp hrecv
  have hd : 0 ≤ p.agg.m_Rank + 1 ∧ p.agg.m_Rank + 1 < n := by omega
  have hc2 : ¬ (static_cast_int L < 0) := by omega
  have hi0 : MPI_Irecv (p.agg.m_Rank + 1) 0 1 n .localVar =
      .ok (.irecv (p.agg.m_Rank + 1) 0 1 .localVar) := by
    simp [MPI_Irecv, hd]
  have hw : MPI_Wait p.agg.m_Rank net (.irecv (p.agg.m_Rank + 1) 0 1 .localVar) =
      .ok (some (.localVar, .size_t L)) := by
    simp [MPI_Wait, hl0]
  have hi1 : MPI_Irecv (p.agg.m_Rank + 1) 1
      (static_cast_int (ResizeUpdateBufferSTL L rb).m_Position) n (.data ref) =
      .ok (.irecv (p.agg.m_Rank + 1) 1 (static_cast_int L) (.data ref)) := by
    simp [MPI_Irecv, hd, (resize_length rb L).2, hc2]
  unfold IExchange.receives
  rw [hsz, hrecv, if_pos rfl, hi0]
  simp only [hw, hgr, hrb, ha, hi1, and_self]

theorem GetReceiver_deref (p : Process) (ref : BufRef) (h : GetReceiver p = .ok ref) :
    ∃ rb, deref p ref = .ok rb := by
  unfold GetReceiver at h
  cases ref with
  | caller => exact ⟨_, rfl⟩
  | front =>
    cases hb : p.agg.m_Buffers with
    | nil => split at h <;> simp [hb] at h
    | cons x rest => exact ⟨x, by simp [deref, hb]⟩

theorem assign_of_deref (p : Process) (ref : BufRef) (rb b : BufferSTL)
    (h : deref p ref = .ok rb) :
    ∃ p1, assign p b ref = .ok p1 ∧ deref p1 ref = .ok b ∧
      p1.agg.m_Rank = p.agg.m_Rank ∧ p1.agg.m_Size = p.agg.m_Size ∧
      (p.agg.m_Buffers ≠ [] → p1.agg.m_Buffers ≠ []) ∧
      GetReceiver p1 = GetReceiver p := by
  cases ref with
  | caller => exact ⟨_, rfl, rfl, rfl, rfl, fun h => h, rfl⟩
  | front =>
    cases hb : p.agg.m_Buffers with
    | nil => simp [deref, hb] at h
    | cons x rest =>
      refine ⟨{ p with agg := { p.agg with m_Buffers := b :: rest } }, by simp [assign, hb],
        by simp [deref], rfl, rfl, fun _ => by simp, ?_⟩
      simp [GetReceiver, hb]

theorem transfer_receiver (p : Process) (k n : Int) (net : Network) (reqs0 : List Request)
    (ref : BufRef) (L : Nat) (D : List Nat)
    (hsz : p.agg.m_Size = n) (hn : n ≠ 1) (hr0 : 0 ≤ p.agg.m_Rank) (hk : 0 ≤ k)
    (hrecv : receiver p.agg.m_Rank n k = true)
    (hsends : (IExchange.sends p k).result = .ok reqs0)
    (hgr : GetReceiver p = .ok ref)
    (hl0 : net.lookup (p.agg.m_Rank + 1) p.agg.m_Rank 0 = some (.size_t L))
    (hl1 : net.lookup (p.agg.m_Rank + 1) p.agg.m_Rank 1 = some (.chars D))
    (hD : (D.length : Int) = static_cast_int L) :
    ∃ reqs b, (IExchange p k net).result = .ok reqs ∧
      (Wait (IExchange p k net).state reqs k net).result = .ok () ∧
      (Wait (IExchange p k net).state reqs k net).state.agg.m_Rank = p.agg.m_Rank ∧
      (Wait (IExchange p k net).state reqs k net).state.agg.m_Size = p.agg.m_Size ∧
      (p.agg.m_Buffers ≠ [] →
        (Wait (IExchange p k net).state reqs k net).state.agg.m_Buffers ≠ []) ∧
      receiverBuffer (Wait (IExchange p k net).state reqs k net).state = .ok b ∧
      b.m_Position = L ∧ b.m_Buffer.length = L ∧ b.m_Buffer.take D.length = D := by
  obtain ⟨rb, hrb⟩ := GetReceiver_deref p ref hgr
  obtain ⟨p1, ha1, hd1, hrk1, hsz1, hnb1, hgr1⟩ :=
    assign_of_deref p ref rb (ResizeUpdateBufferSTL L rb) hrb
  have hlen := resize_length rb L
  have hDL : D.length ≤ L := by
    have := static_cast_int_toNat_le L
    omega
  obtain ⟨p2, ha2, hd2, hrk2, hsz2, hnb2, hgr2⟩ :=
    assign_of_deref p1 ref (ResizeUpdateBufferSTL L rb)
      { ResizeUpdateBufferSTL L rb with
        m_Buffer := D ++ (ResizeUpdateBufferSTL L rb).m_Buffer.drop D.length } hd1
  have hrec := receives_ok p p1 k n net reqs0 ref rb L hsz hr0 hk hrecv hgr hrb ha1 hl0
    (by omega)
  have hx : (IExchange p k net).result =
      .ok (reqs0.set 2 (.irecv (p.agg.m_Rank + 1) 1 (static_cast_int L) (.data ref))) ∧
      (IExchange p k net).state = p1 := by
    unfold IExchange
    rw [if_neg (by rw [hsz]; exact hn)]
    have := andThen_result_ok (IExchange.sends p k)
      (fun p1 requests => IExchange.receives p1 k net requests) reqs0 hsends
    rw [this.1, this.2, sends_state]
    exact hrec
  have hlen3 : reqs0.length = 3 := by
    rcases sends_shape p k reqs0 hsends with ⟨-, _, _, _, _, h⟩ | ⟨-, h⟩ <;> simp [h]
  obtain ⟨reqs, hreqs⟩ : ∃ reqs, reqs =
      reqs0.set 2 (.irecv (p.agg.m_Rank + 1) 1 (static_cast_int L) (.data ref)) := ⟨_, rfl⟩
  rw [← hreqs] at hx
  have hslot2 : reqs[2]? =
      some (.irecv (p.agg.m_Rank + 1) 1 (static_cast_int L) (.data ref)) := by
    simp [hreqs, List.getElem?_set, hlen3]
  have hw2 := waitSlot_data p1 p2 net reqs 2 (p.agg.m_Rank + 1) (static_cast_int L) ref D
    (ResizeUpdateBufferSTL L rb) hslot2 (by rw [hrk1]; exact hl1) (by omega) hd1
    (by rw [hlen.1]; exact hDL) ha2
  have hfin : (Wait p1 reqs k net).result = .ok () ∧ (Wait p1 reqs k net).state = p2 := by
    unfold Wait
    rw [if_neg (by rw [hsz1, hsz]; exact hn), hrk1, hsz1, hsz, hrecv, if_pos rfl, hw2]
    rcases sends_shape p k reqs0 hsends with ⟨hs, d0, x0, d1, x1, h⟩ | ⟨hs, h⟩
    · rw [hsz] at hs
      have h0 := waitSlot_isend p2 net reqs 0 d0 0 x0 (by simp [hreqs, h])
      have h1 := waitSlot_isend p2 net reqs 1 d1 1 x1 (by simp [hreqs, h])
      simp only [Outcome.andThen, hs, if_true, h0, h1, and_self]
    · rw [hsz] at hs
      simp [Outcome.andThen, hs, Outcome.ret]
  refine ⟨reqs, { ResizeUpdateBufferSTL L rb with
        m_Buffer := D ++ (ResizeUpdateBufferSTL L rb).m_Buffer.drop D.length }, hx.1, ?_⟩
  rw [hx.2, hfin.2]
  refine ⟨hfin.1, by rw [hrk2, hrk1], by rw [hsz2, hsz1], fun h => hnb2 (hnb1 h), ?_, ?_, ?_, ?_⟩
  · unfold receiverBuffer
    rw [hgr2, hgr1, hgr]
    exact hd2
  · exact hlen.2
  · simp only [List.length_append, List.length_drop, hlen.1]
    omega
  · simp

theorem transfer_nonreceiver (p : Process) (k n : Int) (net : Network) (reqs0 : List Request)
    (hsz : p.agg.m_Size = n) (hn : n ≠ 1)
    (hrecv : receiver p.agg.m_Rank n k = false)
    (hsends : (IExchange.sends p k).result = .ok reqs0) :
    (IExchange p k net).result = .ok reqs0 ∧ (IExchange p k net).state = p ∧
    (Wait p reqs0 k net).result = .ok () ∧ (Wait p reqs0 k net).state = p := by
  have hx : (IExchange p k net).result = .ok reqs0 ∧ (IExchange p k net).state = p := by
    unfold IExchange
    rw [if_neg (by rw [hsz]; exact hn)]
    have := andThen_result_ok (IExchange.sends p k)
      (fun p1 requests => IExchange.receives p1 k net requests) reqs0 hsends
    have hrc : IExchange.receives p k net reqs0 = Outcome.ret p reqs0 := by
      unfold IExchange.receives
      rw [hsz, hrecv]
      simp
    rw [this.1, this.2, sends_state]
    simp only [hrc, Outcome.ret, and_self]
  refine ⟨hx.1, hx.2, ?_⟩
  unfold Wait
  rw [if_neg (by rw [hsz]; exact hn), hsz, hrecv]
  rcases sends_shape p k reqs0 hsends with ⟨hs, d0, x0, d1, x1, h⟩ | ⟨hs, h⟩
  · rw [hsz] at hs
    have h0 := waitSlot_isend p net reqs0 0 d0 0 x0 (by simp [h])
    have h1 := waitSlot_isend p net reqs0 1 d1 1 x1 (by simp [h])
    simp only [Outcome.andThen, Outcome.ret, hs, if_true, h0, h1, and_self, Bool.false_eq_true,
      if_false]
  · rw [hsz] at hs
    simp [Outcome.andThen, hs, Outcome.ret]

theorem SameIdentity.refl (p : Process) : SameIdentity p p := ⟨rfl, rfl, rfl⟩

theorem SameIdentity.trans {p q r : Process} (h1 : SameIdentity p q) (h2 : SameIdentity q r) :
    SameIdentity p r :=
  ⟨h2.1.trans h1.1, h2.2.1.trans h1.2.1, h2.2.2.trans h1.2.2⟩

theorem assign_frame (p p1 : Process) (b : BufferSTL) (ref : BufRef)
    (h : assign p b ref = .ok p1) : SameIdentity p p1 := by
  cases ref with
  | caller =>
    simp only [assign, Except.ok.injEq] at h
    subst h
    exact ⟨rfl, rfl, rfl⟩
  | front =>
    unfold assign at h
    cases hb : p.agg.m_Buffers with
    | nil => simp [hb] at h
    | cons x rest =>
      simp only [hb, Except.ok.injEq] at h
      subst h
      exact ⟨rfl, rfl, rfl⟩

theorem complete_frame (p p1 : Process) (got : Option (Target × Payload))
    (h : complete p got = .ok p1) : SameIdentity p p1 := by
  unfold complete at h
  split at h
  · simp only [Except.ok.injEq] at h
    subst h
    exact SameIdentity.refl p
  · simp only [Except.ok.injEq] at h
    subst h
    exact ⟨rfl, rfl, rfl⟩
  · split at h
    · simp at h
    · split at h
      · exact assign_frame _ _ _ _ h
      · simp at h
  · simp at h

theorem waitSlot_frame (p : Process) (net : Network) (requests : List Request) (i : Nat) :
    SameIdentity p (waitSlot p net requests i).state := by
  unfold waitSlot
  split
  · exact SameIdentity.refl p
  · split
    · exact SameIdentity.refl p
    · split
      · exact SameIdentity.refl p
      · rename_i h
        exact complete_frame _ _ _ h

theorem andThen_frame {α β : Type} (p : Process) (o : Outcome α) (f : Process → α → Outcome β)
    (h1 : SameIdentity p o.state) (h2 : ∀ q a, SameIdentity q (f q a).state) :
    SameIdentity p (o.andThen f).state := by
  unfold Outcome.andThen
  split
  · exact h1
  · exact h1.trans (h2 _ _)

theorem Wait_frame (p : Process) (requests : List Request) (k : Int) (net : Network) :
    SameIdentity p (Wait p requests k net).state := by
  unfold Wait
  split
  · exact SameIdentity.refl p
  · apply andThen_frame
    · split
      · exact waitSlot_frame _ _ _ _
      · exact SameIdentity.refl p
    · intro q a
      split
      · apply andThen_frame
        · exact waitSlot_frame _ _ _ _
        · intro q2 _
          exact waitSlot_frame _ _ _ _
      · exact SameIdentity.refl q

theorem receives_frame (p : Process) (k : Int) (net : Network) (requests : List Request) :
    SameIdentity p (IExchange.receives p k net requests).state := by
  unfold IExchange.receives
  repeat' split
  all_goals first
    | exact SameIdentity.refl p
    | (rename_i h _ _ _; exact assign_frame _ _ _ _ h)

theorem IExchange_frame (p : Process) (k : Int) (net : Network) :
    SameIdentity p (IExchange p k net).state := by
  unfold IExchange
  split
  · exact SameIdentity.refl p
  · apply andThen_frame
    · rw [sends_state]
      exact SameIdentity.refl p
    · intro q a
      exact receives_frame _ _ _ _

theorem collect_ok_inv {α β : Type} [Inhabited α] (F : β → Outcome α) (l : List β)
    (rs : List (Process × α)) (h : collect (l.map F) = .ok rs) :
    rs = (l.map fun b => ((F b).state, (F b).value)) ∧ ∀ b ∈ l, ∃ a, (F b).result = .ok a := by
  induction l generalizing rs with
  | nil =>
    simp only [List.map_nil, collect, Except.ok.injEq] at h
    subst h
    simp
  | cons b l ih =>
    simp only [List.map_cons, collect] at h
    cases hb : (F b).result with
    | error e => simp [hb] at h
    | ok a =>
      simp only [hb] at h
      cases hc : collect (l.map F) with
      | error e => simp [hc] at h
      | ok as =>
        simp only [hc, Except.ok.injEq] at h
        obtain ⟨h1, h2⟩ := ih as hc
        subst h
        refine ⟨by simp [h1, Outcome.value, hb], ?_⟩
        intro c hcm
        rcases List.mem_cons.mp hcm with rfl | hcm
        · exact ⟨a, hb⟩
        · exact h2 c hcm

/-- The state of a rank after its `IExchange`, `Wait` and `SwapBuffers` of one round. -/
theorem transferRound_eq (qs qs2 : List Process) (k : Int)
    (h : transferRound qs k = .ok qs2) :
    qs2 = (qs.map fun p => SwapBuffers
      (Wait (IExchange p k (qs.map fun q => postedSends q k)).state
        (IExchange p k (qs.map fun q => postedSends q k)).value k
        (qs.map fun q => postedSends q k)).state k) ∧
    ∀ p ∈ qs, (∃ reqs, (IExchange p k (qs.map fun q => postedSends q k)).result = .ok reqs) ∧
      (Wait (IExchange p k (qs.map fun q => postedSends q k)).state
        (IExchange p k (qs.map fun q => postedSends q k)).value k
        (qs.map fun q => postedSends q k)).result = .ok () := by
  unfold transferRound at h
  cases h1 : collect (qs.map fun p => IExchange p k (qs.map fun q => postedSends q k)) with
  | error e => simp [h1] at h
  | ok rs =>
    simp only [h1] at h
    obtain ⟨hrs, hok1⟩ := collect_ok_inv _ qs rs h1
    subst hrs
    rw [List.map_map] at h
    cases h2 : collect (qs.map ((fun r : Process × List Request =>
        Wait r.1 r.2 k (qs.map fun q => postedSends q k)) ∘ fun p =>
          ((IExchange p k (qs.map fun q => postedSends q k)).state,
            (IExchange p k (qs.map fun q => postedSends q k)).value))) with
    | error e => simp [h2] at h
    | ok ws =>
      simp only [h2, Except.ok.injEq] at h
      obtain ⟨hws, hok2⟩ := collect_ok_inv _ qs ws h2
      subst hws
      rw [List.map_map] at h
      refine ⟨h.symm, ?_⟩
      intro p hp
      refine ⟨hok1 p hp, ?_⟩
      obtain ⟨a, ha⟩ := hok2 p hp
      exact ha

theorem transferRound_ok (qs : List Process) (k : Int)
    (h : ∀ p ∈ qs, (∃ reqs, (IExchange p k (qs.map fun q => postedSends q k)).result = .ok reqs) ∧
      (Wait (IExchange p k (qs.map fun q => postedSends q k)).state
        (IExchange p k (qs.map fun q => postedSends q k)).value k
        (qs.map fun q => postedSends q k)).result = .ok ()) :
    ∃ qs2, transferRound qs k = .ok qs2 := by
  unfold transferRound
  rw [collect_map _ qs (fun p hp => (h p hp).1)]
  simp only [List.map_map, Function.comp_def]
  rw [collect_map _ qs (fun p hp => ⟨(), (h p hp).2⟩)]
  exact ⟨_, rfl⟩

theorem IExchange_ok_inv (p : Process) (k n : Int) (net : Network) (reqs : List Request)
    (L : Nat) (hsz : p.agg.m_Size = n) (hn : n ≠ 1) (hr0 : 0 ≤ p.agg.m_Rank) (hk : 0 ≤ k)
    (hrecv : receiver p.agg.m_Rank n k = true)
    (hl0 : net.lookup (p.agg.m_Rank + 1) p.agg.m_Rank 0 = some (.size_t L))
    (h : (IExchange p k net).result = .ok reqs) :
    (∃ reqs0, (IExchange.sends p k).result = .ok reqs0) ∧ ∃ ref, GetReceiver p = .ok ref := by
  unfold IExchange at h
  rw [if_neg (by rw [hsz]; exact hn)] at h
  cases hs : (IExchange.sends p k).result with
  | error e => simp [Outcome.andThen, hs] at h
  | ok reqs0 =>
    refine ⟨⟨reqs0, rfl⟩, ?_⟩
    have := andThen_result_ok (IExchange.sends p k)
      (fun p1 requests => IExchange.receives p1 k net requests) reqs0 hs
    rw [this.1, sends_state] at h
    cases hg : GetReceiver p with
    | ok ref => exact ⟨ref, rfl⟩
    | error e =>
      exfalso
      have hr := (receiver_iff _ _ _).mp hrecv
      have hd : 0 ≤ p.agg.m_Rank + 1 ∧ p.agg.m_Rank + 1 < n := by omega
      have hi0 : MPI_Irecv (p.agg.m_Rank + 1) 0 1 n .localVar =
          .ok (.irecv (p.agg.m_Rank + 1) 0 1 .localVar) := by
        simp [MPI_Irecv, hd]
      have hw : MPI_Wait p.agg.m_Rank net (.irecv (p.agg.m_Rank + 1) 0 1 .localVar) =
          .ok (some (.localVar, .size_t L)) := by
        simp [MPI_Wait, hl0]
      have hrc : (IExchange.receives p k net reqs0).result = .error e := by
        unfold IExchange.receives
        rw [hsz, hrecv, if_pos rfl, hi0]
        simp only [hw, hg]
      simp only [hrc] at h
      exact absurd h (by simp)

theorem lookup_postedSends (qs : List Process) (k n : Int) (t : Nat) (pt : Process)
    (sb : BufferSTL) (hpt : qs[t]? = some pt) (hrk : pt.agg.m_Rank = (t : Int))
    (hsz : pt.agg.m_Size = n) (hn : n ≠ 1) (hk : 0 ≤ k)
    (hs : sender (t : Int) n k = true) (hv : consumerBuffer pt = .ok sb) (hsend : Sendable sb) :
    Network.lookup (qs.map fun q => postedSends q k) (t : Int) ((t : Int) - 1) 0 =
      some (.size_t sb.m_Position) ∧
    Network.lookup (qs.map fun q => postedSends q k) (t : Int) ((t : Int) - 1) 1 =
      some (.chars (sb.m_Buffer.take (static_cast_int sb.m_Position).toNat)) := by
  have hps : postedSends pt k = [.isend ((t : Int) - 1) 0 (.size_t sb.m_Position),
      .isend ((t : Int) - 1) 1
        (.chars (sb.m_Buffer.take (static_cast_int sb.m_Position).toNat)), .null] := by
    unfold postedSends
    rw [if_neg (by rw [hsz]; exact hn),
      sends_of_sendable pt k n sb hsz hk (by rw [hrk]; exact hs) hv hsend, hrk]
  have hneg : ¬ ((t : Int) < 0) := by omega
  simp [Network.lookup, hneg, hpt, hps, sentTo]

theorem HoldsPayload.sendable {b : BufferSTL} {payload : List Nat} (h : HoldsPayload b payload)
    (hL : payload.length < 2 ^ 31) :
    Sendable b ∧ static_cast_int b.m_Position = (payload.length : Int) ∧
      b.m_Buffer.take (static_cast_int b.m_Position).toNat = payload := by
  have hc : static_cast_int b.m_Position = (payload.length : Int) := by
    rw [h.1]
    exact static_cast_int_small _ hL
  have hlen : payload.length ≤ b.m_Buffer.length := by
    have := congrArg List.length h.2
    rw [List.length_take, h.1] at this
    omega
  refine ⟨⟨by rw [hc]; omega, by rw [hc]; simpa using hlen⟩, hc, ?_⟩
  rw [hc, Int.toNat_ofNat, ← h.1]
  exact h.2

theorem SwapBuffers_frame (p : Process) (k : Int) :
    (SwapBuffers p k).agg.m_Rank = p.agg.m_Rank ∧ (SwapBuffers p k).agg.m_Size = p.agg.m_Size ∧
      (SwapBuffers p k).agg.m_Buffers = p.agg.m_Buffers := ⟨rfl, rfl, rfl⟩

theorem transferRound_chain (qs qs2 : List Process) (k : Int) (hc : IsChain qs)
    (hround : transferRound qs k = .ok qs2) : qs2.length = qs.length ∧ IsChain qs2 := by
  obtain ⟨hq2, -⟩ := transferRound_eq qs qs2 k hround
  have hlen : qs2.length = qs.length := by rw [hq2, List.length_map]
  refine ⟨hlen, ?_⟩
  apply IsChain.of_at
  intro r q hq
  rw [hq2] at hq
  simp only [List.getElem?_map, Option.map_eq_some'] at hq
  obtain ⟨p, hp1, rfl⟩ := hq
  have h1 := IExchange_frame p k (qs.map fun q => postedSends q k)
  have h2 := Wait_frame (IExchange p k (qs.map fun q => postedSends q k)).state
      (IExchange p k (qs.map fun q => postedSends q k)).value k
      (qs.map fun q => postedSends q k)
  have h3 := hc.at hp1
  rw [hlen, (SwapBuffers_frame _ _).1, (SwapBuffers_frame _ _).2.1, h2.1, h2.2.1, h1.1, h1.2.1]
  exact h3

theorem payload_step (qs qs2 : List Process) (k : Nat) (payload : List Nat) (hc : IsChain qs)
    (hk : k + 2 ≤ qs.length) (hL : payload.length < 2 ^ 31) (pt : Process) (sb : BufferSTL)
    (hpt : qs[qs.length - 1 - k]? = some pt) (hsb : consumerBuffer pt = .ok sb)
    (hp : HoldsPayload sb payload) (hround : transferRound qs k = .ok qs2) :
    ∃ pt2 sb2, qs2[qs.length - 1 - (k + 1)]? = some pt2 ∧ consumerBuffer pt2 = .ok sb2 ∧
      HoldsPayload sb2 payload := by
  obtain ⟨hq2, hok⟩ := transferRound_eq qs qs2 k hround
  have ht : qs.length - 1 - (k + 1) < qs.length := by omega
  obtain ⟨p, hpq⟩ : ∃ p, qs[qs.length - 1 - (k + 1)]? = some p :=
    ⟨_, List.getElem?_eq_getElem ht⟩
  have hprk := hc.at hpq
  have hptrk := hc.at hpt
  have hn1 : (qs.length : Int) ≠ 1 := by omega
  obtain ⟨hsend, hcast, htake⟩ := hp.sendable hL
  have hsender : sender ((qs.length - 1 - k : Nat) : Int) qs.length k = true := by
    rw [sender_iff]; omega
  have hlook := lookup_postedSends qs k qs.length (qs.length - 1 - k) pt sb hpt hptrk.1
    hptrk.2 hn1 (by omega) hsender hsb hsend
  have hrank1 : p.agg.m_Rank + 1 = ((qs.length - 1 - k : Nat) : Int) := by
    rw [hprk.1]; omega
  have hrank2 : ((qs.length - 1 - k : Nat) : Int) - 1 = p.agg.m_Rank := by
    rw [hprk.1]; omega
  rw [hrank2, ← hrank1, htake, hp.1] at hlook
  have hrecv : receiver p.agg.m_Rank qs.length k = true := by
    rw [receiver_iff, hprk.1]; omega
  obtain ⟨⟨reqs, hreqs⟩, -⟩ := hok p (List.getElem?_mem hpq)
  obtain ⟨⟨reqs0, hreqs0⟩, ref, href⟩ := IExchange_ok_inv p k qs.length _ reqs payload.length
    hprk.2 hn1 (by rw [hprk.1]; omega) (by omega) hrecv hlook.1 hreqs
  obtain ⟨reqs2, b, hx, -, -, -, -, hb, hb1, hb2, hb3⟩ := transfer_receiver p k qs.length
    (qs.map fun q => postedSends q k) reqs0 ref payload.length payload hprk.2 hn1
    (by rw [hprk.1]; omega) (by omega) hrecv hreqs0 href hlook.1 hlook.2
    (by rw [← hcast, hp.1])
  rw [← Outcome.value_of_ok _ _ hx] at hb
  refine ⟨SwapBuffers
    (Wait (IExchange p k (qs.map fun q => postedSends q k)).state
      (IExchange p k (qs.map fun q => postedSends q k)).value k
      (qs.map fun q => postedSends q k)).state k, b, ?_, ?_, hb1, ?_⟩
  · rw [hq2, List.getElem?_map, hpq]
    rfl
  · rw [consumerBuffer_SwapBuffers]
    exact hb
  · rw [hb1]
    exact hb3

theorem sends_nonsender (p : Process) (k : Int)
    (hs : sender p.agg.m_Rank p.agg.m_Size k = false) (hb : p.agg.m_Buffers ≠ []) :
    (IExchange.sends p k).result = .ok [.null, .null, .null] := by
  unfold IExchange.sends GetSender
  cases hbs : p.agg.m_Buffers with
  | nil => exact absurd hbs hb
  | cons x rest =>
    by_cases ho : p.agg.m_CurrentBufferOrder = 0 <;> simp [ho, hs, Outcome.ret]

theorem GetReceiver_ok (p : Process) (hb : p.agg.m_Buffers ≠ []) :
    ∃ ref, GetReceiver p = .ok ref := by
  unfold GetReceiver
  cases hbs : p.agg.m_Buffers with
  | nil => exact absurd hbs hb
  | cons x rest =>
    by_cases ho : p.agg.m_CurrentBufferOrder = 0
    · exact ⟨.front, by simp [ho]⟩
    · exact ⟨.caller, by simp [ho]⟩

theorem rank_round (qs : List Process) (k r : Nat) (p : Process) (inv : TransferReady k qs)
    (hk : k + 2 ≤ qs.length) (hp : qs[r]? = some p) :
    ∃ reqs, (IExchange p k (qs.map fun q => postedSends q k)).result = .ok reqs ∧
      (Wait (IExchange p k (qs.map fun q => postedSends q k)).state reqs k
        (qs.map fun q => postedSends q k)).result = .ok () ∧
      (Wait (IExchange p k (qs.map fun q => postedSends q k)).state reqs k
        (qs.map fun q => postedSends q k)).state.agg.m_Buffers ≠ [] ∧
      (r + (k + 1) ≤ qs.length - 1 → ∃ b,
        receiverBuffer (Wait (IExchange p k (qs.map fun q => postedSends q k)).state reqs k
          (qs.map fun q => postedSends q k)).state = .ok b ∧ Sendable b) := by
  have hprk := inv.chain.at hp
  have hrn : r < qs.length := (List.getElem?_eq_some.mp hp).1
  have hn1 : (qs.length : Int) ≠ 1 := by omega
  have hbuf := inv.buffers p (List.getElem?_mem hp)
  -- the sender block returns
  obtain ⟨reqs0, hreqs0⟩ : ∃ reqs0, (IExchange.sends p k).result = .ok reqs0 := by
    by_cases hs : sender p.agg.m_Rank p.agg.m_Size k = true
    · have hs2 := hs
      rw [sender_iff, hprk.1, hprk.2] at hs2
      obtain ⟨sb, hsb, hsend⟩ := inv.sendable r p hp (by omega)
      exact ⟨_, sends_of_sendable p k p.agg.m_Size sb rfl (by omega) hs hsb hsend⟩
    · exact ⟨_, sends_nonsender p k (by simpa using hs) hbuf⟩
  by_cases hrecv : receiver p.agg.m_Rank qs.length k = true
  · have hr2 := hrecv
    rw [receiver_iff, hprk.1] at hr2
    obtain ⟨pn, hpn⟩ : ∃ pn, qs[r + 1]? = some pn :=
      ⟨_, List.getElem?_eq_getElem (by omega)⟩
    have hpnrk := inv.chain.at hpn
    obtain ⟨sb, hsb, hsend⟩ := inv.sendable (r + 1) pn hpn (by omega)
    have hsender : sender ((r + 1 : Nat) : Int) qs.length k = true := by
      rw [sender_iff]; omega
    have hlook := lookup_postedSends qs k qs.length (r + 1) pn sb hpn hpnrk.1 hpnrk.2 hn1
      (by omega) hsender hsb hsend
    have hrank1 : ((r + 1 : Nat) : Int) = p.agg.m_Rank + 1 := by rw [hprk.1]; omega
    have hrank2 : ((r + 1 : Nat) : Int) - 1 = p.agg.m_Rank := by rw [hprk.1]; omega
    rw [hrank2, hrank1] at hlook
    obtain ⟨ref, href⟩ := GetReceiver_ok p hbuf
    have hD : (((sb.m_Buffer.take (static_cast_int sb.m_Position).toNat).length : Nat) : Int) =
        static_cast_int sb.m_Position := by
      rw [List.length_take, Nat.min_eq_left hsend.2]
      exact Int.toNat_of_nonneg hsend.1
    obtain ⟨reqs, b, hx, hw, -, -, hnb, hb, hb1, hb2, -⟩ := transfer_receiver p k qs.length
      (qs.map fun q => postedSends q k) reqs0 ref sb.m_Position _ hprk.2 hn1
      (by rw [hprk.1]; omega) (by omega) hrecv hreqs0 href hlook.1 hlook.2 hD
    refine ⟨reqs, hx, hw, hnb hbuf, fun _ => ⟨b, hb, ?_⟩⟩
    unfold Sendable
    rw [hb1, hb2]
    exact ⟨hsend.1, static_cast_int_toNat_le _⟩
  · have hr2 := hrecv
    rw [receiver_iff, hprk.1] at hr2
    obtain ⟨h1, h2, h3, h4⟩ := transfer_nonreceiver p k qs.length
      (qs.map fun q => postedSends q k) reqs0 hprk.2 hn1 (by simpa using hrecv) hreqs0
    refine ⟨reqs0, h1, by rw [h2]; exact h3, by rw [h2, h4]; exact hbuf, fun h => ?_⟩
    omega

theorem ready_step (qs : List Process) (k : Nat) (inv : TransferReady k qs)
    (hk : k + 2 ≤ qs.length) :
    ∃ qs2, transferRound qs k = .ok qs2 ∧ qs2.length = qs.length ∧
      TransferReady (k + 1) qs2 := by
  have hall : ∀ p ∈ qs,
      (∃ reqs, (IExchange p k (qs.map fun q => postedSends q k)).result = .ok reqs) ∧
      (Wait (IExchange p k (qs.map fun q => postedSends q k)).state
        (IExchange p k (qs.map fun q => postedSends q k)).value k
        (qs.map fun q => postedSends q k)).result = .ok () := by
    intro p hp
    obtain ⟨r, hr⟩ := List.getElem?_of_mem hp
    obtain ⟨reqs, h1, h2, -⟩ := rank_round qs k r p inv hk hr
    exact ⟨⟨reqs, h1⟩, by rw [Outcome.value_of_ok _ _ h1]; exact h2⟩
  obtain ⟨qs2, hqs2⟩ := transferRound_ok qs k hall
  obtain ⟨hlen, hchain⟩ := transferRound_chain qs qs2 k inv.chain hqs2
  obtain ⟨hq2, -⟩ := transferRound_eq qs qs2 k hqs2
  refine ⟨qs2, hqs2, hlen, hchain, ?_, ?_⟩
  · intro q hq
    obtain ⟨r, hr⟩ := List.getElem?_of_mem hq
    rw [hq2] at hr
    simp only [List.getElem?_map, Option.map_eq_some'] at hr
    obtain ⟨p, hp1, rfl⟩ := hr
    obtain ⟨reqs, h1, -, h3, -⟩ := rank_round qs k r p inv hk hp1
    rw [(SwapBuffers_frame _ _).2.2, Outcome.value_of_ok _ _ h1]
    exact h3
  · intro r q hq hr
    rw [hq2] at hq
    simp only [List.getElem?_map, Option.map_eq_some'] at hq
    obtain ⟨p, hp1, rfl⟩ := hq
    obtain ⟨reqs, h1, -, -, h4⟩ := rank_round qs k r p inv hk hp1
    obtain ⟨b, hb, hsend⟩ := h4 (by rw [hlen] at hr; exact hr)
    exact ⟨b, by rw [consumerBuffer_SwapBuffers, Outcome.value_of_ok _ _ h1]; exact hb, hsend⟩

theorem transferRounds_succ_inv (ps qs2 : List Process) (k : Nat)
    (h : transferRounds (k + 1) ps = .ok qs2) :
    ∃ qs, transferRounds k ps = .ok qs ∧ transferRound qs k = .ok qs2 := by
  simp only [transferRounds] at h
  cases hq : transferRounds k ps with
  | error e => simp [hq] at h
  | ok qs => exact ⟨qs, rfl, by simpa [hq] using h⟩

theorem consumerBuffer_default (p : Process) (h : p.agg.m_CurrentBufferOrder = 0) :
    consumerBuffer p = .ok p.bufferSTL := by
  simp [consumerBuffer, GetConsumerBuffer, GetSender, h, deref]

theorem payload_rounds (ps : List Process) (payload : List Nat) (plast : Process)
    (hc : IsChain ps) (hL : payload.length < 2 ^ 31)
    (ho : ∀ p ∈ ps, p.agg.m_CurrentBufferOrder = 0)
    (hlast : ps[ps.length - 1]? = some plast) (hp : HoldsPayload plast.bufferSTL payload)
    (k : Nat) (hk : k + 1 ≤ ps.length) (qs : List Process)
    (h : transferRounds k ps = .ok qs) :
    qs.length = ps.length ∧ IsChain qs ∧
      ∃ pt sb, qs[ps.length - 1 - k]? = some pt ∧ consumerBuffer pt = .ok sb ∧
        HoldsPayload sb payload := by
  induction k generalizing qs with
  | zero =>
    simp only [transferRounds, Except.ok.injEq] at h
    subst h
    exact ⟨rfl, hc, plast, plast.bufferSTL, hlast,
      consumerBuffer_default plast (ho plast (List.getElem?_mem hlast)), hp⟩
  | succ k ih =>
    obtain ⟨qs1, h1, h2⟩ := transferRounds_succ_inv ps qs k h
    obtain ⟨hlen, hchain, pt, sb, hpt, hsb, hpay⟩ := ih (by omega) qs1 h1
    obtain ⟨hlen2, hchain2⟩ := transferRound_chain qs1 qs k hchain h2
    rw [← hlen] at hpt
    have := payload_step qs1 qs k payload hchain (by omega) hL pt sb hpt hsb hpay h2
    rw [hlen] at this
    exact ⟨by rw [hlen2, hlen], hchain2, this⟩

theorem ready_rounds (ps : List Process) (hc : IsChain ps)
    (hr : ∀ p ∈ ps, p.agg.m_Buffers ≠ [] ∧ Sendable p.bufferSTL)
    (ho : ∀ p ∈ ps, p.agg.m_CurrentBufferOrder = 0) (k : Nat) (hk : k + 1 ≤ ps.length) :
    ∃ qs, transferRounds k ps = .ok qs ∧ qs.length = ps.length ∧ TransferReady k qs := by
  induction k with
  | zero =>
    refine ⟨ps, rfl, rfl, hc, fun p hp => (hr p hp).1, ?_⟩
    intro r p hp _
    have hm := List.getElem?_mem hp
    exact ⟨p.bufferSTL, consumerBuffer_default p (ho p hm), (hr p hm).2⟩
  | succ k ih =>
    obtain ⟨qs, h1, hlen, inv⟩ := ih (by omega)
    obtain ⟨qs2, h2, hlen2, inv2⟩ := ready_step qs k inv (by omega)
    exact ⟨qs2, by simp only [transferRounds, h1, h2], by rw [hlen2, hlen], inv2⟩

/-- C4. In a chain of `n >= 2` ranks that all start with the default buffer
order, where the caller buffer of rank `n-1` holds a payload of fewer than
`2^31` bytes: whenever the `n-1` rounds `step = 0 .. n-2` (`IExchange`, `Wait`
and `SwapBuffers` on every rank) return, the buffer `GetConsumerBuffer` gives on
rank 0 has its position equal to the length of the payload and its first
`position` bytes equal to the payload; and the rounds do return when every rank
has its local buffer and every caller buffer holds fewer than `2^31` bytes
within its storage. -/
theorem chain_round_trip (ps : List Process) (payload : List Nat) (plast : Process)
    (hn : 2 ≤ ps.length) (hc : IsChain ps) (hL : payload.length < 2 ^ 31)
    (ho : ∀ p ∈ ps, p.agg.m_CurrentBufferOrder = 0)
    (hlast : ps[ps.length - 1]? = some plast) (hp : HoldsPayload plast.bufferSTL payload) :
    (∀ qs, transferRounds (ps.length - 1) ps = .ok qs →
      ∃ p0 b, qs[0]? = some p0 ∧ consumerBuffer p0 = .ok b ∧
        b.m_Position = payload.length ∧ b.m_Buffer.take b.m_Position = payload) ∧
    ((∀ p ∈ ps, p.agg.m_Buffers ≠ [] ∧
        p.bufferSTL.m_Position ≤ p.bufferSTL.m_Buffer.length ∧
        p.bufferSTL.m_Position < 2 ^ 31) →
      ∃ qs, transferRounds (ps.length - 1) ps = .ok qs) := by
  constructor
  · intro qs h
    obtain ⟨-, -, pt, sb, hpt, hsb, hpay⟩ :=
      payload_rounds ps payload plast hc hL ho hlast hp (ps.length - 1) (by omega) qs h
    have h0 : ps.length - 1 - (ps.length - 1) = 0 := by omega
    rw [h0] at hpt
    exact ⟨pt, sb, hpt, hsb, hpay.1, hpay.2⟩
  · intro hr
    have hr2 : ∀ p ∈ ps, p.agg.m_Buffers ≠ [] ∧ Sendable p.bufferSTL := by
      intro p hpm
      obtain ⟨h1, h2, h3⟩ := hr p hpm
      refine ⟨h1, ?_⟩
      unfold Sendable
      rw [static_cast_int_small _ h3]
      exact ⟨by omega, by simpa using h2⟩
    obtain ⟨qs, h, -, -⟩ := ready_rounds ps hc hr2 ho (ps.length - 1) (by omega)
    exact ⟨qs, h⟩

theorem chain_round_trip_witness :
    ∃ qs p0 b, transferRounds 2 chain3 = .ok qs ∧ qs[0]? = some p0 ∧
      consumerBuffer p0 = .ok b ∧ b.m_Position = 8 ∧
      b.m_Buffer.take b.m_Position = [65, 66, 67, 68, 69, 70, 71, 72] := by
  obtain ⟨hresult, hreturns⟩ := chain_round_trip chain3 [65, 66, 67, 68, 69, 70, 71, 72]
    { sampleProcess 2 3 false with
      bufferSTL := { m_Buffer := [65, 66, 67, 68, 69, 70, 71, 72], m_Position := 8,
                     m_AbsolutePosition := 0 } }
    (by decide) (by decide) (by decide) (by decide) rfl ⟨rfl, rfl⟩
  obtain ⟨qs, hqs⟩ := hreturns (by decide)
  obtain ⟨p0, b, h0, hb, hpos, htake⟩ := hresult qs hqs
  exact ⟨qs, p0, b, hqs, h0, hb, hpos, htake⟩

/-! ## One step of the ring -/

theorem exchange_calls (p : Process) (k n : Nat) (hn : 2 ≤ n) (hk : k < n)
    (hsize : p.agg.m_Size = n) (hg : p.agg.m_IsInExchangeAbsolutePosition = false) :
    (IExchangeAbsolutePosition p k).calls =
      (if p.agg.m_Rank = k then
        [.post (.isend (destination n k) 0 (.size_t (exchangeValue p k)))]
       else if p.agg.m_Rank = destination n k then
        [.post (.irecv k 0 1 .absolutePosition)]
       else []) := by
  have h1 : (n : Int) ≠ 1 := by omega
  have hd : 0 ≤ destination n k ∧ destination n k < n := by
    unfold destination; split <;> omega
  have hkn : 0 ≤ (k : Int) ∧ (k : Int) < n := by omega
  unfold IExchangeAbsolutePosition
  rw [hsize, if_neg h1, hg]
  simp only [Bool.false_eq_true, if_false]
  rcases Nat.eq_zero_or_pos k with hk0 | hk0
  · subst hk0
    by_cases hr : p.agg.m_Rank = 0 <;>
      by_cases hr2 : p.agg.m_Rank = destination n (0 : Nat) <;>
      simp [hr, hr2, hsize, MPI_Isend_size_t, MPI_Irecv, hd, hkn, setGuard, localSize,
        exchangeValue, Outcome.ret] <;> simp_all
  · have hk1 : (k : Int) ≠ 0 := by omega
    by_cases hr : p.agg.m_Rank = k <;>
      by_cases hr2 : p.agg.m_Rank = destination n k <;> by_cases hr0 : p.agg.m_Rank = 0 <;>
      simp [hk1, hr, hr2, hr0, hsize, MPI_Isend_size_t, MPI_Irecv, hd, hkn, setGuard, localSize,
        exchangeValue, Outcome.ret] <;> simp_all

/-- C11. In a chain of `n >= 2` ranks with no exchange in flight, at a step
`k <= n-1` of the offset protocol: `destination` is `k+1`, or 0 when `k = n-1`,
a rank of the chain other than `k`; rank `k` posts one send to `destination`
(tag 0) and nothing else, rank `destination` posts one receive from `k` into
the absolute position of its buffer and nothing else, every other rank posts
nothing, so exactly one rank posts a send and exactly one a receive; the value
sent is the local size of the sender when it is rank 0 and the local size plus
its current absolute position (in `size_t`) otherwise; and after the round the
absolute position of `destination` is that value, the other ranks keeping
theirs. -/
theorem ring_step (ps : List Process) (k : Nat) (hn : 2 ≤ ps.length) (hk : k < ps.length)
    (hc : IsChain ps) (hg : GuardClear ps) :
    (destination ps.length k = (if k + 1 = ps.length then 0 else ((k + 1 : Nat) : Int)) ∧
      0 ≤ destination ps.length k ∧ destination ps.length k < ps.length ∧
      destination ps.length k ≠ k) ∧
    (∀ (r : Nat) (p : Process), ps[r]? = some p →
      (IExchangeAbsolutePosition p k).calls =
        (if r = k then
          [.post (.isend (destination ps.length k) 0 (.size_t
            (if r = 0 then (IExchangeAbsolutePosition p k).state.agg.m_SizeSend
             else ((IExchangeAbsolutePosition p k).state.agg.m_SizeSend +
               p.bufferSTL.m_AbsolutePosition) % SIZE_T_MOD)))]
         else if (r : Int) = destination ps.length k then
          [.post (.irecv k 0 1 .absolutePosition)]
         else [])) ∧
    (∃! r : Nat, ∃ p, ps[r]? = some p ∧
      (IExchangeAbsolutePosition p k).calls.any Call.isSendPost = true) ∧
    (∃! r : Nat, ∃ p, ps[r]? = some p ∧
      (IExchangeAbsolutePosition p k).calls.any Call.isReceivePost = true) ∧
    ∃ qs, offsetRound ps k = .ok qs ∧ qs.length = ps.length ∧
      ∀ (r : Nat) (p q pk : Process), ps[r]? = some p → qs[r]? = some q → ps[k]? = some pk →
        q.bufferSTL.m_AbsolutePosition =
          (if (r : Int) = destination ps.length k then
            (if k = 0 then (IExchangeAbsolutePosition pk k).state.agg.m_SizeSend
             else ((IExchangeAbsolutePosition pk k).state.agg.m_SizeSend +
               pk.bufferSTL.m_AbsolutePosition) % SIZE_T_MOD)
           else p.bufferSTL.m_AbsolutePosition) := by
  have hd := destination_ne ps.length k hn hk
  have hcalls : ∀ (r : Nat) (p : Process), ps[r]? = some p →
      (IExchangeAbsolutePosition p k).calls =
        (if r = k then
          [.post (.isend (destination ps.length k) 0 (.size_t
            (if r = 0 then (IExchangeAbsolutePosition p k).state.agg.m_SizeSend
             else ((IExchangeAbsolutePosition p k).state.agg.m_SizeSend +
               p.bufferSTL.m_AbsolutePosition) % SIZE_T_MOD)))]
         else if (r : Int) = destination ps.length k then
          [.post (.irecv k 0 1 .absolutePosition)]
         else []) := by
    intro r p hp
    have hat := hc.at hp
    have hgp := hg p (List.getElem?_mem hp)
    obtain ⟨-, -, -, -, -, -, hss, -⟩ := exchange_ok p k ps.length hn hk hat.2 hgp
    rw [exchange_calls p k ps.length hn hk hat.2 hgp, hss, hat.1]
    by_cases hrk : r = k
    · have h0 : ((r : Int) = 0) ↔ r = 0 := by omega
      simp only [hrk, if_true, exchangeValue, hat.1, Nat.cast_inj]
      subst hrk
      by_cases hr0 : r = 0
      · simp [hr0]
      · have : (r : Int) ≠ 0 := by omega
        simp [hr0, this]
    · have : ¬ ((r : Int) = (k : Int)) := by omega
      simp only [hrk, this, if_false]
  refine ⟨⟨?_, hd.2.1, hd.2.2, hd.1⟩, hcalls, ?_, ?_, ?_⟩
  · unfold destination
    by_cases h : k + 1 = ps.length
    · rw [if_pos h, if_neg (by omega)]
    · rw [if_neg h, if_pos (by omega)]
      omega
  · obtain ⟨pk, hpk⟩ : ∃ pk, ps[k]? = some pk := ⟨ps[k], List.getElem?_eq_getElem hk⟩
    refine ⟨k, ⟨pk, hpk, ?_⟩, ?_⟩
    · rw [hcalls k pk hpk]
      simp [Call.isSendPost]
    · rintro r ⟨p, hp, hany⟩
      rw [hcalls r p hp] at hany
      by_contra hne
      by_cases hrd : (r : Int) = destination ps.length k <;>
        simp [hne, hrd, Call.isSendPost] at hany
  · have hdn : (destination ps.length k).toNat < ps.length := by omega
    obtain ⟨pd, hpd⟩ : ∃ pd, ps[(destination ps.length k).toNat]? = some pd :=
      ⟨_, List.getElem?_eq_getElem hdn⟩
    have hcast : (((destination ps.length k).toNat : Nat) : Int) = destination ps.length k :=
      Int.toNat_of_nonneg hd.2.1
    refine ⟨(destination ps.length k).toNat, ⟨pd, hpd, ?_⟩, ?_⟩
    · rw [hcalls _ pd hpd]
      have hne : ¬ ((destination ps.length k).toNat = k) := by omega
      simp [hne, hcast, Call.isReceivePost]
    · rintro r ⟨p, hp, hany⟩
      rw [hcalls r p hp] at hany
      by_cases hrk : r = k
      · simp [hrk, Call.isReceivePost] at hany
      · by_cases hrd : (r : Int) = destination ps.length k
        · omega
        · simp [hrk, hrd] at hany
  · obtain ⟨pk, hpk⟩ : ∃ pk, ps[k]? = some pk := ⟨ps[k], List.getElem?_eq_getElem hk⟩
    obtain ⟨G, hG, hfacts⟩ := offsetRound_ok ps k hc hg hn hk pk hpk
    refine ⟨ps.map G, hG, List.length_map _ _, ?_⟩
    intro r p q pk2 hp hq hpk2
    rw [hpk] at hpk2
    obtain rfl := Option.some.inj hpk2
    rw [List.getElem?_map, hp] at hq
    obtain rfl := Option.some.inj hq
    have hat := hc.at hp
    have hatk := hc.at hpk
    obtain ⟨-, -, -, -, -, -, hss, -⟩ := exchange_ok pk k ps.length hn hk hatk.2
      (hg pk (List.getElem?_mem hpk))
    rw [(hfacts p (List.getElem?_mem hp)).2.2.2.2.2, hat.1, hss]
    by_cases hrd : (r : Int) = destination ps.length k
    · simp only [hrd, if_true, exchangeValue, hatk.1]
      by_cases hk0 : k = 0
      · simp [hk0]
      · have : (k : Int) ≠ 0 := by omega
        simp [hk0, this]
    · simp only [hrd, if_false]

theorem ring_step_witness :
    destination (scenario4 10).length (3 : Nat) =
        (if 3 + 1 = (scenario4 10).length then 0 else ((3 + 1 : Nat) : Int)) ∧
      ∃ qs, offsetRound (scenario4 10) (3 : Nat) = .ok qs ∧ qs.length = (scenario4 10).length :=
  have h := ring_step (scenario4 10) 3 (by decide) (by decide) (by decide) (by decide)
  ⟨h.1.1, h.2.2.2.2.choose, h.2.2.2.2.choose_spec.1, h.2.2.2.2.choose_spec.2.1⟩

/-! ## The buffer-order flag -/

theorem IExchangeAbsolutePosition_frame (p : Process) (k : Int) :
    SameIdentity p (IExchangeAbsolutePosition p k).state := by
  unfold IExchangeAbsolutePosition
  simp only [setGuard, Outcome.ret, Outcome.raise]
  repeat' split
  all_goals exact ⟨rfl, rfl, rfl⟩

theorem WaitAbsolutePosition_frame (p : Process) (requests : List Request) (k : Int)
    (net : Network) : SameIdentity p (WaitAbsolutePosition p requests k net).state := by
  unfold WaitAbsolutePosition
  split
  · exact SameIdentity.refl p
  · split
    · exact SameIdentity.refl p
    · apply andThen_frame
      · split
        · exact waitSlot_frame _ _ _ _
        · exact SameIdentity.refl p
      · intro q _
        apply andThen_frame
        · split
          · exact waitSlot_frame _ _ _ _
          · exact SameIdentity.refl q
        · intro q2 _
          exact ⟨rfl, rfl, rfl⟩

theorem Reachable.flag {p : Process} (h : Reachable p) :
    p.agg.m_CurrentBufferOrder = 0 ∨ p.agg.m_CurrentBufferOrder = 1 := by
  induction h with
  | constructed p h => exact Or.inl h
  | callerWrites p b _ ih => exact ih
  | exchange p step net _ ih => rw [(IExchange_frame p step net).2.2]; exact ih
  | wait p requests step net _ ih => rw [(Wait_frame p requests step net).2.2]; exact ih
  | exchangeAbsolutePosition p step _ ih =>
    rw [(IExchangeAbsolutePosition_frame p step).2.2]; exact ih
  | waitAbsolutePosition p requests step net _ ih =>
    rw [(WaitAbsolutePosition_frame p requests step net).2.2]; exact ih
  | swap p step _ ih =>
    by_cases h0 : p.agg.m_CurrentBufferOrder = 0
    · right; simp [SwapBuffers, h0]
    · left; simp [SwapBuffers, h0]
  | reset p _ _ => left; rfl

/-- C12. In every state an aggregator reaches, the buffer-order flag is 0 or 1;
once `Init` has allocated the local buffer, the sender view and the receiver
view are two different buffers, one the caller-supplied buffer and one the
local buffer; `SwapBuffers` (with any step argument) exchanges the two roles:
the buffer `GetReceiver` selected before the swap is the one `GetSender` and
`GetConsumerBuffer` select after it, and conversely; two swaps restore the
state; and `ResetBuffers` makes the caller-supplied buffer the sender view from
any value of the flag. -/
theorem buffer_hand_off (p : Process) (step step2 : Int) (hr : Reachable p)
    (hb : p.agg.m_Buffers ≠ []) :
    (p.agg.m_CurrentBufferOrder = 0 ∨ p.agg.m_CurrentBufferOrder = 1) ∧
    (∃ s r, GetSender p = .ok s ∧ GetReceiver p = .ok r ∧ s ≠ r) ∧
    (GetSender (SwapBuffers p step) = GetReceiver p ∧
      GetConsumerBuffer (SwapBuffers p step) = GetReceiver p ∧
      GetReceiver (SwapBuffers p step) = GetSender p ∧
      consumerBuffer (SwapBuffers p step) = receiverBuffer p) ∧
    SwapBuffers (SwapBuffers p step) step2 = p ∧
    (∀ q : Process, GetSender (ResetBuffers q) = .ok .caller ∧
      GetConsumerBuffer (ResetBuffers q) = .ok .caller ∧
      consumerBuffer (ResetBuffers q) = .ok q.bufferSTL) := by
  have hflag := hr.flag
  obtain ⟨x, rest, hbs⟩ : ∃ x rest, p.agg.m_Buffers = x :: rest := by
    cases hbs : p.agg.m_Buffers with
    | nil => exact absurd hbs hb
    | cons x rest => exact ⟨x, rest, rfl⟩
  refine ⟨hflag, ?_, ⟨?_, ?_, ?_, consumerBuffer_SwapBuffers p step⟩, ?_, ?_⟩
  · rcases hflag with h0 | h1
    · exact ⟨.caller, .front, by simp [GetSender, h0], by simp [GetReceiver, h0, hbs],
        by decide⟩
    · exact ⟨.front, .caller, by simp [GetSender, h1, hbs], by simp [GetReceiver, h1],
        by decide⟩
  · rcases hflag with h0 | h1
    · simp [GetSender, GetReceiver, SwapBuffers, h0, hbs]
    · simp [GetSender, GetReceiver, SwapBuffers, h1]
  · rcases hflag with h0 | h1
    · simp [GetConsumerBuffer, GetSender, GetReceiver, SwapBuffers, h0, hbs]
    · simp [GetConsumerBuffer, GetSender, GetReceiver, SwapBuffers, h1]
  · rcases hflag with h0 | h1
    · simp [GetSender, GetReceiver, SwapBuffers, h0, hbs]
    · simp [GetSender, GetReceiver, SwapBuffers, h1, hbs]
  · rcases hflag with h0 | h1
    · have : p = { agg := { p.agg with m_CurrentBufferOrder := 0 }, bufferSTL := p.bufferSTL } := by
        rw [← h0]
      simp only [SwapBuffers, h0, if_true]
      simp only [one_ne_zero, if_false]
      exact this.symm
    · have : p = { agg := { p.agg with m_CurrentBufferOrder := 1 }, bufferSTL := p.bufferSTL } := by
        rw [← h1]
      simp only [SwapBuffers, h1, one_ne_zero, if_false, if_true]
      exact this.symm
  · intro q
    simp [GetConsumerBuffer, GetSender, ResetBuffers, consumerBuffer, deref]

theorem buffer_hand_off_witness :
    ((SwapBuffers (sampleProcess 1 3 false) 0).agg.m_CurrentBufferOrder = 0 ∨
      (SwapBuffers (sampleProcess 1 3 false) 0).agg.m_CurrentBufferOrder = 1) ∧
    SwapBuffers (SwapBuffers (SwapBuffers (sampleProcess 1 3 false) 0) 1) 2 =
      SwapBuffers (sampleProcess 1 3 false) 0 :=
  have h := buffer_hand_off (SwapBuffers (sampleProcess 1 3 false) 0) 1 2
    (Reachable.swap _ 0 (Reachable.constructed _ rfl)) (by decide)
  ⟨h.1, h.2.2.2.1⟩

/-! ## The guard of the offset protocol -/

theorem andThen_ok_inv {α β : Type} (o : Outcome α) (f : Process → α → Outcome β) (b : β)
    (h : (o.andThen f).result = .ok b) :
    ∃ a, o.result = .ok a ∧ (f o.state a).result = .ok b ∧
      (o.andThen f).state = (f o.state a).state := by
  unfold Outcome.andThen at h ⊢
  cases ho : o.result with
  | error e => simp [ho] at h
  | ok a =>
    simp only [ho] at h ⊢
    exact ⟨a, rfl, h, rfl⟩

theorem exchange_ok_guard (p : Process) (step : Int) (reqs : List Request)
    (h1 : p.agg.m_Size ≠ 1) (h : (IExchangeAbsolutePosition p step).result = .ok reqs) :
    p.agg.m_IsInExchangeAbsolutePosition = false ∧
      (IExchangeAbsolutePosition p step).state.agg.m_IsInExchangeAbsolutePosition = true := by
  cases hg : p.agg.m_IsInExchangeAbsolutePosition with
  | true =>
    unfold IExchangeAbsolutePosition at h
    simp [h1, hg, Outcome.raise] at h
  | false =>
    refine ⟨rfl, ?_⟩
    revert h
    unfold IExchangeAbsolutePosition
    rw [if_neg h1]
    simp only [hg, Bool.false_eq_true, if_false]
    repeat' split
    all_goals
      intro h
      first
        | rfl
        | exact absurd h (by simp [Outcome.raise])

theorem wait_ok_guard (p : Process) (requests : List Request) (step : Int) (net : Network)
    (h1 : p.agg.m_Size ≠ 1) (h : (WaitAbsolutePosition p requests step net).result = .ok ()) :
    p.agg.m_IsInExchangeAbsolutePosition = true ∧
      (WaitAbsolutePosition p requests step net).state.agg.m_IsInExchangeAbsolutePosition =
        false := by
  unfold WaitAbsolutePosition at h ⊢
  rw [if_neg h1] at h ⊢
  cases hg : p.agg.m_IsInExchangeAbsolutePosition with
  | false => simp [hg, Outcome.raise] at h
  | true =>
    refine ⟨rfl, ?_⟩
    simp only [hg, Bool.not_true, Bool.false_eq_true, if_false] at h ⊢
    obtain ⟨a, -, h2, hs2⟩ := andThen_ok_inv _ _ _ h
    obtain ⟨b, -, -, hs3⟩ := andThen_ok_inv _ _ _ h2
    rw [hs2, hs3]
    rfl

theorem OffsetCall.run_ok (p q : Process) (c : OffsetCall) (h1 : p.agg.m_Size ≠ 1)
    (h : c.run p = .ok q) :
    c.isExchange = !p.agg.m_IsInExchangeAbsolutePosition ∧
      q.agg.m_IsInExchangeAbsolutePosition = c.isExchange ∧ q.agg.m_Size = p.agg.m_Size := by
  cases c with
  | exchange step =>
    simp only [OffsetCall.run] at h
    cases hr : (IExchangeAbsolutePosition p step).result with
    | error e => simp [hr] at h
    | ok reqs =>
      simp only [hr, Except.ok.injEq] at h
      subst h
      obtain ⟨h2, h3⟩ := exchange_ok_guard p step reqs h1 hr
      exact ⟨by simp [OffsetCall.isExchange, h2], by simp [OffsetCall.isExchange, h3],
        (IExchangeAbsolutePosition_frame p step).2.1⟩
  | wait requests step net =>
    simp only [OffsetCall.run] at h
    cases hr : (WaitAbsolutePosition p requests step net).result with
    | error e => simp [hr] at h
    | ok u =>
      simp only [hr, Except.ok.injEq] at h
      subst h
      obtain ⟨h2, h3⟩ := wait_ok_guard p requests step net h1 hr
      exact ⟨by simp [OffsetCall.isExchange, h2], by simp [OffsetCall.isExchange, h3],
        (WaitAbsolutePosition_frame p requests step net).2.1⟩

theorem runOffsetCalls_alternate (calls : List OffsetCall) (p q : Process)
    (h1 : p.agg.m_Size ≠ 1) (h : runOffsetCalls p calls = .ok q) :
    List.Chain' (fun a b => a.isExchange ≠ b.isExchange) calls ∧
      (∀ c, calls.head? = some c → c.isExchange = !p.agg.m_IsInExchangeAbsolutePosition) := by
  induction calls generalizing p with
  | nil => exact ⟨List.chain'_nil, fun c hc => by simp at hc⟩
  | cons c cs ih =>
    simp only [runOffsetCalls] at h
    cases hr : c.run p with
    | error e => simp [hr] at h
    | ok p1 =>
      simp only [hr] at h
      obtain ⟨hc1, hc2, hc3⟩ := OffsetCall.run_ok p p1 c h1 hr
      obtain ⟨ih1, ih2⟩ := ih p1 (by rw [hc3]; exact h1) h
      refine ⟨?_, fun c2 hc => by
        simp only [List.head?_cons, Option.some.injEq] at hc
        subst hc
        exact hc1⟩
      rw [List.chain'_cons']
      refine ⟨?_, ih1⟩
      intro c2 hc2mem
      have := ih2 c2 hc2mem
      rw [this, hc2]
      cases c.isExchange <;> simp

/-- C13. In a chain of size at least 2, on every rank and at every step, an
`IExchangeAbsolutePosition` that returns leaves the guard set, whether the rank
posted a send, a receive or nothing, and a `WaitAbsolutePosition` that returns
leaves the guard cleared, whatever it waited on; hence in a sequence of
successful calls of the two on one rank no two consecutive calls are the same
operation, and the first one is the exchange exactly when the guard was
clear. -/
theorem guard_lifecycle (p : Process) (h2 : 2 ≤ p.agg.m_Size) :
    (∀ (step : Int) (handle : List Request),
      (IExchangeAbsolutePosition p step).result = .ok handle →
        (IExchangeAbsolutePosition p step).state.agg.m_IsInExchangeAbsolutePosition = true) ∧
    (∀ (handle : List Request) (step : Int) (net : Network),
      (WaitAbsolutePosition p handle step net).result = .ok () →
        (WaitAbsolutePosition p handle step net).state.agg.m_IsInExchangeAbsolutePosition =
          false) ∧
    (∀ (calls : List OffsetCall) (q : Process), runOffsetCalls p calls = .ok q →
      List.Chain' (fun a b => a.isExchange ≠ b.isExchange) calls ∧
      (∀ c, calls.head? = some c →
        c.isExchange = !p.agg.m_IsInExchangeAbsolutePosition)) := by
  have h1 : p.agg.m_Size ≠ 1 := by omega
  exact ⟨fun step handle h => (exchange_ok_guard p step handle h1 h).2,
    fun handle step net h => (wait_ok_guard p handle step net h1 h).2,
    fun calls q h => runOffsetCalls_alternate calls p q h1 h⟩

theorem guard_lifecycle_witness :
    (IExchangeAbsolutePosition (sampleProcess 2 4 false) 0).state.agg.m_IsInExchangeAbsolutePosition
        = true ∧
    ∃ q, runOffsetCalls (sampleProcess 2 4 false)
        [.exchange 0, .wait [.null, .null] 0 [], .exchange 1] = .ok q :=
  have h := guard_lifecycle (sampleProcess 2 4 false) (by decide)
  ⟨h.1 0 [.null, .null] rfl, _, rfl⟩

/-! ## Buffer management -/

/-- C14. For every buffer and every `newSize`, after
`ResizeUpdateBufferSTL (newSize, buffer)` the buffer holds at least `newSize`
bytes (exactly `newSize` with the resize modelled here) and its position equals
the size of its storage, so `position <= buffer.size()`; when `newSize` is not
smaller than the previous size the bytes already in the buffer are unchanged;
the absolute position is not touched. -/
theorem resize_update_buffer (b : BufferSTL) (newSize : Nat) :
    newSize ≤ (ResizeUpdateBufferSTL newSize b).m_Buffer.length ∧
    (ResizeUpdateBufferSTL newSize b).m_Position =
      (ResizeUpdateBufferSTL newSize b).m_Buffer.length ∧
    (ResizeUpdateBufferSTL newSize b).m_Position ≤
      (ResizeUpdateBufferSTL newSize b).m_Buffer.length ∧
    (b.m_Buffer.length ≤ newSize →
      (ResizeUpdateBufferSTL newSize b).m_Buffer.take b.m_Buffer.length = b.m_Buffer) ∧
    (ResizeUpdateBufferSTL newSize b).m_AbsolutePosition = b.m_AbsolutePosition := by
  have hlen := resize_length b newSize
  refine ⟨by rw [hlen.1], by rw [hlen.1, hlen.2], by rw [hlen.1, hlen.2], ?_, rfl⟩
  intro h
  simp only [ResizeUpdateBufferSTL, BufferSTL.Resize, List.take_take, Nat.min_eq_left h]
  rw [List.take_append_of_le_length (le_refl _), List.take_length]

/-! ## The handle of the chain transfer -/

theorem MPI_Irecv_ok (s t c n : Int) (tg : Target) (r : Request)
    (h : MPI_Irecv s t c n tg = .ok r) : r = .irecv s t c tg ∧ 0 ≤ c := by
  unfold MPI_Irecv at h
  by_cases hd : 0 ≤ s ∧ s < n
  · by_cases hc : c < 0
    · simp [hd, hc] at h
    · simp only [hd, hc, and_self, if_true, if_false, Except.ok.injEq] at h
      exact ⟨h.symm, by omega⟩
  · simp [hd] at h

theorem receives_handle (p : Process) (k : Int) (net : Network) (reqs0 reqs : List Request)
    (h : (IExchange.receives p k net reqs0).result = .ok reqs) :
    (receiver p.agg.m_Rank p.agg.m_Size k = true ∧
      ∃ c ref, reqs = reqs0.set 2 (.irecv (p.agg.m_Rank + 1) 1 c (.data ref)) ∧
        GetReceiver p = .ok ref) ∨
    (receiver p.agg.m_Rank p.agg.m_Size k = false ∧ reqs = reqs0) := by
  revert h
  unfold IExchange.receives
  split
  · rename_i hrecv
    repeat' split
    all_goals
      intro h
      first
        | (simp [Outcome.raise] at h; done)
        | skip
    rename_i _ _ _ _ _ _ _ _ href _ _ _ _ _ _ _ r2 hr2
    simp only [Except.ok.injEq] at h
    left
    exact ⟨hrecv, _, _, by rw [← h, (MPI_Irecv_ok _ _ _ _ _ _ hr2).1], href⟩
  · rename_i hrecv
    intro h
    right
    simp only [Outcome.ret, Except.ok.injEq] at h
    exact ⟨by simpa using hrecv, h.symm⟩

theorem IExchange_handle (p : Process) (k : Int) (net : Network) (reqs : List Request)
    (h1 : p.agg.m_Size ≠ 1) (h : (IExchange p k net).result = .ok reqs) :
    ∃ r0 r1 r2, reqs = [r0, r1, r2] ∧
      ((sender p.agg.m_Rank p.agg.m_Size k = true ∧
          ∃ d0 x0 d1 x1, r0 = .isend d0 0 x0 ∧ r1 = .isend d1 1 x1) ∨
        (sender p.agg.m_Rank p.agg.m_Size k = false ∧ r0 = .null ∧ r1 = .null)) ∧
      ((receiver p.agg.m_Rank p.agg.m_Size k = true ∧
          ∃ c ref, r2 = .irecv (p.agg.m_Rank + 1) 1 c (.data ref) ∧ GetReceiver p = .ok ref) ∨
        (receiver p.agg.m_Rank p.agg.m_Size k = false ∧ r2 = .null)) := by
  unfold IExchange at h
  rw [if_neg h1] at h
  obtain ⟨reqs0, hs, hr, -⟩ := andThen_ok_inv _ _ _ h
  rw [sends_state] at hr
  rcases sends_shape p k reqs0 hs with ⟨hsend, d0, x0, d1, x1, h0⟩ | ⟨hsend, h0⟩ <;>
    rcases receives_handle p k net reqs0 reqs hr with ⟨hrecv, c, ref, h2, href⟩ | ⟨hrecv, h2⟩
  · exact ⟨_, _, _, by rw [h2, h0]; rfl, Or.inl ⟨hsend, d0, x0, d1, x1, rfl, rfl⟩,
      Or.inl ⟨hrecv, c, ref, rfl, href⟩⟩
  · exact ⟨_, _, _, by rw [h2, h0], Or.inl ⟨hsend, d0, x0, d1, x1, rfl, rfl⟩,
      Or.inr ⟨hrecv, rfl⟩⟩
  · exact ⟨_, _, _, by rw [h2, h0]; rfl, Or.inr ⟨hsend, rfl, rfl⟩,
      Or.inl ⟨hrecv, c, ref, rfl, href⟩⟩
  · exact ⟨_, _, _, by rw [h2, h0], Or.inr ⟨hsend, rfl, rfl⟩, Or.inr ⟨hrecv, rfl⟩⟩

theorem waitSlot_calls (p : Process) (net : Network) (requests : List Request) (i : Nat)
    (r : Request) (h : requests[i]? = some r) :
    (waitSlot p net requests i).calls = [.wait r] := by
  unfold waitSlot
  simp only [h]
  repeat' split
  all_goals rfl

/-- The waits `Wait` makes with a handle of three slots whose send slots hold
sends when the rank is a sender. -/
theorem Wait_calls (p : Process) (k : Int) (net : Network) (r0 r1 r2 : Request)
    (h1 : p.agg.m_Size ≠ 1)
    (hs : sender p.agg.m_Rank p.agg.m_Size k = true →
      ∃ d0 x0 d1 x1, r0 = .isend d0 0 x0 ∧ r1 = .isend d1 1 x1) :
    ((Wait p [r0, r1, r2] k net).calls <+:
      (if receiver p.agg.m_Rank p.agg.m_Size k = true then [Call.wait r2] else []) ++
        (if sender p.agg.m_Rank p.agg.m_Size k = true then [Call.wait r0, Call.wait r1]
         else [])) ∧
    ((Wait p [r0, r1, r2] k net).result = .ok () →
      (Wait p [r0, r1, r2] k net).calls =
        (if receiver p.agg.m_Rank p.agg.m_Size k = true then [Call.wait r2] else []) ++
          (if sender p.agg.m_Rank p.agg.m_Size k = true then [Call.wait r0, Call.wait r1]
           else [])) ∧
    (receiver p.agg.m_Rank p.agg.m_Size k = true →
      (Wait p [r0, r1, r2] k net).calls.head? = some (Call.wait r2)) := by
  have hc2 := waitSlot_calls p net [r0, r1, r2] 2 r2 rfl
  unfold Wait
  rw [if_neg h1]
  cases hrecv : receiver p.agg.m_Rank p.agg.m_Size k <;>
    cases hsend : sender p.agg.m_Rank p.agg.m_Size k
  · simp [Outcome.andThen, Outcome.ret]
  · obtain ⟨d0, x0, d1, x1, rfl, rfl⟩ := hs hsend
    have h0 := waitSlot_isend p net [.isend d0 0 x0, .isend d1 1 x1, r2] 0 d0 0 x0 rfl
    have h1 := waitSlot_isend p net [.isend d0 0 x0, .isend d1 1 x1, r2] 1 d1 1 x1 rfl
    simp [Outcome.andThen, Outcome.ret, h0, h1]
  · cases hw : (waitSlot p net [r0, r1, r2] 2).result with
    | error e => simp [Outcome.andThen, Outcome.ret, hw, hc2]
    | ok u => simp [Outcome.andThen, Outcome.ret, hw, hc2]
  · obtain ⟨d0, x0, d1, x1, rfl, rfl⟩ := hs hsend
    cases hw : (waitSlot p net [.isend d0 0 x0, .isend d1 1 x1, r2] 2).result with
    | error e =>
      simp only [Outcome.andThen, Outcome.ret, hw, hc2, if_true]
      refine ⟨⟨_, rfl⟩, fun h => by simp at h, fun _ => rfl⟩
    | ok u =>
      have h0 := waitSlot_isend (waitSlot p net [.isend d0 0 x0, .isend d1 1 x1, r2] 2).state
        net [.isend d0 0 x0, .isend d1 1 x1, r2] 0 d0 0 x0 rfl
      have h1 := waitSlot_isend (waitSlot p net [.isend d0 0 x0, .isend d1 1 x1, r2] 2).state
        net [.isend d0 0 x0, .isend d1 1 x1, r2] 1 d1 1 x1 rfl
      simp [Outcome.andThen, Outcome.ret, hw, hc2, h0, h1]

/-- C15. In a chain of size at least 2, for every rank and step, with the
handle `[r0, r1, r2]` a returning `IExchange (buffer, step)` gives: slot 2 is
posted (a payload receive) exactly when the rank is a receiver, slots 0 and 1
are posted (the two sends) exactly when it is a sender; `Wait (handle, step)`
waits on slot 2 exactly when the receive was posted and, the receive done, on
slots 0 and 1 exactly when the sends were posted, in this order; the waits it
makes are always an initial part of this list (all of it when it returns), the
receive comes first, and it never waits on an unposted slot. -/
theorem wait_matches_exchange (p : Process) (step : Int) (net net2 : Network)
    (handle : List Request) (h2 : 2 ≤ p.agg.m_Size)
    (h : (IExchange p step net).result = .ok handle) :
    ∃ r0 r1 r2, handle = [r0, r1, r2] ∧
      (r2 ≠ .null ↔ receiver p.agg.m_Rank p.agg.m_Size step = true) ∧
      (r0 ≠ .null ↔ sender p.agg.m_Rank p.agg.m_Size step = true) ∧
      (r1 ≠ .null ↔ sender p.agg.m_Rank p.agg.m_Size step = true) ∧
      ((Wait (IExchange p step net).state handle step net2).calls <+:
        (if receiver p.agg.m_Rank p.agg.m_Size step = true then [Call.wait r2] else []) ++
          (if sender p.agg.m_Rank p.agg.m_Size step = true then [Call.wait r0, Call.wait r1]
           else [])) ∧
      ((Wait (IExchange p step net).state handle step net2).result = .ok () →
        (Wait (IExchange p step net).state handle step net2).calls =
          (if receiver p.agg.m_Rank p.agg.m_Size step = true then [Call.wait r2] else []) ++
            (if sender p.agg.m_Rank p.agg.m_Size step = true then [Call.wait r0, Call.wait r1]
             else [])) ∧
      (receiver p.agg.m_Rank p.agg.m_Size step = true →
        (Wait (IExchange p step net).state handle step net2).calls.head? =
          some (Call.wait r2)) ∧
      (∀ c ∈ (Wait (IExchange p step net).state handle step net2).calls,
        c ≠ Call.wait .null) := by
  have h1 : p.agg.m_Size ≠ 1 := by omega
  obtain ⟨r0, r1, r2, rfl, hsd, hrc⟩ := IExchange_handle p step net handle h1 h
  have hf := IExchange_frame p step net
  have hs : sender (IExchange p step net).state.agg.m_Rank
      (IExchange p step net).state.agg.m_Size step = true →
      ∃ d0 x0 d1 x1, r0 = .isend d0 0 x0 ∧ r1 = .isend d1 1 x1 := by
    rw [hf.1, hf.2.1]
    intro hsend
    rcases hsd with ⟨-, hx⟩ | ⟨hn, -⟩
    · exact hx
    · rw [hn] at hsend; exact absurd hsend (by simp)
  obtain ⟨w1, w2, w3⟩ := Wait_calls (IExchange p step net).state step net2 r0 r1 r2
    (by rw [hf.2.1]; exact h1) hs
  rw [hf.1, hf.2.1] at w1 w2 w3
  have e2 : r2 ≠ .null ↔ receiver p.agg.m_Rank p.agg.m_Size step = true := by
    rcases hrc with ⟨hr, c, ref, rfl, -⟩ | ⟨hr, rfl⟩ <;> simp [hr]
  have e0 : r0 ≠ .null ↔ sender p.agg.m_Rank p.agg.m_Size step = true := by
    rcases hsd with ⟨hr, d0, x0, d1, x1, rfl, rfl⟩ | ⟨hr, rfl, rfl⟩ <;> simp [hr]
  have e1 : r1 ≠ .null ↔ sender p.agg.m_Rank p.agg.m_Size step = true := by
    rcases hsd with ⟨hr, d0, x0, d1, x1, rfl, rfl⟩ | ⟨hr, rfl, rfl⟩ <;> simp [hr]
  refine ⟨r0, r1, r2, rfl, e2, e0, e1, w1, w2, w3, ?_⟩
  intro c hc hnull
  subst hnull
  have hmem := w1.subset hc
  rw [List.mem_append] at hmem
  rcases hmem with hm | hm
  · split at hm
    · rename_i hr
      simp only [List.mem_singleton, Call.wait.injEq] at hm
      exact (e2.mpr hr) hm.symm
    · simp at hm
  · split at hm
    · rename_i hr
      simp only [List.mem_cons, Call.wait.injEq, List.mem_singleton, List.not_mem_nil,
        or_false] at hm
      rcases hm with hm | hm
      · exact (e0.mpr hr) hm.symm
      · exact (e1.mpr hr) hm.symm
    · simp at hm

theorem wait_matches_exchange_witness :
    ∃ r0 r1 r2, (IExchange.sends (sampleProcess 2 3 false) 0).result = .ok [r0, r1, r2] ∧
      (r2 ≠ .null ↔ receiver 2 3 0 = true) ∧ (r0 ≠ .null ↔ sender 2 3 0 = true) :=
  have h := wait_matches_exchange (sampleProcess 2 3 false) 0 [] [] _ (by decide)
    (show (IExchange (sampleProcess 2 3 false) 0 []).result = .ok
      [.isend 1 0 (.size_t 0), .isend 1 1 (.chars []), .null] from rfl)
  match h with
  | ⟨r0, r1, r2, he, e2, e0, _⟩ => ⟨r0, r1, r2, by rw [← he]; rfl, e2, e0⟩

/-! ## One hop of the chain transfer -/

theorem sends_calls_of_sendable (p : Process) (k n : Int) (sb : BufferSTL)
    (hsz : p.agg.m_Size = n) (hk : 0 ≤ k)
    (hs : sender p.agg.m_Rank n k = true) (hv : consumerBuffer p = .ok sb) (hsend : Sendable sb) :
    (IExchange.sends p k).calls =
      [.post (.isend (p.agg.m_Rank - 1) 0 (.size_t sb.m_Position)),
       .post (.isend (p.agg.m_Rank - 1) 1
         (.chars (sb.m_Buffer.take (static_cast_int sb.m_Position).toNat)))] := by
  have hr := (sender_iff _ _ _).mp hs
  have hd : 0 ≤ p.agg.m_Rank - 1 ∧ p.agg.m_Rank - 1 < n := by omega
  unfold consumerBuffer GetConsumerBuffer at hv
  unfold IExchange.sends
  cases hg : GetSender p with
  | error e => simp [hg] at hv
  | ok ref =>
    simp only [hg] at hv
    have h1 : ¬ (static_cast_int sb.m_Position < 0) := by have := hsend.1; omega
    have h2 : ¬ (sb.m_Buffer.length < (static_cast_int sb.m_Position).toNat) := by
      have := hsend.2; omega
    simp only [hsz, hs, if_true, hv, MPI_Isend_size_t, MPI_Isend_chars, hd, and_self, h1, h2,
      if_false]

theorem receives_calls (p : Process) (k : Int) (net : Network) (reqs0 : List Request) :
    ∀ c ∈ (IExchange.receives p k net reqs0).calls,
      ∃ s t cnt tg, c = .post (.irecv s t cnt tg) ∨ c = .wait (.irecv s t cnt tg) := by
  unfold IExchange.receives
  split
  · cases h0 : MPI_Irecv (p.agg.m_Rank + 1) 0 1 p.agg.m_Size .localVar with
    | error e => simp [Outcome.raise]
    | ok r =>
      obtain rfl := (MPI_Irecv_ok _ _ _ _ _ _ h0).1
      simp only
      repeat' split
      all_goals
        intro c hc
        first
          | (simp only [List.mem_cons, List.mem_singleton, List.not_mem_nil, or_false] at hc
             rcases hc with rfl | rfl
             · exact ⟨_, _, _, _, Or.inl rfl⟩
             · exact ⟨_, _, _, _, Or.inr rfl⟩)
          | (rename_i r2 hr2
             obtain rfl := (MPI_Irecv_ok _ _ _ _ _ _ hr2).1
             simp only [List.mem_cons, List.mem_singleton, List.not_mem_nil, or_false] at hc
             rcases hc with rfl | rfl | rfl
             · exact ⟨_, _, _, _, Or.inl rfl⟩
             · exact ⟨_, _, _, _, Or.inr rfl⟩
             · exact ⟨_, _, _, _, Or.inl rfl⟩)
  · simp [Outcome.ret]

theorem andThen_calls {α β : Type} (o : Outcome α) (f : Process → α → Outcome β) (a : α)
    (h : o.result = .ok a) : (o.andThen f).calls = o.calls ++ (f o.state a).calls := by
  simp [Outcome.andThen, h]

theorem IExchange_sendPosts (p : Process) (k n : Int) (net : Network) (sb : BufferSTL)
    (hsz : p.agg.m_Size = n) (hn : n ≠ 1) (hk : 0 ≤ k)
    (hs : sender p.agg.m_Rank n k = true) (hv : consumerBuffer p = .ok sb) (hsend : Sendable sb) :
    (IExchange p k net).calls.filter Call.isSendPost =
      [.post (.isend (p.agg.m_Rank - 1) 0 (.size_t sb.m_Position)),
       .post (.isend (p.agg.m_Rank - 1) 1
         (.chars (sb.m_Buffer.take (static_cast_int sb.m_Position).toNat)))] := by
  unfold IExchange
  rw [if_neg (by rw [hsz]; exact hn),
    andThen_calls _ _ _ (sends_of_sendable p k n sb hsz hk hs hv hsend),
    sends_calls_of_sendable p k n sb hsz hk hs hv hsend, sends_state, List.filter_append]
  have hnone : (IExchange.receives p k net
      [.isend (p.agg.m_Rank - 1) 0 (.size_t sb.m_Position),
       .isend (p.agg.m_Rank - 1) 1
         (.chars (sb.m_Buffer.take (static_cast_int sb.m_Position).toNat)),
       .null]).calls.filter Call.isSendPost = [] := by
    rw [List.filter_eq_nil_iff]
    intro c hc
    obtain ⟨s, t, cnt, tg, rfl | rfl⟩ := receives_calls p k net _ c hc <;>
      simp [Call.isSendPost]
  rw [hnone]
  simp [Call.isSendPost]

/-- C16. In a chain of size at least 2, at a step `k`, let rank `r` be a sender
whose sender-view buffer has position `L < 2^31` within its storage.  Then
`IExchange` on rank `r` posts exactly two sends, both to rank `r-1`: first the
length `L` with tag 0, then the first `L` bytes with tag 1.  And when
`IExchange` returns on rank `r-1`, its `Wait` returns too and leaves the
receiver-view buffer of rank `r-1` with position exactly `L`, a storage of `L`
bytes, and the first `L` bytes of the sender, whatever that buffer held before;
`IExchange` does return on rank `r-1` when that rank has its local buffer and,
if it sends itself, its own buffer can be sent. -/
theorem one_hop_transfer (qs : List Process) (k r : Nat) (ps pr : Process) (sb : BufferSTL)
    (hn : 2 ≤ qs.length) (hc : IsChain qs) (hs : sender (r : Int) qs.length k = true)
    (hps : qs[r]? = some ps) (hpr : qs[r - 1]? = some pr)
    (hsb : consumerBuffer ps = .ok sb) (hL : sb.m_Position < 2 ^ 31)
    (hlen : sb.m_Position ≤ sb.m_Buffer.length) :
    (IExchange ps k (qs.map fun q => postedSends q k)).calls.filter Call.isSendPost =
      [.post (.isend ((r : Int) - 1) 0 (.size_t sb.m_Position)),
       .post (.isend ((r : Int) - 1) 1 (.chars (sb.m_Buffer.take sb.m_Position)))] ∧
    (∀ handle, (IExchange pr k (qs.map fun q => postedSends q k)).result = .ok handle →
      (Wait (IExchange pr k (qs.map fun q => postedSends q k)).state handle k
        (qs.map fun q => postedSends q k)).result = .ok () ∧
      ∃ b, receiverBuffer (Wait (IExchange pr k (qs.map fun q => postedSends q k)).state
          handle k (qs.map fun q => postedSends q k)).state = .ok b ∧
        b.m_Position = sb.m_Position ∧ b.m_Buffer.length = sb.m_Position ∧
        b.m_Buffer.take sb.m_Position = sb.m_Buffer.take sb.m_Position) ∧
    ((pr.agg.m_Buffers ≠ [] ∧
        (sender ((r - 1 : Nat) : Int) qs.length k = true →
          ∃ sb2, consumerBuffer pr = .ok sb2 ∧ Sendable sb2)) →
      ∃ handle, (IExchange pr k (qs.map fun q => postedSends q k)).result = .ok handle) := by
  have hsr := (sender_iff _ _ _).mp hs
  have hps_at := hc.at hps
  have hpr_at := hc.at hpr
  have hn1 : (qs.length : Int) ≠ 1 := by omega
  have hcast : static_cast_int sb.m_Position = (sb.m_Position : Int) :=
    static_cast_int_small _ hL
  have hsend : Sendable sb := by
    unfold Sendable
    rw [hcast]
    exact ⟨by omega, by simpa using hlen⟩
  have htn : (static_cast_int sb.m_Position).toNat = sb.m_Position := by
    rw [hcast, Int.toNat_ofNat]
  have hlook := lookup_postedSends qs k qs.length r ps sb hps hps_at.1 hps_at.2 hn1
    (by omega) hs hsb hsend
  have hrank1 : (r : Int) = pr.agg.m_Rank + 1 := by rw [hpr_at.1]; omega
  have hrank2 : (r : Int) - 1 = pr.agg.m_Rank := by rw [hpr_at.1]; omega
  rw [hrank2, hrank1, htn] at hlook
  have hrecv : receiver pr.agg.m_Rank qs.length k = true := by
    rw [receiver_iff, hpr_at.1]; omega
  have hD : (((sb.m_Buffer.take sb.m_Position).length : Nat) : Int) =
      static_cast_int sb.m_Position := by
    rw [List.length_take, Nat.min_eq_left hlen, hcast]
  have hDlen : (sb.m_Buffer.take sb.m_Position).length = sb.m_Position := by
    rw [List.length_take, Nat.min_eq_left hlen]
  refine ⟨?_, ?_, ?_⟩
  · have := IExchange_sendPosts ps k qs.length (qs.map fun q => postedSends q k) sb hps_at.2
      hn1 (by omega) (by rw [hps_at.1]; exact hs) hsb hsend
    rw [hps_at.1, htn] at this
    exact this
  · intro handle hh
    obtain ⟨⟨reqs0, hreqs0⟩, ref, href⟩ := IExchange_ok_inv pr k qs.length _ handle
      sb.m_Position hpr_at.2 hn1 (by rw [hpr_at.1]; omega) (by omega) hrecv hlook.1 hh
    obtain ⟨reqs, b, hx, hw, -, -, -, hb, hb1, hb2, hb3⟩ := transfer_receiver pr k qs.length
      (qs.map fun q => postedSends q k) reqs0 ref sb.m_Position _ hpr_at.2 hn1
      (by rw [hpr_at.1]; omega) (by omega) hrecv hreqs0 href hlook.1 hlook.2 hD
    rw [hh] at hx
    obtain rfl := Except.ok.inj hx
    rw [hDlen] at hb3
    exact ⟨hw, b, hb, hb1, hb2, hb3⟩
  · rintro ⟨hbuf, hown⟩
    obtain ⟨reqs0, hreqs0⟩ : ∃ reqs0, (IExchange.sends pr k).result = .ok reqs0 := by
      by_cases hs2 : sender pr.agg.m_Rank pr.agg.m_Size k = true
      · have hs3 := hs2
        rw [hpr_at.1, hpr_at.2] at hs3
        obtain ⟨sb2, hsb2, hsend2⟩ := hown hs3
        exact ⟨_, sends_of_sendable pr k pr.agg.m_Size sb2 rfl (by omega) hs2 hsb2 hsend2⟩
      · exact ⟨_, sends_nonsender pr k (by simpa using hs2) hbuf⟩
    obtain ⟨ref, href⟩ := GetReceiver_ok pr hbuf
    obtain ⟨reqs, b, hx, -⟩ := transfer_receiver pr k qs.length
      (qs.map fun q => postedSends q k) reqs0 ref sb.m_Position _ hpr_at.2 hn1
      (by rw [hpr_at.1]; omega) (by omega) hrecv hreqs0 href hlook.1 hlook.2 hD
    exact ⟨reqs, hx⟩

theorem one_hop_transfer_witness :
    ∃ handle b, (IExchange hopSink (0 : Nat)
        (hopChain.map fun q => postedSends q (0 : Nat))).result = .ok handle ∧
      receiverBuffer (Wait (IExchange hopSink (0 : Nat)
        (hopChain.map fun q => postedSends q (0 : Nat))).state handle (0 : Nat)
        (hopChain.map fun q => postedSends q (0 : Nat))).state = .ok b ∧
      b.m_Position = 3 ∧ b.m_Buffer.length = 3 := by
  obtain ⟨-, hrecv, hret⟩ := one_hop_transfer hopChain 0 1 hopSource hopSink
    { m_Buffer := [7, 8, 9], m_Position := 3, m_AbsolutePosition := 0 }
    (by decide) (by decide) (by decide) rfl rfl rfl (by decide) (by decide)
  obtain ⟨handle, hh⟩ := hret ⟨by decide, fun h => absurd h (by decide)⟩
  obtain ⟨-, b, hb, hb1, hb2, -⟩ := hrecv handle hh
  exact ⟨handle, b, hh, hb, hb1, hb2⟩

/-! ## Sends and receives of the chain transfer pair up -/

theorem sends_calls_to (p : Process) (k : Int) :
    ∀ c ∈ (IExchange.sends p k).calls,
      sender p.agg.m_Rank p.agg.m_Size k = true ∧
        ∃ t x, (t = 0 ∨ t = 1) ∧ c = .post (.isend (p.agg.m_Rank - 1) t x) := by
  unfold IExchange.sends
  split
  · simp [Outcome.raise]
  · split
    · rename_i hs
      split
      · simp [Outcome.raise]
      · cases h0 : MPI_Isend_size_t _ (p.agg.m_Rank - 1) 0 p.agg.m_Size with
        | error e => simp [Outcome.raise]
        | ok r0 =>
          obtain rfl := MPI_Isend_size_t_ok _ _ _ _ _ h0
          simp only
          split
          · intro c hc
            simp only [List.mem_singleton] at hc
            subst hc
            exact ⟨hs, 0, _, Or.inl rfl, rfl⟩
          · rename_i r1 h1
            obtain ⟨rfl, -, -⟩ := MPI_Isend_chars_ok _ _ _ _ _ _ h1
            intro c hc
            simp only [List.mem_cons, List.mem_singleton, List.not_mem_nil, or_false] at hc
            rcases hc with rfl | rfl
            · exact ⟨hs, 0, _, Or.inl rfl, rfl⟩
            · exact ⟨hs, 1, _, Or.inr rfl, rfl⟩
    · simp [Outcome.ret]

theorem receives_calls_from (p : Process) (k : Int) (net : Network) (reqs0 : List Request) :
    ∀ c ∈ (IExchange.receives p k net reqs0).calls,
      receiver p.agg.m_Rank p.agg.m_Size k = true ∧
        ∃ t cnt tg, (t = 0 ∨ t = 1) ∧
          (c = .post (.irecv (p.agg.m_Rank + 1) t cnt tg) ∨
            c = .wait (.irecv (p.agg.m_Rank + 1) t cnt tg)) := by
  unfold IExchange.receives
  split
  · rename_i hrecv
    cases h0 : MPI_Irecv (p.agg.m_Rank + 1) 0 1 p.agg.m_Size .localVar with
    | error e => simp [Outcome.raise]
    | ok r =>
      obtain rfl := (MPI_Irecv_ok _ _ _ _ _ _ h0).1
      simp only
      repeat' split
      all_goals
        intro c hc
        first
          | (simp only [List.mem_cons, List.mem_singleton, List.not_mem_nil, or_false] at hc
             rcases hc with rfl | rfl
             · exact ⟨hrecv, 0, _, _, Or.inl rfl, Or.inl rfl⟩
             · exact ⟨hrecv, 0, _, _, Or.inl rfl, Or.inr rfl⟩)
          | (rename_i r2 hr2
             obtain rfl := (MPI_Irecv_ok _ _ _ _ _ _ hr2).1
             simp only [List.mem_cons, List.mem_singleton, List.not_mem_nil, or_false] at hc
             rcases hc with rfl | rfl | rfl
             · exact ⟨hrecv, 0, _, _, Or.inl rfl, Or.inl rfl⟩
             · exact ⟨hrecv, 0, _, _, Or.inl rfl, Or.inr rfl⟩
             · exact ⟨hrecv, 1, _, _, Or.inr rfl, Or.inl rfl⟩)
  · simp [Outcome.ret]

theorem IExchange_calls_mem (p : Process) (k : Int) (net : Network) :
    ∀ c ∈ (IExchange p k net).calls,
      c ∈ (IExchange.sends p k).calls ∨
        ∃ reqs0, c ∈ (IExchange.receives p k net reqs0).calls := by
  unfold IExchange
  split
  · simp [Outcome.ret]
  · intro c hc
    unfold Outcome.andThen at hc
    cases hs : (IExchange.sends p k).result with
    | error e =>
      simp only [hs] at hc
      exact Or.inl hc
    | ok reqs0 =>
      simp only [hs, List.mem_append] at hc
      rcases hc with hc | hc
      · exact Or.inl hc
      · rw [sends_state] at hc
        exact Or.inr ⟨reqs0, hc⟩

theorem receives_ok_calls (p p1 : Process) (k n : Int) (net : Network) (reqs0 : List Request)
    (ref : BufRef) (rb : BufferSTL) (L : Nat)
    (hsz : p.agg.m_Size = n) (hr0 : 0 ≤ p.agg.m_Rank) (hk : 0 ≤ k)
    (hrecv : receiver p.agg.m_Rank n k = true)
    (hgr : GetReceiver p = .ok ref) (hrb : deref p ref = .ok rb)
    (ha : assign p (ResizeUpdateBufferSTL L rb) ref = .ok p1)
    (hl0 : net.lookup (p.agg.m_Rank + 1) p.agg.m_Rank 0 = some (.size_t L))
    (hc : 0 ≤ static_cast_int L) :
    (IExchange.receives p k net reqs0).calls =
      [.post (.irecv (p.agg.m_Rank + 1) 0 1 .localVar),
       .wait (.irecv (p.agg.m_Rank + 1) 0 1 .localVar),
       .post (.irecv (p.agg.m_Rank + 1) 1 (static_cast_int L) (.data ref))] := by
  have hr := (receiver_iff _ _ _).mp hrecv
  have hd : 0 ≤ p.agg.m_Rank + 1 ∧ p.agg.m_Rank + 1 < n := by omega
  have hc2 : ¬ (static_cast_int L < 0) := by omega
  have hi0 : MPI_Irecv (p.agg.m_Rank + 1) 0 1 n .localVar =
      .ok (.irecv (p.agg.m_Rank + 1) 0 1 .localVar) := by
    simp [MPI_Irecv, hd]
  have hw : MPI_Wait p.agg.m_Rank net (.irecv (p.agg.m_Rank + 1) 0 1 .localVar) =
      .ok (some (.localVar, .size_t L)) := by
    simp [MPI_Wait, hl0]
  have hi1 : MPI_Irecv (p.agg.m_Rank + 1) 1
      (static_cast_int (ResizeUpdateBufferSTL L rb).m_Position) n (.data ref) =
      .ok (.irecv (p.agg.m_Rank + 1) 1 (static_cast_int L) (.data ref)) := by
    simp [MPI_Irecv, hd, (resize_length rb L).2, hc2]
  unfold IExchange.receives
  rw [hsz, hrecv, if_pos rfl, hi0]
  simp only [hw, hgr, hrb, ha, hi1]

theorem receiver_posts (qs : List Process) (k r : Nat) (pr : Process)
    (inv : TransferReady k qs) (hs : sender (r : Int) qs.length k = true)
    (hpr : qs[r - 1]? = some pr) :
    ∃ cnt ref, (IExchange pr k (qs.map fun q => postedSends q k)).calls =
      (IExchange.sends pr k).calls ++
        [.post (.irecv (r : Int) 0 1 .localVar), .wait (.irecv (r : Int) 0 1 .localVar),
         .post (.irecv (r : Int) 1 cnt (.data ref))] := by
  have hsr := (sender_iff _ _ _).mp hs
  have hrn : r - 1 < qs.length := (List.getElem?_eq_some.mp hpr).1
  have hk : k + 2 ≤ qs.length := by omega
  have hpr_at := inv.chain.at hpr
  have hn1 : (qs.length : Int) ≠ 1 := by omega
  obtain ⟨ps, hps⟩ : ∃ ps, qs[r]? = some ps := ⟨_, List.getElem?_eq_getElem (by omega)⟩
  have hps_at := inv.chain.at hps
  obtain ⟨sb, hsb, hsend⟩ := inv.sendable r ps hps (by omega)
  have hlook := lookup_postedSends qs k qs.length r ps sb hps hps_at.1 hps_at.2 hn1
    (by omega) hs hsb hsend
  have hrank1 : (r : Int) = pr.agg.m_Rank + 1 := by rw [hpr_at.1]; omega
  have hrank2 : (r : Int) - 1 = pr.agg.m_Rank := by rw [hpr_at.1]; omega
  rw [hrank2, hrank1] at hlook
  have hrecv : receiver pr.agg.m_Rank qs.length k = true := by
    rw [receiver_iff, hpr_at.1]; omega
  have hbuf := inv.buffers pr (List.getElem?_mem hpr)
  obtain ⟨ref, href⟩ := GetReceiver_ok pr hbuf
  obtain ⟨rb, hrb⟩ := GetReceiver_deref pr ref href
  obtain ⟨p1, ha1, -⟩ := assign_of_deref pr ref rb (ResizeUpdateBufferSTL sb.m_Position rb) hrb
  obtain ⟨reqs, hx, -⟩ := rank_round qs k (r - 1) pr inv hk hpr
  obtain ⟨⟨reqs0, hreqs0⟩, -⟩ := IExchange_ok_inv pr k qs.length _ reqs sb.m_Position
    hpr_at.2 hn1 (by rw [hpr_at.1]; omega) (by omega) hrecv hlook.1 hx
  have hcalls := receives_ok_calls pr p1 k qs.length (qs.map fun q => postedSends q k) reqs0
    ref rb sb.m_Position hpr_at.2 (by rw [hpr_at.1]; omega) (by omega) hrecv href hrb ha1
    hlook.1 hsend.1
  refine ⟨static_cast_int sb.m_Position, ref, ?_⟩
  unfold IExchange
  rw [if_neg (by rw [hpr_at.2]; exact hn1), andThen_calls _ _ _ hreqs0, sends_state, hcalls,
    hrank1]

/-- C17. In a chain of `n >= 2` ranks, at every step `k >= 0`, for every rank
`r` with `1 <= r <= n-1`: rank `r` is a sender exactly when rank `r-1` is a
receiver; every send `IExchange` posts on rank `r` is posted as a sender, to
rank `r-1`, with tag 0 or 1, and every receive it posts on rank `r-1` is posted
as a receiver, from rank `r`, with tag 0 or 1; and in a chain ready for round
`k` where `r` is a sender, rank `r-1` posts the receive of the length and the
receive of the payload from `r`, and `IExchange` and `Wait` return on both
ranks, so no receive waits for a message that is not sent. -/
theorem every_send_has_receive (n k r : Nat) (hn : 2 ≤ n) (hr1 : 1 ≤ r) (hr2 : r ≤ n - 1) :
    (sender (r : Int) n k = true ↔ receiver ((r : Int) - 1) n k = true) ∧
    (∀ (p : Process) (net : Network), p.agg.m_Rank = (r : Int) → p.agg.m_Size = (n : Int) →
      ∀ c ∈ (IExchange p k net).calls, c.isSendPost = true →
        sender (r : Int) n k = true ∧
          ∃ t x, (t = 0 ∨ t = 1) ∧ c = .post (.isend ((r : Int) - 1) t x)) ∧
    (∀ (p : Process) (net : Network), p.agg.m_Rank = (r : Int) - 1 → p.agg.m_Size = (n : Int) →
      ∀ c ∈ (IExchange p k net).calls, c.isReceivePost = true →
        receiver ((r : Int) - 1) n k = true ∧
          ∃ t cnt tg, (t = 0 ∨ t = 1) ∧ c = .post (.irecv (r : Int) t cnt tg)) ∧
    (∀ (qs : List Process) (ps pr : Process), qs.length = n → TransferReady k qs →
      qs[r]? = some ps → qs[r - 1]? = some pr → sender (r : Int) n k = true →
      (∃ cnt tg, Call.post (.irecv (r : Int) 0 cnt tg) ∈
        (IExchange pr k (qs.map fun q => postedSends q k)).calls) ∧
      (∃ cnt tg, Call.post (.irecv (r : Int) 1 cnt tg) ∈
        (IExchange pr k (qs.map fun q => postedSends q k)).calls) ∧
      (∀ p ∈ [ps, pr], ∃ handle,
        (IExchange p k (qs.map fun q => postedSends q k)).result = .ok handle ∧
        (Wait (IExchange p k (qs.map fun q => postedSends q k)).state handle k
          (qs.map fun q => postedSends q k)).result = .ok ())) := by
  refine ⟨?_, ?_, ?_, ?_⟩
  · rw [sender_iff, receiver_iff]
    omega
  · intro p net hrk hsz c hc hpost
    rcases IExchange_calls_mem p k net c hc with h | ⟨reqs0, h⟩
    · obtain ⟨h1, t, x, ht, rfl⟩ := sends_calls_to p k c h
      rw [hrk, hsz] at h1
      exact ⟨h1, t, x, ht, by rw [hrk]⟩
    · obtain ⟨-, t, cnt, tg, -, rfl | rfl⟩ := receives_calls_from p k net reqs0 c h <;>
        simp [Call.isSendPost] at hpost
  · intro p net hrk hsz c hc hpost
    rcases IExchange_calls_mem p k net c hc with h | ⟨reqs0, h⟩
    · obtain ⟨-, t, x, -, rfl⟩ := sends_calls_to p k c h
      simp [Call.isReceivePost] at hpost
    · obtain ⟨h1, t, cnt, tg, ht, rfl | rfl⟩ := receives_calls_from p k net reqs0 c h
      · rw [hrk, hsz] at h1
        refine ⟨h1, t, cnt, tg, ht, ?_⟩
        rw [hrk]
        simp
      · simp [Call.isReceivePost] at hpost
  · intro qs ps pr hlen inv hps hpr hs
    subst hlen
    have hsr := (sender_iff _ _ _).mp hs
    obtain ⟨cnt, ref, hcalls⟩ := receiver_posts qs k r pr inv hs hpr
    refine ⟨⟨1, .localVar, by rw [hcalls]; simp⟩, ⟨cnt, .data ref, by rw [hcalls]; simp⟩, ?_⟩
    intro p hp
    simp only [List.mem_cons, List.mem_singleton, List.not_mem_nil, or_false] at hp
    rcases hp with rfl | rfl
    · obtain ⟨reqs, h1, h2, -⟩ := rank_round qs k r p inv (by omega) hps
      exact ⟨reqs, h1, h2⟩
    · obtain ⟨reqs, h1, h2, -⟩ := rank_round qs k (r - 1) p inv (by omega) hpr
      exact ⟨reqs, h1, h2⟩

theorem every_send_has_receive_witness :
    (sender ((2 : Nat) : Int) (3 : Nat) (0 : Nat) = true ↔
      receiver (((2 : Nat) : Int) - 1) (3 : Nat) (0 : Nat) = true) ∧
    ∃ pr, chain3[1]? = some pr ∧ ∃ cnt tg, Call.post (.irecv ((2 : Nat) : Int) 1 cnt tg) ∈
      (IExchange pr (0 : Nat) (chain3.map fun q => postedSends q (0 : Nat))).calls := by
  have h := every_send_has_receive 3 0 2 (by decide) (by decide) (by decide)
  have inv : TransferReady 0 chain3 := by
    obtain ⟨qs, hq, -, inv⟩ :=
      ready_rounds chain3 (by decide) (by decide) (by decide) 0 (by decide)
    simp only [transferRounds, Except.ok.injEq] at hq
    subst hq
    exact inv
  obtain ⟨-, h1, -⟩ := h.2.2.2 chain3 _ _ rfl inv (by rfl : chain3[2]? = some _)
    (by rfl : chain3[2 - 1]? = some _) (by decide)
  exact ⟨h.1, _, rfl, h1⟩

/-! ## Pipelined order of the contributions -/

theorem hop_step (qs qs2 : List Process) (k t : Nat) (payload : List Nat) (hc : IsChain qs)
    (ht1 : 1 ≤ t) (ht2 : t + k ≤ qs.length - 1) (hL : payload.length < 2 ^ 31)
    (pt : Process) (sb : BufferSTL)
    (hpt : qs[t]? = some pt) (hsb : consumerBuffer pt = .ok sb)
    (hp : HoldsPayload sb payload) (hround : transferRound qs k = .ok qs2) :
    ∃ pt2 sb2, qs2[t - 1]? = some pt2 ∧ consumerBuffer pt2 = .ok sb2 ∧
      HoldsPayload sb2 payload := by
  obtain ⟨hq2, hok⟩ := transferRound_eq qs qs2 k hround
  have htn : t < qs.length := (List.getElem?_eq_some.mp hpt).1
  obtain ⟨p, hpq⟩ : ∃ p, qs[t - 1]? = some p := ⟨_, List.getElem?_eq_getElem (by omega)⟩
  have hprk := hc.at hpq
  have hptrk := hc.at hpt
  have hn1 : (qs.length : Int) ≠ 1 := by omega
  obtain ⟨hsend, hcast, htake⟩ := hp.sendable hL
  have hsender : sender (t : Int) qs.length k = true := by
    rw [sender_iff]; omega
  have hlook := lookup_postedSends qs k qs.length t pt sb hpt hptrk.1
    hptrk.2 hn1 (by omega) hsender hsb hsend
  have hrank1 : p.agg.m_Rank + 1 = (t : Int) := by
    rw [hprk.1]; omega
  have hrank2 : (t : Int) - 1 = p.agg.m_Rank := by
    rw [hprk.1]; omega
  rw [hrank2, ← hrank1, htake, hp.1] at hlook
  have hrecv : receiver p.agg.m_Rank qs.length k = true := by
    rw [receiver_iff, hprk.1]; omega
  obtain ⟨⟨reqs, hreqs⟩, -⟩ := hok p (List.getElem?_mem hpq)
  obtain ⟨⟨reqs0, hreqs0⟩, ref, href⟩ := IExchange_ok_inv p k qs.length _ reqs payload.length
    hprk.2 hn1 (by rw [hprk.1]; omega) (by omega) hrecv hlook.1 hreqs
  obtain ⟨reqs2, b, hx, -, -, -, -, hb, hb1, hb2, hb3⟩ := transfer_receiver p k qs.length
    (qs.map fun q => postedSends q k) reqs0 ref payload.length payload hprk.2 hn1
    (by rw [hprk.1]; omega) (by omega) hrecv hreqs0 href hlook.1 hlook.2
    (by rw [← hcast, hp.1])
  rw [← Outcome.value_of_ok _ _ hx] at hb
  refine ⟨SwapBuffers
    (Wait (IExchange p k (qs.map fun q => postedSends q k)).state
      (IExchange p k (qs.map fun q => postedSends q k)).value k
      (qs.map fun q => postedSends q k)).state k, b, ?_, ?_, hb1, ?_⟩
  · rw [hq2, List.getElem?_map, hpq]
    rfl
  · rw [consumerBuffer_SwapBuffers]
    exact hb
  · rw [hb1]
    exact hb3

theorem pipeline_rounds (ps : List Process) (hc : IsChain ps)
    (ho : ∀ p ∈ ps, p.agg.m_CurrentBufferOrder = 0)
    (hd : ∀ p ∈ ps, p.bufferSTL.m_Position ≤ p.bufferSTL.m_Buffer.length ∧
      p.bufferSTL.m_Position < 2 ^ 31)
    (k : Nat) (hk : k + 1 ≤ ps.length) (qs : List Process)
    (h : transferRounds k ps = .ok qs) :
    qs.length = ps.length ∧ IsChain qs ∧
      ∀ r : Nat, r + k ≤ ps.length - 1 → ∃ p b d, qs[r]? = some p ∧
        consumerBuffer p = .ok b ∧ ps[r + k]? = some d ∧
        HoldsPayload b (d.bufferSTL.m_Buffer.take d.bufferSTL.m_Position) := by
  induction k generalizing qs with
  | zero =>
    simp only [transferRounds, Except.ok.injEq] at h
    subst h
    refine ⟨rfl, hc, ?_⟩
    intro r hr
    obtain ⟨p, hp⟩ : ∃ p, ps[r]? = some p := ⟨_, List.getElem?_eq_getElem (by omega)⟩
    have hm := List.getElem?_mem hp
    refine ⟨p, p.bufferSTL, p, hp, consumerBuffer_default p (ho p hm), hp, ?_⟩
    have hlen : (p.bufferSTL.m_Buffer.take p.bufferSTL.m_Position).length =
        p.bufferSTL.m_Position := by
      rw [List.length_take, Nat.min_eq_left (hd p hm).1]
    exact ⟨hlen.symm, rfl⟩
  | succ k ih =>
    obtain ⟨qs1, h1, h2⟩ := transferRounds_succ_inv ps qs k h
    obtain ⟨hlen, hchain, hall⟩ := ih (by omega) qs1 h1
    obtain ⟨hlen2, hchain2⟩ := transferRound_chain qs1 qs k hchain h2
    refine ⟨by rw [hlen2, hlen], hchain2, ?_⟩
    intro r hr
    obtain ⟨pt, sb, d, hpt, hsb, hdk, hpay⟩ := hall (r + 1) (by omega)
    have hdm := hd d (List.getElem?_mem hdk)
    have hL : (d.bufferSTL.m_Buffer.take d.bufferSTL.m_Position).length < 2 ^ 31 := by
      rw [List.length_take, Nat.min_eq_left hdm.1]
      exact hdm.2
    obtain ⟨pt2, sb2, hpt2, hsb2, hpay2⟩ := hop_step qs1 qs k (r + 1) _ hchain (by omega)
      (by rw [hlen]; omega) hL pt sb hpt hsb hpay h2
    have hidx : r + 1 + k = r + (k + 1) := by omega
    rw [hidx] at hdk
    exact ⟨pt2, sb2, d, by simpa using hpt2, hsb2, hdk, hpay2⟩

/-- C18. In a chain of `n >= 2` ranks that all start with the default buffer
order, where the caller buffer of every rank `i` holds a contribution `d_i` of
fewer than `2^31` bytes within its storage: whenever `k <= n-1` rounds (steps
`0 .. k-1`, each `IExchange`, `Wait` and `SwapBuffers` on every rank) return,
the buffer `GetConsumerBuffer` gives on every rank `r` with `r + k <= n-1` has
the position and the bytes of `d_(r+k)`, in particular on rank 0 those of
`d_k`; and the rounds do return when every rank has its local buffer. -/
theorem pipelined_order (ps : List Process) (k : Nat) (hn : 2 ≤ ps.length) (hc : IsChain ps)
    (ho : ∀ p ∈ ps, p.agg.m_CurrentBufferOrder = 0)
    (hd : ∀ p ∈ ps, p.bufferSTL.m_Position ≤ p.bufferSTL.m_Buffer.length ∧
      p.bufferSTL.m_Position < 2 ^ 31)
    (hk : k ≤ ps.length - 1) :
    (∀ qs, transferRounds k ps = .ok qs →
      ∀ r : Nat, r + k ≤ ps.length - 1 → ∃ p b d, qs[r]? = some p ∧
        consumerBuffer p = .ok b ∧ ps[r + k]? = some d ∧
        b.m_Position = d.bufferSTL.m_Position ∧
        b.m_Buffer.take b.m_Position = d.bufferSTL.m_Buffer.take d.bufferSTL.m_Position) ∧
    (∀ qs, transferRounds k ps = .ok qs → ∃ p b d, qs[0]? = some p ∧
        consumerBuffer p = .ok b ∧ ps[k]? = some d ∧
        b.m_Position = d.bufferSTL.m_Position ∧
        b.m_Buffer.take b.m_Position = d.bufferSTL.m_Buffer.take d.bufferSTL.m_Position) ∧
    ((∀ p ∈ ps, p.agg.m_Buffers ≠ []) → ∃ qs, transferRounds k ps = .ok qs) := by
  have hA : ∀ qs, transferRounds k ps = .ok qs →
      ∀ r : Nat, r + k ≤ ps.length - 1 → ∃ p b d, qs[r]? = some p ∧
        consumerBuffer p = .ok b ∧ ps[r + k]? = some d ∧
        b.m_Position = d.bufferSTL.m_Position ∧
        b.m_Buffer.take b.m_Position = d.bufferSTL.m_Buffer.take d.bufferSTL.m_Position := by
    intro qs h r hr
    obtain ⟨-, -, hall⟩ := pipeline_rounds ps hc ho hd k (by omega) qs h
    obtain ⟨p, b, d, hp, hb, hdk, hpay⟩ := hall r hr
    have hdm := hd d (List.getElem?_mem hdk)
    refine ⟨p, b, d, hp, hb, hdk, ?_, hpay.2⟩
    rw [hpay.1, List.length_take, Nat.min_eq_left hdm.1]
  refine ⟨hA, ?_, ?_⟩
  · intro qs h
    have := hA qs h 0 (by omega)
    simpa using this
  · intro hb
    have hr : ∀ p ∈ ps, p.agg.m_Buffers ≠ [] ∧ Sendable p.bufferSTL := by
      intro p hpm
      obtain ⟨h2, h3⟩ := hd p hpm
      refine ⟨hb p hpm, ?_⟩
      unfold Sendable
      rw [static_cast_int_small _ h3]
      exact ⟨by omega, by simpa using h2⟩
    obtain ⟨qs, h, -, -⟩ := ready_rounds ps hc hr ho k (by omega)
    exact ⟨qs, h⟩

theorem pipelined_order_witness :
    ∃ qs p b, transferRounds 1 chain3 = .ok qs ∧ qs[0]? = some p ∧
      consumerBuffer p = .ok b ∧ b.m_Position = 3 ∧ b.m_Buffer.take b.m_Position = [1, 2, 3] := by
  obtain ⟨-, h0, hret⟩ := pipelined_order chain3 1 (by decide) (by decide) (by decide)
    (by decide) (by decide)
  obtain ⟨qs, hqs⟩ := hret (by decide)
  obtain ⟨p, b, d, hp, hb, hd, hpos, hbytes⟩ := h0 qs hqs
  have hd2 : d = { sampleProcess 1 3 false with
      bufferSTL := { m_Buffer := [1, 2, 3], m_Position := 3, m_AbsolutePosition := 0 } } := by
    have : chain3[1]? = some { sampleProcess 1 3 false with
      bufferSTL := { m_Buffer := [1, 2, 3], m_Position := 3, m_AbsolutePosition := 0 } } := rfl
    rw [this] at hd
    exact (Option.some.inj hd).symm
  subst hd2
  exact ⟨qs, p, b, hqs, hp, hb, hpos, hbytes⟩

/-! ## What each protocol leaves alone -/

/-- C19. For every state, rank, step, handle and network, `IExchange`, `Wait`,
`IExchangeAbsolutePosition` and `WaitAbsolutePosition` leave the buffer-order
flag as it was, whether they return or raise; `GetConsumerBuffer` only reads it
(it returns the reference `GetSender` selects and has no state of its own to
change); the flag is written by `SwapBuffers`, which flips it, and by
`ResetBuffers`, which sets it to 0. -/
theorem flag_only_swap_reset (p : Process) (step : Int) (net : Network)
    (handle : List Request) :
    (IExchange p step net).state.agg.m_CurrentBufferOrder = p.agg.m_CurrentBufferOrder ∧
    (Wait p handle step net).state.agg.m_CurrentBufferOrder = p.agg.m_CurrentBufferOrder ∧
    (IExchangeAbsolutePosition p step).state.agg.m_CurrentBufferOrder =
      p.agg.m_CurrentBufferOrder ∧
    (WaitAbsolutePosition p handle step net).state.agg.m_CurrentBufferOrder =
      p.agg.m_CurrentBufferOrder ∧
    GetConsumerBuffer p = GetSender p ∧
    (SwapBuffers p step).agg.m_CurrentBufferOrder =
      (if p.agg.m_CurrentBufferOrder = 0 then 1 else 0) ∧
    (ResetBuffers p).agg.m_CurrentBufferOrder = 0 :=
  ⟨(IExchange_frame p step net).2.2, (Wait_frame p handle step net).2.2,
    (IExchangeAbsolutePosition_frame p step).2.2,
    (WaitAbsolutePosition_frame p handle step net).2.2, rfl, rfl, rfl⟩

/-! ## The two protocols do not interfere -/

theorem transferFrame_refl (p : Process) : TransferFrame p p := ⟨rfl, rfl, rfl, rfl, rfl⟩

theorem transferFrame_trans (p q r : Process) (h1 : TransferFrame p q)
    (h2 : TransferFrame q r) : TransferFrame p r :=
  ⟨h2.1.trans h1.1, h2.2.1.trans h1.2.1, h2.2.2.1.trans h1.2.2.1,
    h2.2.2.2.1.trans h1.2.2.2.1, h2.2.2.2.2.trans h1.2.2.2.2⟩

theorem offsetFrame_refl (p : Process) : OffsetFrame p p := ⟨rfl, rfl, rfl⟩

theorem offsetFrame_trans (p q r : Process) (h1 : OffsetFrame p q) (h2 : OffsetFrame q r) :
    OffsetFrame p r :=
  ⟨h2.1.trans h1.1, h2.2.1.trans h1.2.1, h2.2.2.trans h1.2.2⟩

theorem andThen_state {α β : Type} (R : Process → Process → Prop)
    (htrans : ∀ a b c, R a b → R b c → R a c) (p : Process) (o : Outcome α)
    (f : Process → α → Outcome β) (h1 : R p o.state) (h2 : ∀ q a, R q (f q a).state) :
    R p (o.andThen f).state := by
  unfold Outcome.andThen
  split
  · exact h1
  · exact htrans _ _ _ h1 (h2 _ _)

theorem assign_transfer (p p1 : Process) (b rb : BufferSTL) (ref : BufRef)
    (h : assign p b ref = .ok p1) (hd : deref p ref = .ok rb)
    (hb : b.m_AbsolutePosition = rb.m_AbsolutePosition) : TransferFrame p p1 := by
  cases ref with
  | caller =>
    simp only [assign, Except.ok.injEq] at h
    simp only [deref, Except.ok.injEq] at hd
    subst h
    subst hd
    exact ⟨rfl, rfl, rfl, hb, rfl⟩
  | front =>
    unfold assign at h
    unfold deref at hd
    cases hbs : p.agg.m_Buffers with
    | nil => simp [hbs] at h
    | cons x rest =>
      simp only [hbs, Except.ok.injEq] at h hd
      subst h
      subst hd
      refine ⟨rfl, rfl, rfl, rfl, ?_⟩
      simp [hbs, hb]

theorem complete_transfer (p p1 : Process) (got : Option (Target × Payload))
    (hg : ∀ x, got ≠ some (.absolutePosition, x)) (h : complete p got = .ok p1) :
    TransferFrame p p1 := by
  unfold complete at h
  split at h
  · simp only [Except.ok.injEq] at h
    subst h
    exact transferFrame_refl p
  · exact absurd rfl (hg _)
  · split at h
    · simp at h
    · rename_i b hd
      split at h
      · exact assign_transfer _ _ _ b _ h hd rfl
      · simp at h
  · simp at h

theorem complete_offset (p p1 : Process) (got : Option (Target × Payload))
    (hg : ∀ r x, got ≠ some (.data r, x)) (h : complete p got = .ok p1) :
    OffsetFrame p p1 := by
  unfold complete at h
  split at h
  · simp only [Except.ok.injEq] at h
    subst h
    exact offsetFrame_refl p
  · simp only [Except.ok.injEq] at h
    subst h
    exact ⟨rfl, rfl, rfl⟩
  · exact absurd rfl (hg _ _)
  · simp at h

theorem MPI_Wait_target (me : Int) (net : Network) (r : Request) (tg : Target) (x : Payload)
    (h : MPI_Wait me net r = .ok (some (tg, x))) : ∃ s t c, r = .irecv s t c tg := by
  cases r with
  | null => simp [MPI_Wait] at h
  | isend d t data => simp [MPI_Wait] at h
  | irecv s t c tg2 =>
    refine ⟨s, t, c, ?_⟩
    simp only [MPI_Wait] at h
    split at h
    · simp at h
    · split at h
      · simp only [Except.ok.injEq, Option.some.injEq, Prod.mk.injEq] at h
        rw [h.1]
      · simp at h
    · split at h
      · simp only [Except.ok.injEq, Option.some.injEq, Prod.mk.injEq] at h
        rw [h.1]
      · simp at h

theorem waitSlot_transfer (p : Process) (net : Network) (requests : List Request) (i : Nat)
    (hreq : NoOffsetTarget requests) : TransferFrame p (waitSlot p net requests i).state := by
  unfold waitSlot
  split
  · exact transferFrame_refl p
  · rename_i r hr
    split
    · exact transferFrame_refl p
    · rename_i got hgot
      split
      · exact transferFrame_refl p
      · rename_i p1 hc
        apply complete_transfer _ _ got ?_ hc
        intro x hx
        subst hx
        obtain ⟨s, t, c, rfl⟩ := MPI_Wait_target _ _ _ _ _ hgot
        exact hreq s t c (List.getElem?_mem hr)

theorem waitSlot_offset (p : Process) (net : Network) (requests : List Request) (i : Nat)
    (hreq : NoDataTarget requests) : OffsetFrame p (waitSlot p net requests i).state := by
  unfold waitSlot
  split
  · exact offsetFrame_refl p
  · rename_i r hr
    split
    · exact offsetFrame_refl p
    · rename_i got hgot
      split
      · exact offsetFrame_refl p
      · rename_i p1 hc
        apply complete_offset _ _ got ?_ hc
        intro ref x hx
        subst hx
        obtain ⟨s, t, c, rfl⟩ := MPI_Wait_target _ _ _ _ _ hgot
        exact hreq s t c ref (List.getElem?_mem hr)

theorem Wait_transfer (p : Process) (requests : List Request) (k : Int) (net : Network)
    (hreq : NoOffsetTarget requests) : TransferFrame p (Wait p requests k net).state := by
  unfold Wait
  split
  · exact transferFrame_refl p
  · apply andThen_state TransferFrame transferFrame_trans
    · split
      · exact waitSlot_transfer _ _ _ _ hreq
      · exact transferFrame_refl p
    · intro q a
      split
      · apply andThen_state TransferFrame transferFrame_trans
        · exact waitSlot_transfer _ _ _ _ hreq
        · intro _ _
          exact waitSlot_transfer _ _ _ _ hreq
      · exact transferFrame_refl _

theorem receives_transfer (p : Process) (k : Int) (net : Network) (requests : List Request) :
    TransferFrame p (IExchange.receives p k net requests).state := by
  unfold IExchange.receives
  repeat' split
  all_goals first
    | exact transferFrame_refl p
    | exact assign_transfer _ _ _ _ _ (by assumption) (by assumption) (by rfl)

theorem IExchange_transfer (p : Process) (k : Int) (net : Network) :
    TransferFrame p (IExchange p k net).state := by
  unfold IExchange
  split
  · exact transferFrame_refl p
  · apply andThen_state TransferFrame transferFrame_trans
    · rw [sends_state]
      exact transferFrame_refl p
    · intro q a
      exact receives_transfer _ _ _ _

theorem IExchange_noOffsetTarget (p : Process) (k : Int) (net : Network)
    (handle : List Request) (h : (IExchange p k net).result = .ok handle) :
    NoOffsetTarget handle := by
  intro s t c hm
  by_cases h1 : p.agg.m_Size = 1
  · unfold IExchange at h
    simp only [h1, if_true, Outcome.ret, Except.ok.injEq] at h
    subst h
    simp at hm
  · obtain ⟨r0, r1, r2, rfl, hs, hr⟩ := IExchange_handle p k net handle h1 h
    simp only [List.mem_cons, List.mem_singleton, List.not_mem_nil, or_false] at hm
    rcases hs with ⟨-, d0, x0, d1, x1, rfl, rfl⟩ | ⟨-, rfl, rfl⟩ <;>
      rcases hr with ⟨-, c2, ref, rfl, -⟩ | ⟨-, rfl⟩ <;> simp at hm

theorem IExchangeAbsolutePosition_offset (p : Process) (k : Int) :
    OffsetFrame p (IExchangeAbsolutePosition p k).state := by
  unfold IExchangeAbsolutePosition
  simp only [setGuard, Outcome.ret, Outcome.raise]
  repeat' split
  all_goals exact ⟨rfl, rfl, rfl⟩

theorem WaitAbsolutePosition_offset (p : Process) (requests : List Request) (k : Int)
    (net : Network) (hreq : NoDataTarget requests) :
    OffsetFrame p (WaitAbsolutePosition p requests k net).state := by
  unfold WaitAbsolutePosition
  split
  · exact offsetFrame_refl p
  · split
    · exact offsetFrame_refl p
    · apply andThen_state OffsetFrame offsetFrame_trans
      · split
        · exact waitSlot_offset _ _ _ _ hreq
        · exact offsetFrame_refl p
      · intro q _
        apply andThen_state OffsetFrame offsetFrame_trans
        · split
          · exact waitSlot_offset _ _ _ _ hreq
          · exact offsetFrame_refl _
        · intro _ _
          exact ⟨rfl, rfl, rfl⟩

theorem IExchangeAbsolutePosition_noDataTarget (p : Process) (k : Int) (handle : List Request)
    (h : (IExchangeAbsolutePosition p k).result = .ok handle) : NoDataTarget handle := by
  intro s t c ref hm
  revert h
  unfold IExchangeAbsolutePosition
  simp only [Outcome.ret, Outcome.raise]
  repeat' split
  all_goals
    intro h
    first
      | (simp at h; done)
      | skip
  all_goals
    simp only [Except.ok.injEq] at h
    subst h
    first
      | (simp at hm; done)
      | (have hr := MPI_Isend_size_t_ok _ _ _ _ _ (by assumption)
         subst hr
         simp at hm)
      | (have hr := (MPI_Irecv_ok _ _ _ _ _ _ (by assumption)).1
         subst hr
         simp at hm)

theorem assign_front_caller (p p1 : Process) (b : BufferSTL)
    (h : assign p b .front = .ok p1) : p1.bufferSTL = p.bufferSTL := by
  unfold assign at h
  cases hbs : p.agg.m_Buffers with
  | nil => simp [hbs] at h
  | cons x rest =>
    simp only [hbs, Except.ok.injEq] at h
    subst h
    rfl

theorem complete_caller (p p1 : Process) (got : Option (Target × Payload))
    (hg : ∀ tg x, got = some (tg, x) → tg = .data .front) (h : complete p got = .ok p1) :
    p1.bufferSTL = p.bufferSTL := by
  unfold complete at h
  split at h
  · simp only [Except.ok.injEq] at h
    subst h
    rfl
  · exact absurd (hg _ _ rfl) (by simp)
  · rename_i r bs
    have hr : r = .front := by
      have := hg _ _ rfl
      simpa using this
    subst hr
    split at h
    · simp at h
    · split at h
      · exact assign_front_caller _ _ _ h
      · simp at h
  · simp at h

theorem waitSlot_caller (p : Process) (net : Network) (requests : List Request) (i : Nat)
    (hreq : FrontTarget requests) : (waitSlot p net requests i).state.bufferSTL = p.bufferSTL := by
  unfold waitSlot
  split
  · rfl
  · rename_i r hr
    split
    · rfl
    · rename_i got hgot
      split
      · rfl
      · rename_i p1 hc
        apply complete_caller _ _ got ?_ hc
        intro tg x hx
        subst hx
        obtain ⟨s, t, c, rfl⟩ := MPI_Wait_target _ _ _ _ _ hgot
        exact hreq s t c tg (List.getElem?_mem hr)

theorem Wait_caller (p : Process) (requests : List Request) (k : Int) (net : Network)
    (hreq : FrontTarget requests) : (Wait p requests k net).state.bufferSTL = p.bufferSTL := by
  unfold Wait
  split
  · rfl
  · apply andThen_state (fun a b => b.bufferSTL = a.bufferSTL)
      (fun a b c h1 h2 => h2.trans h1)
    · split
      · exact waitSlot_caller _ _ _ _ hreq
      · rfl
    · intro q a
      split
      · apply andThen_state (fun a b => b.bufferSTL = a.bufferSTL)
          (fun a b c h1 h2 => h2.trans h1)
        · exact waitSlot_caller _ _ _ _ hreq
        · intro _ _
          exact waitSlot_caller _ _ _ _ hreq
      · rfl

theorem GetReceiver_default (p : Process) (ref : BufRef) (ho : p.agg.m_CurrentBufferOrder = 0)
    (h : GetReceiver p = .ok ref) : ref = .front := by
  unfold GetReceiver at h
  rw [if_pos ho] at h
  split at h
  · simp at h
  · simp only [Except.ok.injEq] at h
    exact h.symm

theorem receives_caller (p : Process) (k : Int) (net : Network) (requests : List Request)
    (ho : p.agg.m_CurrentBufferOrder = 0) :
    (IExchange.receives p k net requests).state.bufferSTL = p.bufferSTL := by
  unfold IExchange.receives
  repeat' split
  all_goals first
    | rfl
    | (have hf := GetReceiver_default p _ ho (by assumption)
       subst hf
       exact assign_front_caller _ _ _ (by assumption))

theorem IExchange_caller (p : Process) (k : Int) (net : Network)
    (ho : p.agg.m_CurrentBufferOrder = 0) :
    (IExchange p k net).state.bufferSTL = p.bufferSTL := by
  unfold IExchange
  split
  · rfl
  · unfold Outcome.andThen
    split
    · rw [sends_state]
    · rw [sends_state]
      exact receives_caller p k net _ ho

theorem IExchange_frontTarget (p : Process) (k : Int) (net : Network) (handle : List Request)
    (ho : p.agg.m_CurrentBufferOrder = 0) (h : (IExchange p k net).result = .ok handle) :
    FrontTarget handle := by
  intro s t c tg hm
  by_cases h1 : p.agg.m_Size = 1
  · unfold IExchange at h
    simp only [h1, if_true, Outcome.ret, Except.ok.injEq] at h
    subst h
    simp at hm
  · obtain ⟨r0, r1, r2, rfl, hs, hr⟩ := IExchange_handle p k net handle h1 h
    simp only [List.mem_cons, List.mem_singleton, List.not_mem_nil, or_false] at hm
    rcases hs with ⟨-, d0, x0, d1, x1, rfl, rfl⟩ | ⟨-, rfl, rfl⟩ <;>
      rcases hr with ⟨-, c2, ref, rfl, href⟩ | ⟨-, rfl⟩ <;>
      first
        | (simp at hm; done)
        | (have hf := GetReceiver_default p _ ho href
           subst hf
           simp only [reduceCtorEq, Request.irecv.injEq, false_or] at hm
           exact hm.2.2.2)

theorem transferRound_frame (qs q2 : List Process) (k : Int) (h : transferRound qs k = .ok q2)
    (r : Nat) (q : Process) (hq : q2[r]? = some q) :
    ∃ p, qs[r]? = some p ∧ TransferFrame p q ∧
      (p.agg.m_CurrentBufferOrder = 0 → q.bufferSTL = p.bufferSTL) := by
  obtain ⟨hq2, hok⟩ := transferRound_eq qs q2 k h
  rw [hq2] at hq
  simp only [List.getElem?_map, Option.map_eq_some'] at hq
  obtain ⟨p, hp1, rfl⟩ := hq
  obtain ⟨⟨reqs, hreqs⟩, -⟩ := hok p (List.getElem?_mem hp1)
  refine ⟨p, hp1, ?_, ?_⟩
  · rw [Outcome.value_of_ok _ _ hreqs]
    exact transferFrame_trans _ _ _ (IExchange_transfer p k _)
      (transferFrame_trans _ _ _
        (Wait_transfer _ reqs k _ (IExchange_noOffsetTarget p k _ reqs hreqs))
        ⟨rfl, rfl, rfl, rfl, rfl⟩)
  · intro ho
    rw [Outcome.value_of_ok _ _ hreqs]
    show (Wait _ reqs k _).state.bufferSTL = p.bufferSTL
    rw [Wait_caller _ reqs k _ (IExchange_frontTarget p k _ reqs ho hreqs),
      IExchange_caller p k _ ho]

theorem OffsetInv.transfer (ps qs q2 : List Process) (k : Nat) (j : Int) (hk : 1 ≤ k)
    (inv : OffsetInv ps k qs) (h : transferRound qs j = .ok q2) : OffsetInv ps k q2 := by
  obtain ⟨hlen, hchain⟩ := transferRound_chain qs q2 j inv.chain h
  have hf := transferRound_frame qs q2 j h
  constructor
  · rw [hlen]
    exact inv.length
  · exact hchain
  · intro q hq
    obtain ⟨r, hr⟩ := List.getElem?_of_mem hq
    obtain ⟨p, hp, hfr, -⟩ := hf r q hr
    rw [hfr.1]
    exact inv.clear p (List.getElem?_mem hp)
  · intro h0
    omega
  · intro _ r q hq
    obtain ⟨p, hp, hfr, -⟩ := hf r q hq
    rw [hfr.2.1]
    exact inv.sizes hk r p hp
  · intro r q hq h1 h2
    obtain ⟨p, hp, hfr, -⟩ := hf r q hq
    rw [hfr.2.2.2.1]
    exact inv.sums r p hp h1 h2
  · intro hkn q hq
    obtain ⟨p, hp, hfr, -⟩ := hf 0 q hq
    rw [hfr.2.2.2.1]
    exact inv.wrap hkn p hp

theorem localSizes_congr (ps qs : List Process)
    (h : qs.map (fun p => p.bufferSTL) = ps.map (fun p => p.bufferSTL)) :
    localSizes qs = localSizes ps := by
  cases ps with
  | nil =>
    simp only [List.map_nil, List.map_eq_nil_iff] at h
    subst h
    rfl
  | cons p ps =>
    cases qs with
    | nil => simp at h
    | cons q qs =>
      simp only [List.map_cons, List.cons.injEq] at h
      have h2 := congrArg (List.map fun b : BufferSTL => b.m_Position) h.2
      simp only [List.map_map, Function.comp_def] at h2
      simp only [localSizes, h.1, h2]

theorem OffsetInv.rebase (ps ps2 qs : List Process) (k : Nat) (hk : 1 ≤ k)
    (hl : localSizes ps2 = localSizes ps) (hlen : ps2.length = ps.length)
    (inv : OffsetInv ps k qs) : OffsetInv ps2 k qs := by
  have hsum : ∀ r, offsetSum ps2 r = offsetSum ps r := fun r => by
    unfold offsetSum
    rw [hl]
  constructor
  · rw [hlen]
    exact inv.length
  · exact inv.chain
  · exact inv.clear
  · intro h0
    omega
  · intro _ r q hq
    rw [hl]
    exact inv.sizes hk r q hq
  · intro r q hq h1 h2
    rw [hsum]
    exact inv.sums r q hq h1 h2
  · intro hkn q hq
    rw [hsum, hlen]
    exact inv.wrap (by omega) q hq

theorem offset_after_transfer (ps qs q2 : List Process) (k : Nat) (hn : 2 ≤ ps.length)
    (hk : k < ps.length) (hc : IsChain ps) (hg : GuardClear ps) (hs : SizeTRange ps)
    (ho : ∀ p ∈ ps, p.agg.m_CurrentBufferOrder = 0)
    (pre : (k = 0 ∧ qs = ps) ∨ (1 ≤ k ∧ OffsetInv ps k qs))
    (h : transferRound qs k = .ok q2) :
    ∃ qs2, offsetRound q2 k = .ok qs2 ∧ OffsetInv ps (k + 1) qs2 := by
  rcases pre with ⟨hk0, hqp⟩ | ⟨hk1, inv⟩
  · subst hk0
    subst hqp
    obtain ⟨hlen, hchain⟩ := transferRound_chain qs q2 _ hc h
    have hf := transferRound_frame qs q2 _ h
    have hbuf : q2.map (fun p => p.bufferSTL) = qs.map (fun p => p.bufferSTL) := by
      apply List.ext_getElem?
      intro r
      simp only [List.getElem?_map]
      cases hq : q2[r]? with
      | none =>
        have hnone : qs[r]? = none := by
          rw [List.getElem?_eq_none_iff] at hq ⊢
          omega
        rw [hnone]
      | some q =>
        obtain ⟨p, hp, -, hcal⟩ := hf r q hq
        rw [hp]
        simp [hcal (ho p (List.getElem?_mem hp))]
    have hclear : GuardClear q2 := by
      intro q hq
      obtain ⟨r, hr⟩ := List.getElem?_of_mem hq
      obtain ⟨p, hp, hfr, -⟩ := hf r q hr
      rw [hfr.1]
      exact hg p (List.getElem?_mem hp)
    have hrange : SizeTRange q2 := by
      intro q hq
      obtain ⟨r, hr⟩ := List.getElem?_of_mem hq
      obtain ⟨p, hp, -, hcal⟩ := hf r q hr
      rw [hcal (ho p (List.getElem?_mem hp))]
      exact hs p (List.getElem?_mem hp)
    obtain ⟨qs2, h2, inv2⟩ := OffsetInv.step q2 q2 0 hchain hrange (by omega) (by omega)
      (OffsetInv.init q2 hchain hclear)
    exact ⟨qs2, h2, OffsetInv.rebase q2 qs qs2 1 (le_refl _)
      (localSizes_congr q2 qs hbuf.symm) hlen.symm inv2⟩
  · exact OffsetInv.step ps q2 k hc hs hn hk (OffsetInv.transfer ps qs q2 k k hk1 inv h)

theorem mixedRound_inv (qs qs2 : List Process) (k : Int) (h : mixedRound qs k = .ok qs2) :
    ∃ q2, transferRound qs k = .ok q2 ∧ offsetRound q2 k = .ok qs2 := by
  unfold mixedRound at h
  cases ht : transferRound qs k with
  | error e => simp [ht] at h
  | ok q2 => exact ⟨q2, rfl, by simpa [ht] using h⟩

theorem mixedRounds_succ_inv (ps qs2 : List Process) (k : Nat)
    (h : mixedRounds (k + 1) ps = .ok qs2) :
    ∃ qs, mixedRounds k ps = .ok qs ∧ mixedRound qs k = .ok qs2 := by
  simp only [mixedRounds] at h
  cases hq : mixedRounds k ps with
  | error e => simp [hq] at h
  | ok qs => exact ⟨qs, rfl, by simpa [hq] using h⟩

theorem mixedRounds_inv (ps : List Process) (hn : 2 ≤ ps.length) (hc : IsChain ps)
    (hg : GuardClear ps) (hs : SizeTRange ps) (ho : ∀ p ∈ ps, p.agg.m_CurrentBufferOrder = 0)
    (k : Nat) (hk : k ≤ ps.length) (qs : List Process) (h : mixedRounds k ps = .ok qs) :
    (k = 0 ∧ qs = ps) ∨ (1 ≤ k ∧ OffsetInv ps k qs) := by
  induction k generalizing qs with
  | zero =>
    simp only [mixedRounds, Except.ok.injEq] at h
    exact Or.inl ⟨rfl, h.symm⟩
  | succ k ih =>
    obtain ⟨qs1, h1, h2⟩ := mixedRounds_succ_inv ps qs k h
    obtain ⟨q2, ht, hoff⟩ := mixedRound_inv qs1 qs k h2
    obtain ⟨qs2, hx, inv⟩ := offset_after_transfer ps qs1 q2 k hn (by omega) hc hg hs ho
      (ih (by omega) qs1 h1) ht
    rw [hoff, Except.ok.injEq] at hx
    subst hx
    exact Or.inr ⟨by omega, inv⟩

theorem idle_round (qs : List Process) (k : Nat) (p : Process) (net : Network)
    (inv : TransferReady k qs) (hn : 2 ≤ qs.length) (hk : qs.length ≤ k + 1) (hp : p ∈ qs) :
    (IExchange p k net).result = .ok [.null, .null, .null] ∧ (IExchange p k net).state = p ∧
    (Wait p [.null, .null, .null] k net).result = .ok () ∧
    (Wait p [.null, .null, .null] k net).state = p := by
  obtain ⟨r, hr⟩ := List.getElem?_of_mem hp
  have hprk := inv.chain.at hr
  have hs : sender p.agg.m_Rank p.agg.m_Size k = false := by
    rw [← Bool.not_eq_true, sender_iff, hprk.1, hprk.2]
    omega
  have hrecv : receiver p.agg.m_Rank qs.length k = false := by
    rw [← Bool.not_eq_true, receiver_iff, hprk.1]
    omega
  exact transfer_nonreceiver p k qs.length net _ hprk.2 (by omega) hrecv
    (sends_nonsender p k hs (inv.buffers p hp))

theorem ready_last (qs : List Process) (k : Nat) (inv : TransferReady k qs)
    (hn : 2 ≤ qs.length) (hk : qs.length ≤ k + 1) :
    ∃ qs2, transferRound qs k = .ok qs2 ∧ qs2.length = qs.length ∧
      TransferReady (k + 1) qs2 := by
  have hall : ∀ p ∈ qs,
      (∃ reqs, (IExchange p k (qs.map fun q => postedSends q k)).result = .ok reqs) ∧
      (Wait (IExchange p k (qs.map fun q => postedSends q k)).state
        (IExchange p k (qs.map fun q => postedSends q k)).value k
        (qs.map fun q => postedSends q k)).result = .ok () := by
    intro p hp
    obtain ⟨h1, h2, h3, -⟩ := idle_round qs k p (qs.map fun q => postedSends q k) inv hn hk hp
    exact ⟨⟨_, h1⟩, by rw [Outcome.value_of_ok _ _ h1, h2]; exact h3⟩
  obtain ⟨qs2, hqs2⟩ := transferRound_ok qs k hall
  obtain ⟨hlen, hchain⟩ := transferRound_chain qs qs2 k inv.chain hqs2
  obtain ⟨hq2, -⟩ := transferRound_eq qs qs2 k hqs2
  refine ⟨qs2, hqs2, hlen, hchain, ?_, ?_⟩
  · intro q hq
    obtain ⟨r, hr⟩ := List.getElem?_of_mem hq
    rw [hq2] at hr
    simp only [List.getElem?_map, Option.map_eq_some'] at hr
    obtain ⟨p, hp1, rfl⟩ := hr
    have hp := List.getElem?_mem hp1
    obtain ⟨h1, h2, -, h4⟩ := idle_round qs k p (qs.map fun q => postedSends q k) inv hn hk hp
    rw [(SwapBuffers_frame _ _).2.2, Outcome.value_of_ok _ _ h1, h2, h4]
    exact inv.buffers p hp
  · intro r q hq hr
    have hrn : r < qs2.length := (List.getElem?_eq_some.mp hq).1
    omega

theorem ready_any (qs : List Process) (k : Nat) (inv : TransferReady k qs)
    (hn : 2 ≤ qs.length) :
    ∃ qs2, transferRound qs k = .ok qs2 ∧ qs2.length = qs.length ∧
      TransferReady (k + 1) qs2 := by
  by_cases hk : k + 2 ≤ qs.length
  · exact ready_step qs k inv hk
  · exact ready_last qs k inv hn (by omega)

theorem offsetRound_frame (ps qs : List Process) (k : Int) (h : offsetRound ps k = .ok qs)
    (r : Nat) (q : Process) (hq : qs[r]? = some q) :
    ∃ p, ps[r]? = some p ∧ OffsetFrame p q ∧ SameIdentity p q := by
  unfold offsetRound at h
  cases h1 : collect (ps.map fun p => IExchangeAbsolutePosition p k) with
  | error e => simp [h1] at h
  | ok rs =>
    simp only [h1] at h
    obtain ⟨hrs, hok1⟩ := collect_ok_inv _ ps rs h1
    cases h2 : collect (rs.map fun r =>
        WaitAbsolutePosition r.1 r.2 k (rs.map Prod.snd)) with
    | error e => simp [h2] at h
    | ok ws =>
      simp only [h2, Except.ok.injEq] at h
      obtain ⟨hws, -⟩ := collect_ok_inv
        (fun r : Process × List Request => WaitAbsolutePosition r.1 r.2 k (rs.map Prod.snd))
        rs ws h2
      rw [← h, hws, List.map_map] at hq
      rw [hrs] at hq
      simp only [List.map_map, List.getElem?_map, Option.map_eq_some', Function.comp] at hq
      obtain ⟨p, hp, rfl⟩ := hq
      obtain ⟨reqs, hreqs⟩ := hok1 p (List.getElem?_mem hp)
      refine ⟨p, hp, ?_, ?_⟩
      · exact offsetFrame_trans _ _ _ (IExchangeAbsolutePosition_offset p k)
          (WaitAbsolutePosition_offset _ _ k _ (by
            rw [Outcome.value_of_ok _ _ hreqs]
            exact IExchangeAbsolutePosition_noDataTarget p k reqs hreqs))
      · exact (IExchangeAbsolutePosition_frame p k).trans
          (WaitAbsolutePosition_frame _ _ k _)

theorem consumerBuffer_offset (p q : Process) (sb : BufferSTL) (hf : OffsetFrame p q)
    (hi : SameIdentity p q) (h : consumerBuffer p = .ok sb) :
    ∃ sb2, consumerBuffer q = .ok sb2 ∧ sb2.m_Buffer = sb.m_Buffer ∧
      sb2.m_Position = sb.m_Position := by
  simp only [consumerBuffer, GetConsumerBuffer, GetSender] at h ⊢
  rw [hi.2.2, hf.1]
  by_cases ho : p.agg.m_CurrentBufferOrder = 0
  · simp only [ho, if_true, deref, Except.ok.injEq] at h ⊢
    subst h
    exact ⟨_, rfl, hf.2.1, hf.2.2⟩
  · cases hb : p.agg.m_Buffers with
    | nil => simp [ho, hb] at h
    | cons x rest =>
      simp only [ho, if_false, hb, deref, hf.1, Except.ok.injEq] at h ⊢
      subst h
      exact ⟨_, rfl, rfl, rfl⟩

theorem TransferReady.offset (ps qs : List Process) (j : Nat) (k : Int)
    (inv : TransferReady j ps) (h : offsetRound ps k = .ok qs) (hlen : qs.length = ps.length) :
    TransferReady j qs := by
  have hf := offsetRound_frame ps qs k h
  constructor
  · apply IsChain.of_at
    intro r q hq
    obtain ⟨p, hp, -, hi⟩ := hf r q hq
    rw [hi.1, hi.2.1, hlen]
    exact inv.chain.at hp
  · intro q hq
    obtain ⟨r, hr⟩ := List.getElem?_of_mem hq
    obtain ⟨p, hp, hfr, -⟩ := hf r q hr
    rw [hfr.1]
    exact inv.buffers p (List.getElem?_mem hp)
  · intro r q hq hr
    obtain ⟨p, hp, hfr, hi⟩ := hf r q hq
    obtain ⟨sb, hsb, hsend⟩ := inv.sendable r p hp (by rw [← hlen]; exact hr)
    obtain ⟨sb2, h2, hb, hpos⟩ := consumerBuffer_offset p q sb hfr hi hsb
    refine ⟨sb2, h2, ?_⟩
    unfold Sendable at hsend ⊢
    rw [hb, hpos]
    exact hsend

theorem mixedRounds_ok (ps : List Process) (hn : 2 ≤ ps.length) (hc : IsChain ps)
    (hg : GuardClear ps) (hs : SizeTRange ps) (ho : ∀ p ∈ ps, p.agg.m_CurrentBufferOrder = 0)
    (hr : ∀ p ∈ ps, p.agg.m_Buffers ≠ [] ∧ Sendable p.bufferSTL)
    (k : Nat) (hk : k ≤ ps.length) :
    ∃ qs, mixedRounds k ps = .ok qs ∧ qs.length = ps.length ∧ TransferReady k qs := by
  induction k with
  | zero =>
    refine ⟨ps, rfl, rfl, hc, fun p hp => (hr p hp).1, ?_⟩
    intro r p hp _
    have hm := List.getElem?_mem hp
    exact ⟨p.bufferSTL, consumerBuffer_default p (ho p hm), (hr p hm).2⟩
  | succ k ih =>
    obtain ⟨qs, h1, hlen, inv⟩ := ih (by omega)
    obtain ⟨q2, ht, hlen2, inv2⟩ := ready_any qs k inv (by omega)
    obtain ⟨qs2, hx, oinv⟩ := offset_after_transfer ps qs q2 k hn (by omega) hc hg hs ho
      (mixedRounds_inv ps hn hc hg hs ho k (by omega) qs h1) ht
    exact ⟨qs2, by simp only [mixedRounds, h1, mixedRound, ht, hx], oinv.length,
      TransferReady.offset q2 qs2 (k + 1) k inv2 hx (by rw [oinv.length, hlen2, hlen])⟩

theorem OffsetInv.positions (ps qs qs2 : List Process)
    (inv : OffsetInv ps ps.length qs) (inv2 : OffsetInv ps ps.length qs2) :
    absolutePositions qs = absolutePositions qs2 := by
  apply List.ext_getElem?
  intro r
  simp only [absolutePositions, List.getElem?_map]
  by_cases hr : r < ps.length
  · have hr1 : r < qs.length := by rw [inv.length]; exact hr
    have hr2 : r < qs2.length := by rw [inv2.length]; exact hr
    obtain ⟨q, h1⟩ : ∃ q, qs[r]? = some q := ⟨qs[r], List.getElem?_eq_getElem hr1⟩
    obtain ⟨q2, h2⟩ : ∃ q2, qs2[r]? = some q2 := ⟨qs2[r], List.getElem?_eq_getElem hr2⟩
    rw [h1, h2]
    simp only [Option.map_some', Option.some.injEq]
    rcases Nat.eq_zero_or_pos r with h0 | h0
    · subst h0
      rw [inv.wrap rfl _ h1, inv2.wrap rfl _ h2]
    · rw [inv.sums r _ h1 h0 (by omega), inv2.sums r _ h2 h0 (by omega)]
  · have h1 : qs[r]? = none := by
      rw [List.getElem?_eq_none_iff, inv.length]
      omega
    have h2 : qs2[r]? = none := by
      rw [List.getElem?_eq_none_iff, inv2.length]
      omega
    rw [h1, h2]

/-- C20. The chain transfer and the offset protocol do not interfere.  For every
state of a rank, step and network: `IExchange`, `SwapBuffers` and `Wait` (on a
handle some call of `IExchange` returned) leave the absolute position of the
caller buffer and of the local buffer, the guard, the captured local size and
the exchange value as they were; `IExchangeAbsolutePosition` and
`WaitAbsolutePosition` (on a handle some call of `IExchangeAbsolutePosition`
returned) leave the local buffer, and the bytes and the position of the caller
buffer, as they were; all of this whether the call returns or raises.
Consequently, in a chain of `n >= 2` ranks in the default buffer order on which
no offset exchange is in flight: whenever the loop over the steps `0 .. n-1`
that runs the round of the chain transfer and then the round of the offset
protocol in every step returns, the absolute positions it leaves are the ones
the offset protocol alone computes from the same start, rank `r >= 1` holding
`(s_0 + .. + s_(r-1)) mod 2^64` and rank 0 the sum of all `s_i`, with `s_0` the
absolute position of rank 0 and `s_i` the position of the caller buffer of rank
`i` at step 0; and the loop does return when every rank has its local buffer
and every caller buffer can be sent. -/
theorem protocols_do_not_interfere (ps : List Process) (hn : 2 ≤ ps.length) (hc : IsChain ps)
    (hg : GuardClear ps) (hs : SizeTRange ps)
    (ho : ∀ p ∈ ps, p.agg.m_CurrentBufferOrder = 0) :
    (∀ (p : Process) (step : Int) (net : Network),
      TransferFrame p (IExchange p step net).state ∧ TransferFrame p (SwapBuffers p step) ∧
      OffsetFrame p (IExchangeAbsolutePosition p step).state) ∧
    (∀ (p p0 : Process) (step step0 : Int) (net net0 : Network) (handle : List Request),
      (IExchange p0 step0 net0).result = .ok handle →
        TransferFrame p (Wait p handle step net).state) ∧
    (∀ (p p0 : Process) (step step0 : Int) (net : Network) (handle : List Request),
      (IExchangeAbsolutePosition p0 step0).result = .ok handle →
        OffsetFrame p (WaitAbsolutePosition p handle step net).state) ∧
    (∀ qs, mixedProtocol ps = .ok qs →
      (∃ qs0, offsetProtocol ps = .ok qs0 ∧ absolutePositions qs = absolutePositions qs0) ∧
      ∀ (r : Nat) (q : Process), qs[r]? = some q → q.bufferSTL.m_AbsolutePosition =
        offsetSum ps (if r = 0 then ps.length else r) % SIZE_T_MOD) ∧
    ((∀ p ∈ ps, p.agg.m_Buffers ≠ [] ∧ Sendable p.bufferSTL) →
      ∃ qs, mixedProtocol ps = .ok qs) := by
  refine ⟨fun p step net => ⟨IExchange_transfer p step net, ⟨rfl, rfl, rfl, rfl, rfl⟩,
    IExchangeAbsolutePosition_offset p step⟩, ?_, ?_, ?_, ?_⟩
  · intro p p0 step step0 net net0 handle h
    exact Wait_transfer p handle step net (IExchange_noOffsetTarget p0 step0 net0 handle h)
  · intro p p0 step step0 net handle h
    exact WaitAbsolutePosition_offset p handle step net
      (IExchangeAbsolutePosition_noDataTarget p0 step0 handle h)
  · intro qs h
    rcases mixedRounds_inv ps hn hc hg hs ho ps.length (le_refl _) qs h with ⟨h0, -⟩ | ⟨-, inv⟩
    · omega
    · obtain ⟨qs0, hq0, inv0⟩ := offsetRounds_inv ps hc hg hs hn ps.length (le_refl _)
      refine ⟨⟨qs0, hq0, OffsetInv.positions ps qs qs0 inv inv0⟩, ?_⟩
      intro r q hq
      have hr : r < qs.length := (List.getElem?_eq_some.mp hq).1
      by_cases h0 : r = 0
      · subst h0
        rw [if_pos rfl]
        exact inv.wrap rfl q hq
      · rw [if_neg h0]
        exact inv.sums r q hq (by omega) (by rw [← inv.length]; omega)
  · intro hr
    obtain ⟨qs, h, -⟩ := mixedRounds_ok ps hn hc hg hs ho hr ps.length (le_refl _)
    exact ⟨qs, h⟩

theorem protocols_do_not_interfere_witness :
    ∃ qs, mixedProtocol (scenario4 0) = .ok qs ∧ absolutePositions qs = [90, 0, 20, 50] := by
  obtain ⟨-, -, -, hpos, hret⟩ := protocols_do_not_interfere (scenario4 0) (by decide)
    (by decide) (by decide) (by decide) (by decide)
  obtain ⟨qs, hqs⟩ := hret (by decide)
  obtain ⟨⟨qs0, hq0, habs⟩, -⟩ := hpos qs hqs
  have h : (offsetProtocol (scenario4 0)).map absolutePositions = .ok [90, 0, 20, 50] := rfl
  rw [hq0] at h
  simp only [Except.map, Except.ok.injEq] at h
  exact ⟨qs, hqs, habs.trans h⟩

/-! ## The handshake of the chain -/

theorem handshake_send (p : Process) (r n : Nat) (hr : p.agg.m_Rank = r)
    (hs : p.agg.m_Size = n) (hrn : r < n) :
    HandshakeLinks.send p =
      (if 0 < r then
        { state := p, calls := [.post (.isend ((r : Int) - 1) 0 (.int r))],
          result := .ok (some (.isend ((r : Int) - 1) 0 (.int r))) }
       else Outcome.ret p none) := by
  unfold HandshakeLinks.send MPI_Isend_int
  rw [hr, hs]
  by_cases h0 : 0 < r
  · have h1 : (r : Int) > 0 := by omega
    have h2 : 0 ≤ (r : Int) - 1 ∧ (r : Int) - 1 < n := by omega
    simp only [h1, h2, h0, if_true, and_self]
  · have h1 : ¬ ((r : Int) > 0) := by omega
    simp only [h1, h0, if_false]

theorem handshakeSends_eq (p : Process) (r n : Nat) (hr : p.agg.m_Rank = r)
    (hs : p.agg.m_Size = n) (hrn : r < n) :
    handshakeSends p = if 0 < r then [.isend ((r : Int) - 1) 0 (.int r)] else [] := by
  unfold handshakeSends
  rw [handshake_send p r n hr hs hrn]
  by_cases h0 : 0 < r
  · simp only [h0, if_true]
  · simp only [h0, if_false, Outcome.ret]

theorem handshake_receive_calls (p : Process) (net : Network) (r n : Nat)
    (hr : p.agg.m_Rank = r) (hs : p.agg.m_Size = n) :
    (HandshakeLinks.receive p net).state = p ∧
    (HandshakeLinks.receive p net).calls =
      (if r + 1 < n then
        [.post (.irecv ((r : Int) + 1) 0 1 .localVar),
         .wait (.irecv ((r : Int) + 1) 0 1 .localVar)] else []) := by
  unfold HandshakeLinks.receive MPI_Irecv
  rw [hr, hs]
  by_cases h0 : r + 1 < n
  · have h1 : (r : Int) < (n : Int) - 1 := by omega
    have h2 : 0 ≤ (r : Int) + 1 ∧ (r : Int) + 1 < n := by omega
    have h3 : ¬ ((1 : Int) < 0) := by omega
    simp only [h1, h2, h3, h0, if_true, if_false, and_self]
    split <;> exact ⟨rfl, rfl⟩
  · have h1 : ¬ ((r : Int) < (n : Int) - 1) := by omega
    simp only [h1, h0, if_false, Outcome.ret, and_self]

theorem handshake_receive_ok (p : Process) (net : Network) (r n : Nat) (v : Int)
    (hr : p.agg.m_Rank = r) (hs : p.agg.m_Size = n)
    (hnet : r + 1 < n → net.lookup ((r : Int) + 1) r 0 = some (.int v)) :
    (HandshakeLinks.receive p net).result = .ok (if r + 1 < n then v else -1) := by
  unfold HandshakeLinks.receive MPI_Irecv
  rw [hr, hs]
  by_cases h0 : r + 1 < n
  · have h1 : (r : Int) < (n : Int) - 1 := by omega
    have h2 : 0 ≤ (r : Int) + 1 ∧ (r : Int) + 1 < n := by omega
    have h3 : ¬ ((1 : Int) < 0) := by omega
    simp only [h1, h2, h3, h0, if_true, if_false, and_self, MPI_Wait, hnet h0, le_refl]
  · have h1 : ¬ ((r : Int) < (n : Int) - 1) := by omega
    simp only [h1, h0, if_false, Outcome.ret]

theorem handshake_waitSend (p : Process) (net : Network) (r : Nat) (link : Int)
    (hr : p.agg.m_Rank = r) :
    HandshakeLinks.waitSend p net
        (if 0 < r then some (.isend ((r : Int) - 1) 0 (.int r)) else none) link =
      { state := p,
        calls := if 0 < r then [.wait (.isend ((r : Int) - 1) 0 (.int r))] else [],
        result := .ok link } := by
  unfold HandshakeLinks.waitSend
  rw [hr]
  by_cases h0 : 0 < r
  · have h1 : (r : Int) > 0 := by omega
    simp only [h1, h0, if_true, MPI_Wait]
  · have h1 : ¬ ((r : Int) > 0) := by omega
    simp only [h1, h0, if_false, Outcome.ret]

/-- What `HandshakeLinks` does on rank `r` of `n`, whatever the network: the
state is kept, the posts and waits made so far are an initial part of
`handshakeCalls r n` fixed by how far it got, and all of it when it returns. -/
theorem handshake_trace (p : Process) (net : Network) (r n : Nat) (hr : p.agg.m_Rank = r)
    (hs : p.agg.m_Size = n) (hrn : r < n) :
    (HandshakeLinks p net).state = p ∧
    (HandshakeLinks p net).calls.filter Call.isSendPost =
      (if 0 < r then [.post (.isend ((r : Int) - 1) 0 (.int r))] else []) ∧
    (HandshakeLinks p net).calls.filter Call.isReceivePost =
      (if r + 1 < n then [.post (.irecv ((r : Int) + 1) 0 1 .localVar)] else []) ∧
    (∀ link, (HandshakeLinks p net).result = .ok link →
      (HandshakeLinks p net).calls = handshakeCalls r n) := by
  obtain ⟨hst, hcalls⟩ := handshake_receive_calls p net r n hr hs
  have hw := fun link => handshake_waitSend p net r link hr
  unfold HandshakeLinks
  rw [handshake_send p r n hr hs hrn]
  by_cases h0 : 0 < r <;> by_cases h1 : r + 1 < n <;>
    cases hres : (HandshakeLinks.receive p net).result <;>
    simp only [h0, if_true, if_false] at hw <;>
    simp [h0, h1, Outcome.andThen, Outcome.ret, hres, hst, hcalls, hw, handshakeCalls,
      Call.isSendPost, Call.isReceivePost]

theorem handshake_chain (qs : List Process) (hc : IsChain qs) (r : Nat) (q : Process)
    (hq : qs[r]? = some q) :
    HandshakeLinks q (qs.map handshakeSends) =
      { state := q, calls := handshakeCalls r qs.length,
        result := .ok (if r + 1 < qs.length then ((r : Int) + 1) else -1) } := by
  obtain ⟨hr, hs⟩ := hc.at hq
  have hrn : r < qs.length := (List.getElem?_eq_some.mp hq).1
  have hnet : r + 1 < qs.length →
      Network.lookup (qs.map handshakeSends) ((r : Int) + 1) r 0 =
        some (.int ((r : Int) + 1)) := by
    intro h1
    obtain ⟨q1, hq1⟩ : ∃ q1, qs[r + 1]? = some q1 := ⟨_, List.getElem?_eq_getElem h1⟩
    obtain ⟨hr1, hs1⟩ := hc.at hq1
    have hsends := handshakeSends_eq q1 (r + 1) qs.length hr1 hs1 h1
    have hneg : ¬ ((r : Int) + 1 < 0) := by omega
    have hidx : ((r : Int) + 1).toNat = r + 1 := by omega
    simp only [Network.lookup, hneg, if_false, hidx, List.getElem?_map, hq1, Option.map_some',
      hsends, Nat.succ_pos, if_true, sentTo]
    simp
  obtain ⟨hst, hcalls⟩ := handshake_receive_calls q (qs.map handshakeSends) r qs.length hr hs
  have hres := handshake_receive_ok q (qs.map handshakeSends) r qs.length _ hr hs hnet
  have hw := fun link => handshake_waitSend q (qs.map handshakeSends) r link hr
  unfold HandshakeLinks
  rw [handshake_send q r qs.length hr hs hrn]
  by_cases h0 : 0 < r <;> by_cases h1 : r + 1 < qs.length <;>
    simp only [h0, if_true, if_false] at hw <;>
    simp [h0, h1, Outcome.andThen, Outcome.ret, hres, hst, hcalls, hw, handshakeCalls]

theorem HandshakeLinks_state (p : Process) (net : Network) :
    (HandshakeLinks p net).state = p := by
  unfold HandshakeLinks
  apply andThen_state (fun a b => b = a) (fun a b c h1 h2 => h2.trans h1)
  · unfold HandshakeLinks.send
    repeat' split
    all_goals rfl
  · intro q sendRequest
    apply andThen_state (fun a b => b = a) (fun a b c h1 h2 => h2.trans h1)
    · unfold HandshakeLinks.receive
      repeat' split
      all_goals rfl
    · intro q2 link
      unfold HandshakeLinks.waitSend
      repeat' split
      all_goals rfl

theorem linkSenders_eq (n : Nat) : linkSenders n = Finset.Ico 1 n := by
  ext r
  simp only [linkSenders, Finset.mem_filter, Finset.mem_range, Finset.mem_Ico]
  omega

theorem linkReceivers_eq (n : Nat) : linkReceivers n = Finset.range (n - 1) := by
  ext r
  simp only [linkReceivers, Finset.mem_filter, Finset.mem_range]
  omega

/-- C22. In a chain of `n >= 1` ranks, whatever the network, `HandshakeLinks` on
rank `r` posts one send, of its own rank id to rank `r-1` with tag 0, exactly
when `r > 0`, and posts one receive, from rank `r+1` with tag 0, exactly when
`r < n-1`; when it returns its calls are exactly: the send (if `r > 0`), the
receive and the wait for it (if `r < n-1`), the wait for the send (if `r > 0`),
so every operation it posted has been waited for.  The ranks that send are the
`r >= 1` whose neighbour `r-1` receives, `n-1` of each (none for `n = 1`).  And
when every rank of the chain calls `HandshakeLinks`, it returns on every rank,
rank `r < n-1` having received the value `r+1` (the last rank keeps `-1`). -/
theorem handshake_adjacency (ps : List Process) (hc : IsChain ps) :
    (∀ (r : Nat) (p : Process) (net : Network), ps[r]? = some p →
      (HandshakeLinks p net).calls.filter Call.isSendPost =
        (if 0 < r then [.post (.isend ((r : Int) - 1) 0 (.int r))] else []) ∧
      (HandshakeLinks p net).calls.filter Call.isReceivePost =
        (if r + 1 < ps.length then [.post (.irecv ((r : Int) + 1) 0 1 .localVar)] else []) ∧
      (∀ link, (HandshakeLinks p net).result = .ok link →
        (HandshakeLinks p net).calls = handshakeCalls r ps.length ∧
        ∀ c, Call.post c ∈ (HandshakeLinks p net).calls →
          Call.wait c ∈ (HandshakeLinks p net).calls)) ∧
    (∀ r, r ∈ linkSenders ps.length ↔ 1 ≤ r ∧ r - 1 ∈ linkReceivers ps.length) ∧
    (linkSenders ps.length).card = ps.length - 1 ∧
    (linkReceivers ps.length).card = ps.length - 1 ∧
    (∃ rs, handshakeRound ps = .ok rs ∧ rs.length = ps.length ∧
      ∀ (r : Nat) (p : Process), ps[r]? = some p →
        rs[r]? = some (p, if r + 1 < ps.length then ((r : Int) + 1) else -1) ∧
        (HandshakeLinks p (ps.map handshakeSends)).calls = handshakeCalls r ps.length) := by
  refine ⟨?_, ?_, ?_, ?_, ?_⟩
  · intro r p net hp
    obtain ⟨hr, hs⟩ := hc.at hp
    have hrn : r < ps.length := (List.getElem?_eq_some.mp hp).1
    obtain ⟨-, h1, h2, h3⟩ := handshake_trace p net r ps.length hr hs hrn
    refine ⟨h1, h2, fun link hl => ⟨h3 link hl, ?_⟩⟩
    rw [h3 link hl]
    intro c hcm
    by_cases h0 : 0 < r <;> by_cases h4 : r + 1 < ps.length <;>
      simp [handshakeCalls, h0, h4] at hcm ⊢
    · rcases hcm with rfl | rfl <;> simp
    · exact hcm
    · exact hcm
  · intro r
    rw [linkSenders_eq, linkReceivers_eq]
    simp only [Finset.mem_Ico, Finset.mem_range]
    omega
  · rw [linkSenders_eq, Nat.card_Ico]
  · rw [linkReceivers_eq, Finset.card_range]
  · have hall : ∀ p ∈ ps, ∃ link,
        (HandshakeLinks p (ps.map handshakeSends)).result = .ok link := by
      intro p hp
      obtain ⟨r, hr⟩ := List.getElem?_of_mem hp
      rw [handshake_chain ps hc r p hr]
      exact ⟨_, rfl⟩
    refine ⟨_, collect_map _ ps hall, by rw [List.length_map], ?_⟩
    intro r p hp
    simp only [List.getElem?_map, hp, Option.map_some', handshake_chain ps hc r p hp,
      Outcome.value, and_self]

theorem handshake_adjacency_witness :
    ∃ rs, handshakeRound chain3 = .ok rs ∧ rs.map Prod.snd = [1, 2, -1] := by
  obtain ⟨-, -, -, -, rs, hrs, -, -⟩ := handshake_adjacency chain3 (by decide)
  have h : (handshakeRound chain3).map (fun l => l.map Prod.snd) = .ok [1, 2, -1] := rfl
  rw [hrs] at h
  simp only [Except.map, Except.ok.injEq] at h
  exact ⟨rs, hrs, h⟩

/-! ## Initialisation -/

theorem Init_state (p : Process) (rank size : Int) (net : Network)
    (h : (Init p rank size net).result = .ok ()) :
    (Init p rank size net).state =
      (if rank < size then
        { InitComm p rank size with
          agg := { (InitComm p rank size).agg with
            m_Buffers := p.agg.m_Buffers ++ [BufferSTL.empty] } }
       else InitComm p rank size) := by
  unfold Init at h ⊢
  obtain ⟨link, -, -, hst⟩ := andThen_ok_inv _ _ _ h
  rw [hst, HandshakeLinks_state]
  by_cases hr : rank < size
  · simp only [HandshakeRank, InitComm, hr, if_true, Outcome.ret]
  · simp only [HandshakeRank, InitComm, hr, if_false, Outcome.ret]

theorem Init_raise (p : Process) (rank size : Int) (net : Network) (e : Failure)
    (h : (Init p rank size net).result = .error e) :
    (Init p rank size net).state = InitComm p rank size := by
  unfold Init at h ⊢
  unfold Outcome.andThen at h ⊢
  cases hl : (HandshakeLinks (HandshakeRank (InitComm p rank size) 0) net).result with
  | error e2 =>
    simp only [hl]
    exact HandshakeLinks_state _ _
  | ok link =>
    simp only [hl] at h
    split at h <;> simp [Outcome.ret] at h

theorem views_defined (q : Process) (b : BufferSTL) (rest : List BufferSTL) (o : Nat)
    (hb : q.agg.m_Buffers = b :: rest) :
    ∃ s r bs br,
      GetSender { q with agg := { q.agg with m_CurrentBufferOrder := o } } = .ok s ∧
      GetReceiver { q with agg := { q.agg with m_CurrentBufferOrder := o } } = .ok r ∧
      GetConsumerBuffer { q with agg := { q.agg with m_CurrentBufferOrder := o } } = .ok s ∧
      deref { q with agg := { q.agg with m_CurrentBufferOrder := o } } s = .ok bs ∧
      deref { q with agg := { q.agg with m_CurrentBufferOrder := o } } r = .ok br ∧ s ≠ r := by
  by_cases ho : o = 0
  · exact ⟨.caller, .front, q.bufferSTL, b, by simp [GetSender, ho], by simp [GetReceiver, ho, hb],
      by simp [GetConsumerBuffer, GetSender, ho], rfl, by simp [deref, hb], by decide⟩
  · exact ⟨.front, .caller, b, q.bufferSTL, by simp [GetSender, ho, hb],
      by simp [GetReceiver, ho], by simp [GetConsumerBuffer, GetSender, ho, hb],
      by simp [deref, hb], rfl, by decide⟩

theorem initChain_ok (ps : List Process) :
    IsChain (ps.enum.map fun jq => InitComm jq.2 (jq.1 : Int) (ps.length : Int)) ∧
    ∀ (r : Nat) (p : Process), ps[r]? = some p →
      (Init p (r : Int) (ps.length : Int)
        (ps.enum.map fun jq =>
          handshakeSends (InitComm jq.2 (jq.1 : Int) (ps.length : Int)))).result = .ok () := by
  have hc : IsChain (ps.enum.map fun jq => InitComm jq.2 (jq.1 : Int) (ps.length : Int)) := by
    apply IsChain.of_at
    intro r q hq
    simp only [List.getElem?_map, List.getElem?_enum, Option.map_map, Option.map_eq_some',
      Function.comp] at hq
    obtain ⟨p, -, rfl⟩ := hq
    simp [InitComm]
  refine ⟨hc, ?_⟩
  intro r p hp
  have hq : (ps.enum.map fun jq => InitComm jq.2 (jq.1 : Int) (ps.length : Int))[r]? =
      some (InitComm p (r : Int) (ps.length : Int)) := by
    simp [List.getElem?_enum, hp]
  have hnet : (ps.enum.map fun jq =>
      handshakeSends (InitComm jq.2 (jq.1 : Int) (ps.length : Int))) =
      (ps.enum.map fun jq => InitComm jq.2 (jq.1 : Int) (ps.length : Int)).map handshakeSends := by
    rw [List.map_map]
    rfl
  have hh := handshake_chain _ hc r _ hq
  unfold Init
  rw [hnet]
  unfold Outcome.andThen
  simp only [HandshakeRank, hh]
  split <;> rfl

/-- C21. When the processes of a chain of `n` ranks, constructed without a
local buffer, all call `Init`, it returns on every rank `r` (`0 <= r < n`, the
last rank included) with exactly one local buffer, the value-initialised one,
so that `GetSender`, `GetReceiver` and `GetConsumerBuffer` are defined for every
value of the buffer-order flag and select two different buffers that exist.
On one rank, whatever the network: an `Init` that returns has allocated exactly
one buffer when `rank < size` and none otherwise, and an `Init` that raises has
allocated none. -/
theorem init_allocates (ps : List Process) (hb : ∀ p ∈ ps, p.agg.m_Buffers = []) :
    (∃ rs, initChain ps = .ok rs ∧ rs.length = ps.length ∧
      ∀ (r : Nat) (p : Process), ps[r]? = some p → ∃ q, rs[r]? = some (q, ()) ∧
        q.agg.m_Rank = r ∧ q.agg.m_Size = ps.length ∧
        q.agg.m_Buffers = [BufferSTL.empty] ∧
        ∀ o : Nat, ∃ s rc bs br,
          GetSender { q with agg := { q.agg with m_CurrentBufferOrder := o } } = .ok s ∧
          GetReceiver { q with agg := { q.agg with m_CurrentBufferOrder := o } } = .ok rc ∧
          GetConsumerBuffer { q with agg := { q.agg with m_CurrentBufferOrder := o } } = .ok s ∧
          deref { q with agg := { q.agg with m_CurrentBufferOrder := o } } s = .ok bs ∧
          deref { q with agg := { q.agg with m_CurrentBufferOrder := o } } rc = .ok br ∧
          s ≠ rc) ∧
    (∀ (p : Process) (rank size : Int) (net : Network), p ∈ ps →
      ((Init p rank size net).result = .ok () →
        (Init p rank size net).state.agg.m_Buffers =
          if rank < size then [BufferSTL.empty] else []) ∧
      (∀ e, (Init p rank size net).result = .error e →
        (Init p rank size net).state.agg.m_Buffers = [])) := by
  constructor
  · obtain ⟨-, hok⟩ := initChain_ok ps
    have hall : ∀ ip ∈ ps.enum, ∃ a, (Init ip.2 (ip.1 : Int) (ps.length : Int)
        (ps.enum.map fun jq =>
          handshakeSends (InitComm jq.2 (jq.1 : Int) (ps.length : Int)))).result = .ok a := by
      intro ip hip
      exact ⟨(), hok ip.1 ip.2 (List.mem_enum_iff_getElem?.mp hip)⟩
    refine ⟨_, collect_map _ ps.enum hall, by rw [List.length_map, List.enum_length], ?_⟩
    intro r p hp
    have hrn : r < ps.length := (List.getElem?_eq_some.mp hp).1
    have hst := Init_state p (r : Int) (ps.length : Int) _ (hok r p hp)
    rw [if_pos (by omega), hb p (List.getElem?_mem hp), List.nil_append] at hst
    refine ⟨(Init p (r : Int) (ps.length : Int) (ps.enum.map fun jq =>
        handshakeSends (InitComm jq.2 (jq.1 : Int) (ps.length : Int)))).state, by
      simp only [List.getElem?_map, List.getElem?_enum, hp, Option.map_some', Outcome.value,
        hok r p hp], ?_⟩
    rw [hst]
    exact ⟨rfl, rfl, rfl, fun o => views_defined _ BufferSTL.empty [] o rfl⟩
  · intro p rank size net hp
    constructor
    · intro h
      rw [Init_state p rank size net h]
      by_cases hr : rank < size
      · simp only [hr, if_true, hb p hp, List.nil_append]
      · simp only [hr, if_false, InitComm, hb p hp]
    · intro e h
      rw [Init_raise p rank size net e h]
      simp only [InitComm, hb p hp]

theorem init_allocates_witness :
    ∃ rs, initChain constructed3 = .ok rs ∧
      rs.map (fun x => x.1.agg.m_Buffers) =
        [[BufferSTL.empty], [BufferSTL.empty], [BufferSTL.empty]] := by
  obtain ⟨⟨rs, hrs, -, -⟩, -⟩ := init_allocates constructed3 (by decide)
  have h : (initChain constructed3).map (fun l => l.map fun x => x.1.agg.m_Buffers) =
      .ok [[BufferSTL.empty], [BufferSTL.empty], [BufferSTL.empty]] := rfl
  rw [hrs] at h
  simp only [Except.map, Except.ok.injEq] at h
  exact ⟨rs, hrs, h⟩

end MPIChain

namespace CompressSZ

/-! ## The loop over the parameters -/

theorem parameterLoop_raises (lib : Library) (it : String × String)
    (h : ∀ st, ∃ e, parameter lib st it = .error e) (parameters : Params) (st : Settings)
    (hmem : it ∈ parameters) : ∃ e, parameterLoop lib st parameters = .error e := by
  induction parameters generalizing st with
  | nil => simp at hmem
  | cons x rest ih =>
    cases hx : parameter lib st x with
    | error e => exact ⟨e, by simp only [parameterLoop, hx]⟩
    | ok st2 =>
      rcases List.mem_cons.mp hmem with rfl | hrest
      · obtain ⟨e, he⟩ := h st
        rw [he] at hx
        simp at hx
      · obtain ⟨e, he⟩ := ih st2 hrest
        exact ⟨e, by simp only [parameterLoop, hx, he]⟩

theorem parameterLoop_append (lib : Library) (pre post : Params) (st : Settings) :
    parameterLoop lib st (pre ++ post) =
      (match parameterLoop lib st pre with
       | .error e => .error e
       | .ok st2 => parameterLoop lib st2 post) := by
  induction pre generalizing st with
  | nil => rfl
  | cons x rest ih =>
    simp only [List.cons_append, parameterLoop]
    cases hx : parameter lib st x with
    | error e => rfl
    | ok st2 => exact ih st2

theorem parameter_szMode (lib : Library) (st : Settings) (value : String)
    (h : value ∉ szModes) :
    parameter lib st ("szMode", value) = .error (.invalid_argument
      ("ERROR: ADIOS2 operator unknown SZ parameter szMode: " ++ value ++ "\n")) := by
  simp only [szModes, List.mem_cons, List.mem_singleton, List.not_mem_nil, or_false,
    not_or] at h
  simp [parameter, h.1, h.2.1, h.2.2]

theorem parameter_errorBoundMode (lib : Library) (st : Settings) (value : String)
    (h : value ∉ errorBoundModes) :
    parameter lib st ("errorBoundMode", value) = .error (.invalid_argument
      ("ERROR: ADIOS2 operator unknown SZ parameter errorBoundMode: " ++ value ++ "\n")) := by
  simp only [errorBoundModes, List.mem_cons, List.mem_singleton, List.not_mem_nil, or_false,
    not_or] at h
  simp [parameter, h.1, h.2.1, h.2.2.1, h.2.2.2.1, h.2.2.2.2]

theorem parameter_pwr_type (lib : Library) (st : Settings) (value : String) :
    parameter lib st ("pwr_type", value) = .error (.invalid_argument
      ("ERROR: ADIOS2 operator unknown SZ parameter pwr_type: " ++ value ++ "\n")) := by
  simp [parameter]

theorem parameter_unknown (lib : Library) (st : Settings) (key value : String)
    (h : key ∉ optionKeys) : parameter lib st (key, value) = .ok st := by
  simp only [optionKeys, List.mem_cons, List.mem_singleton, List.not_mem_nil, or_false,
    not_or] at h
  obtain ⟨h1, h2, h3, h4, h5, h6, h7, h8, h9, h10, h11, h12, h13, h14, h15, h16, h17, h18, h19,
    h20, h21, h22, h23⟩ := h
  simp [parameter, h1, h2, h3, h4, h5, h6, h7, h8, h9, h10, h11, h12, h13, h14, h15, h16, h17,
    h18, h19, h20, h21, h22, h23]

theorem parameterLoop_filter (lib : Library) (parameters : Params) (st : Settings) :
    parameterLoop lib st (parameters.filter fun it => decide (it.1 ∈ optionKeys)) =
      parameterLoop lib st parameters := by
  induction parameters generalizing st with
  | nil => rfl
  | cons x rest ih =>
    by_cases hx : x.1 ∈ optionKeys
    · simp only [List.filter_cons, hx, decide_True, if_true, parameterLoop]
      cases parameter lib st x with
      | error e => rfl
      | ok st2 => exact ih st2
    · have hp : parameter lib st x = .ok st := parameter_unknown lib st x.1 x.2 hx
      simp only [List.filter_cons, hx, decide_False, parameterLoop, hp]
      exact ih st

theorem Compress_raises (lib : Library) (ndims : Nat) (convertedDims : Nat × Nat × Nat × Nat)
    (varType : DataType) (outsize : Nat) (parameters : Params) (e : Exception)
    (h : parameterLoop lib (initialSettings lib ndims) parameters = .error e) :
    Compress lib ndims convertedDims varType outsize parameters =
      { calls := [], result := .error e } := by
  simp only [Compress, h]

/-! ## Validation of the enumerated parameters -/

/-- C23 (what the code does).  The branch for the key `pwr_type` compares the
key, not the value, with `MIN`, `SZ_PWR_MIN_TYPE`, `AVG`, `SZ_PWR_AVG_TYPE`,
`MAX` and `SZ_PWR_MAX_TYPE`: for every value, also `MIN`, the entry raises the
`invalid_argument` reporting the value, and `Compress` on a map that holds only
`pwr_type = MIN` raises it before any call of the SZ library; a map with the key
`pwr_type` never gets as far as the SZ library. -/
theorem pwr_type_always_rejected (lib : Library) (ndims : Nat)
    (convertedDims : Nat × Nat × Nat × Nat) (varType : DataType) (outsize : Nat) :
    (∀ (st : Settings) (value : String),
      parameter lib st ("pwr_type", value) = .error (.invalid_argument
        ("ERROR: ADIOS2 operator unknown SZ parameter pwr_type: " ++ value ++ "\n"))) ∧
    ((Compress lib ndims convertedDims varType outsize [("pwr_type", "MIN")]).calls = [] ∧
      (Compress lib ndims convertedDims varType outsize [("pwr_type", "MIN")]).result =
        .error (.invalid_argument
          "ERROR: ADIOS2 operator unknown SZ parameter pwr_type: MIN\n")) ∧
    (∀ (parameters : Params) (value : String), ("pwr_type", value) ∈ parameters →
      (Compress lib ndims convertedDims varType outsize parameters).calls = [] ∧
      ∃ e, (Compress lib ndims convertedDims varType outsize parameters).result = .error e) := by
  refine ⟨parameter_pwr_type lib, ?_, ?_⟩
  · have h : parameterLoop lib (initialSettings lib ndims) [("pwr_type", "MIN")] =
        .error (.invalid_argument
          "ERROR: ADIOS2 operator unknown SZ parameter pwr_type: MIN\n") := by
      simp only [parameterLoop, parameter_pwr_type]
      rfl
    rw [Compress_raises lib ndims convertedDims varType outsize _ _ h]
    exact ⟨rfl, rfl⟩
  · intro parameters value hmem
    obtain ⟨e, he⟩ := parameterLoop_raises lib ("pwr_type", value)
      (fun st => ⟨_, parameter_pwr_type lib st value⟩) parameters (initialSettings lib ndims) hmem
    rw [Compress_raises lib ndims convertedDims varType outsize _ _ he]
    exact ⟨rfl, e, rfl⟩

/-- C24 (as stated, refuted).  In the map with `gzipMode = 99999999999` and
`szMode = SZ_FAST`, whose `szMode` is none of the three accepted values,
`Compress` raises the `out_of_range` of `std::stoi` for `gzipMode`, the smaller
key, not `invalid_argument`. -/
theorem mode_error_preceded :
    Params.WellFormed [("gzipMode", "99999999999"), ("szMode", "SZ_FAST")] ∧
    "SZ_FAST" ∉ szModes ∧
    ∀ (lib : Library) (ndims : Nat) (convertedDims : Nat × Nat × Nat × Nat)
      (varType : DataType) (outsize : Nat),
      (Compress lib ndims convertedDims varType outsize
        [("gzipMode", "99999999999"), ("szMode", "SZ_FAST")]).result =
          .error (.out_of_range "stoi") := by
  refine ⟨by decide, by decide, ?_⟩
  intro lib ndims convertedDims varType outsize
  have h : parameterLoop lib (initialSettings lib ndims)
      [("gzipMode", "99999999999"), ("szMode", "SZ_FAST")] = .error (.out_of_range "stoi") := rfl
  rw [Compress_raises lib ndims convertedDims varType outsize _ _ h]

/-- C24 (amended).  For every parameter map: a `szMode` value other than
`SZ_BEST_SPEED`, `SZ_BEST_COMPRESSION` and `SZ_DEFAULT_COMPRESSION`, or an
`errorBoundMode` value other than `ABS`, `REL`, `ABS_AND_REL`, `ABS_OR_REL` and
`PW_REL`, makes `Compress` raise before any call of the SZ library; the
exception is the `invalid_argument` reporting that value when the entries before
it are accepted (otherwise it is the exception of the first entry that is
rejected).  An entry whose key is not an option the loop acts on leaves every
setting as it was, and `Compress` does the same with and without such
entries. -/
theorem parameter_validation (lib : Library) (ndims : Nat)
    (convertedDims : Nat × Nat × Nat × Nat) (varType : DataType) (outsize : Nat)
    (parameters : Params) :
    (∀ key value, (key, value) ∈ parameters →
      (key = "szMode" ∧ value ∉ szModes) ∨ (key = "errorBoundMode" ∧ value ∉ errorBoundModes) →
      (Compress lib ndims convertedDims varType outsize parameters).calls = [] ∧
      ∃ e, (Compress lib ndims convertedDims varType outsize parameters).result = .error e) ∧
    (∀ pre post st value, parameters = pre ++ ("szMode", value) :: post →
      value ∉ szModes → parameterLoop lib (initialSettings lib ndims) pre = .ok st →
      (Compress lib ndims convertedDims varType outsize parameters).result =
        .error (.invalid_argument
          ("ERROR: ADIOS2 operator unknown SZ parameter szMode: " ++ value ++ "\n"))) ∧
    (∀ pre post st value, parameters = pre ++ ("errorBoundMode", value) :: post →
      value ∉ errorBoundModes → parameterLoop lib (initialSettings lib ndims) pre = .ok st →
      (Compress lib ndims convertedDims varType outsize parameters).result =
        .error (.invalid_argument
          ("ERROR: ADIOS2 operator unknown SZ parameter errorBoundMode: " ++ value ++ "\n"))) ∧
    (∀ st key value, key ∉ optionKeys → parameter lib st (key, value) = .ok st) ∧
    Compress lib ndims convertedDims varType outsize
        (parameters.filter fun it => decide (it.1 ∈ optionKeys)) =
      Compress lib ndims convertedDims varType outsize parameters := by
  refine ⟨?_, ?_, ?_, parameter_unknown lib, ?_⟩
  · intro key value hmem hbad
    have hraise : ∀ st, ∃ e, parameter lib st (key, value) = .error e := by
      intro st
      rcases hbad with ⟨rfl, hv⟩ | ⟨rfl, hv⟩
      · exact ⟨_, parameter_szMode lib st value hv⟩
      · exact ⟨_, parameter_errorBoundMode lib st value hv⟩
    obtain ⟨e, he⟩ := parameterLoop_raises lib (key, value) hraise parameters
      (initialSettings lib ndims) hmem
    rw [Compress_raises lib ndims convertedDims varType outsize _ _ he]
    exact ⟨rfl, e, rfl⟩
  · intro pre post st value hp hv hpre
    have h : parameterLoop lib (initialSettings lib ndims) parameters =
        .error (.invalid_argument
          ("ERROR: ADIOS2 operator unknown SZ parameter szMode: " ++ value ++ "\n")) := by
      rw [hp, parameterLoop_append, hpre]
      simp only [parameterLoop, parameter_szMode lib st value hv]
    rw [Compress_raises lib ndims convertedDims varType outsize _ _ h]
  · intro pre post st value hp hv hpre
    have h : parameterLoop lib (initialSettings lib ndims) parameters =
        .error (.invalid_argument
          ("ERROR: ADIOS2 operator unknown SZ parameter errorBoundMode: " ++ value ++ "\n")) := by
      rw [hp, parameterLoop_append, hpre]
      simp only [parameterLoop, parameter_errorBoundMode lib st value hv]
    rw [Compress_raises lib ndims convertedDims varType outsize _ _ h]
  · simp only [Compress, parameterLoop_filter]

theorem parameter_validation_witness :
    Params.WellFormed [("comment", "none"), ("szMode", "SZ_FAST")] ∧
    ∀ (lib : Library) (ndims : Nat) (convertedDims : Nat × Nat × Nat × Nat)
      (varType : DataType) (outsize : Nat),
      (Compress lib ndims convertedDims varType outsize
        [("comment", "none"), ("szMode", "SZ_FAST")]).calls = [] ∧
      (Compress lib ndims convertedDims varType outsize
        [("comment", "none"), ("szMode", "SZ_FAST")]).result =
          .error (.invalid_argument
            "ERROR: ADIOS2 operator unknown SZ parameter szMode: SZ_FAST\n") := by
  refine ⟨by decide, ?_⟩
  intro lib ndims convertedDims varType outsize
  obtain ⟨h1, h2, -⟩ := parameter_validation lib ndims convertedDims varType outsize
    [("comment", "none"), ("szMode", "SZ_FAST")]
  exact ⟨(h1 "szMode" "SZ_FAST" (by decide) (Or.inl ⟨rfl, by decide⟩)).1,
    h2 [("comment", "none")] [] (initialSettings lib ndims) "SZ_FAST" rfl (by decide) rfl⟩

end CompressSZ
